import Mathlib

/-!
# bdgl: runtime symbol resolution and capability lookup

A shallow embedding of `src/bdgl_suffix.h` (with the group records of
`src/bdgl_prefix.h`), followed by theorems about it.

Conventions of the embedding

* A byte is a `Nat`; a NUL-terminated string is the list of its bytes before
  the terminator.  A buffer is a `List Nat` of all its bytes.
* A pointer returned by the resolver is a `Nat`, `0` being the null pointer.
  A `const char*` pointing into a buffer is an offset into that buffer.
* `uint32_t` arithmetic is written on `Nat` with an explicit `% 2 ^ 32` where
  the C operation can wrap.
* Every `while (1)` loop takes a fuel argument and answers `none` when the
  fuel is used up (or, for `bdgl_load`, when it would read outside the buffer).
* The resolver is a function; the names it is invoked on are recorded, in
  order, in a `calls` list returned next to the result.
-/

namespace Bdgl

/-! ## Strings -/

/-- Bytes of a string literal, without the terminating NUL. -/
def cstr (s : String) : List Nat := s.toList.map Char.toNat

/-- Byte `i` of the NUL-terminated string whose bytes before the terminator
are `s`; the terminator reads as `0`. -/
def byteAt (s : List Nat) (i : Nat) : Nat := s.getD i 0

/-- The NUL-terminated string that starts at offset `off` of `buf`. -/
def cstrAt (buf : List Nat) (off : Nat) : List Nat :=
  (buf.drop off).takeWhile (fun c => c ≠ 0)

/-- A well-formed non-empty-or-empty string body: every byte is in `1..255`. -/
def IsCStr (s : List Nat) : Prop := ∀ c ∈ s, 0 < c ∧ c < 256

instance (s : List Nat) : Decidable (IsCStr s) := by
  unfold IsCStr; infer_instance

/-- The packed name list of the generator: every name followed by a NUL, and
one more NUL after the last name. -/
def packNames (names : List (List Nat)) : List Nat :=
  (names.map (fun n => n ++ [0])).flatten ++ [0]

/-! ## Context version (`bdgl_ctx`, `bdgl_min_context`) -/

/-- The `bdgl_ctx` static: the parsed context version, zero-initialised. -/
structure bdgl_ctx where
  major : Nat
  minor : Nat
deriving DecidableEq, Repr

/-- `bdgl_get_context_version`: both out-parameters, as a pair. -/
def bdgl_get_context_version (ctx : bdgl_ctx) : Nat × Nat := (ctx.major, ctx.minor)

/-- `bdgl_min_context`: the `int` value of the C boolean expression. -/
def bdgl_min_context (ctx : bdgl_ctx) (major minor : Nat) : Nat :=
  if (ctx.major == major && ctx.minor ≥ minor) || ctx.major > major then 1 else 0

/-! ## Name list walker (`bdgl_load`) -/

/-- What a call of `bdgl_load` leaves behind: the returned pointer (`none` is
NULL, `some off` points at offset `off` of `funcNames`), the pointer array and
the names the resolver was invoked on. -/
structure LoadResult where
  failed : Option Nat
  funcs : Nat → Nat
  calls : List (List Nat)

/-- The `while (1)` loop of `bdgl_load`. -/
def bdgl_load_loop (funcNames : List Nat) (loadproc : List Nat → Nat) :
    Nat → Nat → Nat → Nat → Nat → (Nat → Nat) → List (List Nat) → Option LoadResult
  | 0, _, _, _, _, _, _ => none
  | fuel + 1, fnBegin, fnCount, fnIndex, last, funcs, calls =>
    match funcNames[fnIndex]? with
    | none => none
    | some c =>
      if c = 0 then
        if last = 0 then
          some ⟨none, funcs, calls⟩
        else
          let funcName := cstrAt funcNames fnBegin
          let f := loadproc funcName
          if f = 0 then
            some ⟨some fnBegin, funcs, calls ++ [funcName]⟩
          else
            bdgl_load_loop funcNames loadproc fuel (fnIndex + 1) (fnCount + 1) (fnIndex + 1) c
              (Function.update funcs fnCount f) (calls ++ [funcName])
      else
        bdgl_load_loop funcNames loadproc fuel fnBegin fnCount (fnIndex + 1) c funcs calls

/-- `bdgl_load(funcs, funcNames, loadproc)`. -/
def bdgl_load (fuel : Nat) (funcs : Nat → Nat) (funcNames : List Nat)
    (loadproc : List Nat → Nat) : Option LoadResult :=
  bdgl_load_loop funcNames loadproc fuel 0 0 0 0 funcs []

/-! ## Context version parser (`bdgl_init`) -/

/-- The host side of a call: the resolver `loadproc`, and what the function
behind a resolved pointer answers when called with an enum (`none` is a NULL
string). -/
structure Driver where
  loadproc : List Nat → Nat
  call : Nat → Nat → Option (List Nat)

/-- The enum `GL_VERSION`. -/
def GL_VERSION : Nat := 0x1F02

/-- Result of `bdgl_init`: return value, the context version afterwards and
the names the resolver was invoked on. -/
structure InitResult where
  ret : Nat
  ctx : bdgl_ctx
  calls : List (List Nat)
deriving DecidableEq

/-- `bdgl_init(loadproc)`. -/
def bdgl_init (d : Driver) (ctx : bdgl_ctx) : InitResult :=
  if ctx.major > 0 then
    ⟨0, ctx, []⟩
  else
    let glGetString := d.loadproc (cstr "glGetString")
    let calls := [cstr "glGetString"]
    if glGetString = 0 then
      ⟨1, ctx, calls⟩
    else
      match d.call glGetString GL_VERSION with
      | none => ⟨1, ctx, calls⟩
      | some gl_version =>
        let major := byteAt gl_version 0
        if ¬ ('0'.toNat ≤ major ∧ major ≤ '9'.toNat) then ⟨2, ctx, calls⟩
        else
          let major := major - '0'.toNat
          if byteAt gl_version 1 ≠ '.'.toNat then ⟨3, ctx, calls⟩
          else
            let minor := byteAt gl_version 2
            if ¬ ('0'.toNat ≤ minor ∧ minor ≤ '9'.toNat) then ⟨4, ctx, calls⟩
            else
              let minor := minor - '0'.toNat
              let suffix := byteAt gl_version 3
              if suffix = 0 ∨ suffix = ' '.toNat ∨ suffix = '.'.toNat then
                ⟨0, ⟨major, minor⟩, calls⟩
              else
                ⟨5, ctx, calls⟩

/-! ## Capability loader (`bdgl_load_version`, `bdgl_load_extension`) -/

/-- The record `bdgl_Version` of `bdgl_prefix.h`; `funcs` is the memory behind
the `void**`. -/
structure bdgl_Version where
  major : Nat
  minor : Nat
  loaded : Nat
  names : List Nat
  funcs : Nat → Nat

/-- The record `bdgl_Extension` of `bdgl_prefix.h`. -/
structure bdgl_Extension where
  loaded : Nat
  names : List Nat
  funcs : Nat → Nat

/-- Result of `bdgl_load_version`: return value, the group and the context
version afterwards, and the names the resolver was invoked on. -/
structure VersionResult where
  ret : Nat
  version : bdgl_Version
  ctx : bdgl_ctx
  calls : List (List Nat)

/-- Result of `bdgl_load_extension`. -/
structure ExtensionResult where
  ret : Nat
  extension : bdgl_Extension
  ctx : bdgl_ctx
  calls : List (List Nat)

/-- `bdgl_load_version(version, loadproc)`. -/
def bdgl_load_version (fuel : Nat) (d : Driver) (version : bdgl_Version) (ctx : bdgl_ctx) :
    Option VersionResult :=
  if version.loaded ≠ 0 then
    some ⟨0, version, ctx, []⟩
  else
    let r := bdgl_init d ctx
    if r.ret ≠ 0 then
      some ⟨1, version, r.ctx, r.calls⟩
    else if bdgl_min_context r.ctx version.major version.minor = 0 then
      some ⟨1, version, r.ctx, r.calls⟩
    else
      match bdgl_load fuel version.funcs version.names d.loadproc with
      | none => none
      | some l =>
        match l.failed with
        | some _ => some ⟨1, { version with funcs := l.funcs }, r.ctx, r.calls ++ l.calls⟩
        | none =>
          some ⟨0, { version with funcs := l.funcs, loaded := 1 }, r.ctx, r.calls ++ l.calls⟩

/-- `bdgl_load_extension(extension, loadproc)`. -/
def bdgl_load_extension (fuel : Nat) (d : Driver) (extension : bdgl_Extension) (ctx : bdgl_ctx) :
    Option ExtensionResult :=
  if extension.loaded ≠ 0 then
    some ⟨0, extension, ctx, []⟩
  else
    let r := bdgl_init d ctx
    if r.ret ≠ 0 then
      some ⟨1, extension, r.ctx, r.calls⟩
    else
      match bdgl_load fuel extension.funcs extension.names d.loadproc with
      | none => none
      | some l =>
        match l.failed with
        | some _ => some ⟨1, { extension with funcs := l.funcs }, r.ctx, r.calls ++ l.calls⟩
        | none =>
          some ⟨0, { extension with funcs := l.funcs, loaded := 1 }, r.ctx, r.calls ++ l.calls⟩

/-! ## Hashing (`bdgl_hash32`, `bdgl_strhash`) -/

/-- `bdgl_hash32`, on `uint32_t`. -/
def bdgl_hash32 (x : Nat) : Nat :=
  let x := x ^^^ (x >>> 16)
  let x := (x * 0x7feb352d) % 2 ^ 32
  let x := x ^^^ (x >>> 15)
  let x := (x * 0x846ca68b) % 2 ^ 32
  let x := x ^^^ (x >>> 16)
  x

/-- The operand `c` of `hash ^ c`: the `char` is promoted to `int` and then
converted to `uint32_t`.  Where `char` is signed, a byte of 128 or more is
sign-extended. -/
def charToU32 (signedChar : Bool) (c : Nat) : Nat :=
  if signedChar && decide (128 ≤ c) then 0xFFFFFF00 + c else c

/-- The loop of `bdgl_strhash` over the bytes of `s`; the end of the list is
the terminator. -/
def bdgl_strhash_loop (signedChar : Bool) : List Nat → Nat → Nat → Nat × Nat
  | [], hash, len => (hash, len)
  | c :: s, hash, len =>
    if c = 0 then (hash, len)
    else bdgl_strhash_loop signedChar s (bdgl_hash32 (hash ^^^ charToU32 signedChar c)) (len + 1)

/-- `bdgl_strhash(s, &outLen)`: the pair `(hash, outLen)`. -/
def bdgl_strhash (signedChar : Bool) (s : List Nat) : Nat × Nat :=
  bdgl_strhash_loop signedChar s 31 0

/-! ## Capability set (`bdgl_ext_init`, `bdgl_have_ext`) -/

/-- The `bdgl_exts_tbl` static. -/
structure bdgl_exts_tbl where
  tblSize : Nat
  tbl : List Nat
  pool : List Nat
  poolSize : Nat
  poolCapacity : Nat
  extCount : Nat
deriving DecidableEq, Repr

/-- `bdgl_get_ext_count`. -/
def bdgl_get_ext_count (t : bdgl_exts_tbl) : Nat := t.extCount

/-- The loops `while (size < minSize) size *= 2;` on `uint32_t`. -/
def pow2_loop : Nat → Nat → Nat → Option Nat
  | 0, _, _ => none
  | fuel + 1, size, minSize =>
    if size < minSize then pow2_loop fuel ((size * 2) % 2 ^ 32) minSize else some size

/-- `realloc(pool, n)`: the first `n` bytes are kept, new bytes read as 0. -/
def realloc (pool : List Nat) (n : Nat) : List Nat :=
  pool.take n ++ List.replicate (n - pool.length) 0

/-- The loop `while (extNameLen > poolCapacity - poolSize)` that doubles the
pool; answers the pool and its capacity. -/
def pool_loop : Nat → Nat → Nat → List Nat → Nat → Option (List Nat × Nat)
  | 0, _, _, _, _ => none
  | fuel + 1, extNameLen, poolSize, pool, poolCapacity =>
    if extNameLen % 2 ^ 32 > (poolCapacity + 2 ^ 32 - poolSize) % 2 ^ 32 then
      let poolCapacity := (poolCapacity * 2) % 2 ^ 32
      pool_loop fuel extNameLen poolSize (realloc pool poolCapacity) poolCapacity
    else
      some (pool, poolCapacity)

/-- `memcpy(&pool[offset], src, src.length)`. -/
def memcpy (pool : List Nat) (offset : Nat) (src : List Nat) : List Nat :=
  pool.take offset ++ src ++ pool.drop (offset + src.length)

/-- `memcmp(&pool[offset], s, n) == 0`. -/
def memcmp_eq (pool : List Nat) (offset : Nat) (s : List Nat) (n : Nat) : Bool :=
  (pool.drop offset).take n == s.take n

/-- The robin-hood insertion loop of `bdgl_ext_init`. -/
def insert_loop (tblSize : Nat) : Nat → List Nat → Nat → Nat → Nat → Option (List Nat)
  | 0, _, _, _, _ => none
  | fuel + 1, tbl, newEntry, probeCount, idx =>
    let idx := idx % tblSize
    let slotEntry := tbl.getD idx 0
    if slotEntry = 0 then
      some (tbl.set idx (newEntry ||| (probeCount <<< 8) % 2 ^ 32))
    else
      let slotDisp := (slotEntry >>> 8) &&& 0xff
      if probeCount > slotDisp then
        insert_loop tblSize fuel (tbl.set idx (newEntry ||| (probeCount <<< 8) % 2 ^ 32))
          (slotEntry &&& 0xffff00ff) (slotDisp + 1) (idx + 1)
      else
        insert_loop tblSize fuel tbl newEntry (probeCount + 1) (idx + 1)

/-- One round of the `for` loop of `bdgl_ext_init`, for the name `extName`. -/
def ext_step (fuel : Nat) (signedChar : Bool) (t : bdgl_exts_tbl) (extName : List Nat) :
    Option bdgl_exts_tbl :=
  let hash := (bdgl_strhash signedChar extName).1
  let extNameLen := (bdgl_strhash signedChar extName).2
  match pool_loop fuel extNameLen t.poolSize t.pool t.poolCapacity with
  | none => none
  | some (pool, poolCapacity) =>
    let offset := t.poolSize % 2 ^ 16
    let pool := memcpy pool offset (extName.take extNameLen)
    let poolSize := (t.poolSize + extNameLen) % 2 ^ 32
    let newEntry := (offset <<< 16) ||| (extNameLen % 2 ^ 32)
    match insert_loop t.tblSize fuel t.tbl newEntry 0 hash with
    | none => none
    | some tbl =>
      some { t with tbl := tbl, pool := pool, poolSize := poolSize, poolCapacity := poolCapacity }

/-- The `for` loop of `bdgl_ext_init` over the enumerated names. -/
def ext_loop (fuel : Nat) (signedChar : Bool) : List (List Nat) → bdgl_exts_tbl →
    Option bdgl_exts_tbl
  | [], t => some t
  | extName :: rest, t =>
    match ext_step fuel signedChar t extName with
    | none => none
    | some t => ext_loop fuel signedChar rest t

/-- `bdgl_ext_init()`, the driver enumerating the names `exts`
(`GL_NUM_EXTENSIONS` is their number, `glGetStringi` gives the i-th). -/
def bdgl_ext_init (fuel : Nat) (signedChar : Bool) (exts : List (List Nat)) :
    Option bdgl_exts_tbl :=
  let extCount := exts.length
  let minTableSize := (extCount + extCount / 2) % 2 ^ 32
  match pow2_loop fuel 32 minTableSize with
  | none => none
  | some tableSize =>
    let minPoolCap := (extCount * 25) % 2 ^ 32
    match pow2_loop fuel 256 minPoolCap with
    | none => none
    | some poolCap =>
      ext_loop fuel signedChar exts
        { tblSize := tableSize
          tbl := List.replicate tableSize 0
          pool := List.replicate poolCap 0
          poolSize := 0
          poolCapacity := poolCap
          extCount := extCount }

/-- The probe loop of `bdgl_have_ext`; answers the returned value and the
probe count at which it returned. -/
def have_loop (tblSize : Nat) (tbl pool extName : List Nat) (extNameLen : Nat) :
    Nat → Nat → Nat → Option (Nat × Nat)
  | 0, _, _ => none
  | fuel + 1, probeCount, idx =>
    let idx := idx % tblSize
    let slotEntry := tbl.getD idx 0
    if slotEntry = 0 then
      some (0, probeCount)
    else
      let slotDisp := (slotEntry >>> 8) &&& 0xff
      if probeCount > slotDisp then
        some (0, probeCount)
      else
        let slotLen := slotEntry &&& 0xff
        let slotOffset := (slotEntry >>> 16) &&& 0xffff
        if slotLen = extNameLen ∧ memcmp_eq pool slotOffset extName extNameLen = true then
          some (1, probeCount)
        else
          have_loop tblSize tbl pool extName extNameLen fuel (probeCount + 1) (idx + 1)

/-- `bdgl_have_ext(extName)` together with the probe count at which the loop
returned. -/
def bdgl_have_ext_probe (fuel : Nat) (signedChar : Bool) (t : bdgl_exts_tbl)
    (extName : List Nat) : Option (Nat × Nat) :=
  let hash := (bdgl_strhash signedChar extName).1
  let extNameLen := (bdgl_strhash signedChar extName).2
  have_loop t.tblSize t.tbl t.pool extName extNameLen fuel 0 hash

/-- `bdgl_have_ext(extName)`. -/
def bdgl_have_ext (fuel : Nat) (signedChar : Bool) (t : bdgl_exts_tbl) (extName : List Nat) :
    Option Nat :=
  (bdgl_have_ext_probe fuel signedChar t extName).map Prod.fst

/-- The build followed by one query, as `main` of `loader_main.c` does. -/
def build_and_query (fuel : Nat) (signedChar : Bool) (exts : List (List Nat)) (q : List Nat) :
    Option Nat :=
  match bdgl_ext_init fuel signedChar exts with
  | none => none
  | some t => bdgl_have_ext fuel signedChar t q


/-! ## Specification-side vocabulary -/

/-- An ASCII digit `0`..`9`. -/
def is_digit (c : Nat) : Prop := '0'.toNat ≤ c ∧ c ≤ '9'.toNat

instance (c : Nat) : Decidable (is_digit c) := by
  unfold is_digit; infer_instance

/-- Byte 3 of an accepted version string: end of string, a space or a dot. -/
def is_suffix_ok (c : Nat) : Prop := c = 0 ∨ c = ' '.toNat ∨ c = '.'.toNat

instance (c : Nat) : Decidable (is_suffix_ok c) := by
  unfold is_suffix_ok; infer_instance

/-- The six failure kinds that the specification lists for the version
parser. -/
inductive InitFailure where
  | resolverMiss
  | nullVersion
  | byte0
  | byte1
  | byte2
  | byte3
deriving DecidableEq, Repr

/-- The failure kind of an input according to the specification: the first
rule, in the order of the taxonomy, that the input violates; `none` when the
input violates none. -/
def spec_init_failure (d : Driver) : Option InitFailure :=
  if d.loadproc (cstr "glGetString") = 0 then some .resolverMiss
  else
    match d.call (d.loadproc (cstr "glGetString")) GL_VERSION with
    | none => some .nullVersion
    | some s =>
      if ¬ is_digit (byteAt s 0) then some .byte0
      else if byteAt s 1 ≠ '.'.toNat then some .byte1
      else if ¬ is_digit (byteAt s 2) then some .byte2
      else if ¬ is_suffix_ok (byteAt s 3) then some .byte3
      else none

/-- A driver whose resolver finds nothing. -/
def driver_miss : Driver := ⟨fun _ => 0, fun _ _ => some (cstr "3.3")⟩

/-- A driver whose version query answers a NULL string. -/
def driver_null : Driver := ⟨fun _ => 1, fun _ _ => none⟩

/-- A driver that resolves every name to the pointer 1 and reports the
version string `s`. -/
def driver_of (s : String) : Driver := ⟨fun _ => 1, fun _ _ => some (cstr s)⟩

/-- The value `bdgl_init` returns for each failure kind (`none`: no failure),
read off the `return` statements of the source. -/
def failure_code : Option InitFailure → Nat
  | none => 0
  | some .resolverMiss => 1
  | some .nullVersion => 1
  | some .byte0 => 2
  | some .byte1 => 3
  | some .byte2 => 4
  | some .byte3 => 5

/-- The pointer array after the pointers `ps` have been stored from slot
`fnCount` on, one after the other. -/
def store_all (funcs : Nat → Nat) : Nat → List Nat → (Nat → Nat)
  | _, [] => funcs
  | fnCount, p :: ps => store_all (Function.update funcs fnCount p) (fnCount + 1) ps

/-- Length of the packed form of `names`, without the closing NUL: the offset
of the name that would follow them. -/
def packed_len (names : List (List Nat)) : Nat :=
  ((names.map (fun n => n ++ [0])).flatten).length

/-- The group `bdgl_GL_VERSION_1_0` of `bdgl_manual.h`, its pointer array
zeroed. -/
def bdgl_GL_VERSION_1_0 : bdgl_Version :=
  { major := 1
    minor := 0
    loaded := 0
    names := packNames [cstr "glGetString", cstr "glGetStringi", cstr "glGetIntegerv"]
    funcs := fun _ => 0 }

/-! ## Vocabulary of the capability-set proofs -/

/-- The displacement byte of a slot entry, as `bdgl_ext_init` and
`bdgl_have_ext` extract it (`slotDisp`). -/
def entry_disp (e : Nat) : Nat := (e >>> 8) &&& 0xff

/-- The slot before slot `i` in probe order, in a table of `S` slots. -/
def prev_slot (S i : Nat) : Nat := (i + S - 1) % S

/-- A key is a slot entry with displacement 0 whose fields are exact: a
16-bit offset and a length in `1..255`. -/
def is_key (k : Nat) : Prop :=
  ∃ off len, k = off * 65536 + len ∧ off < 65536 ∧ 0 < len ∧ len < 256

/-- The table invariant of the robin-hood build: `T` has `S` slots, every
occupied slot holds a key of `K` at a displacement below `B` from the key's
home `H k`, an entry displaced by `d > 0` is preceded by an entry displaced by
at least `d - 1`, every key of `K` is stored, and at most `B` slots are
occupied. -/
structure TblInv (S : Nat) (H : Nat → Nat) (B : Nat) (K : Nat → Prop) (T : List Nat) : Prop where
  len : T.length = S
  slot : ∀ i, i < S → T.getD i 0 ≠ 0 →
    ∃ k d, K k ∧ d < B ∧ T.getD i 0 = k + d * 256 ∧ (H k + d) % S = i
  rh : ∀ i, i < S → T.getD i 0 ≠ 0 → 0 < entry_disp (T.getD i 0) →
    T.getD (prev_slot S i) 0 ≠ 0 ∧
      entry_disp (T.getD i 0) ≤ entry_disp (T.getD (prev_slot S i) 0) + 1
  mem : ∀ k, K k → ∃ i d, i < S ∧ d < B ∧ T.getD i 0 = k + d * 256 ∧ (H k + d) % S = i
  cnt : T.countP (fun e => e != 0) ≤ B
  keys : ∀ k, K k → is_key k

/-- The invariant of the insertion loop while the key `k0` is inserted into a
table that held the keys `K`: the candidate `k` stands at probe count `p` in
front of slot `idx`, with the first empty slot `j` slots ahead. -/
structure LoopInv (S : Nat) (H : Nat → Nat) (B : Nat) (K : Nat → Prop) (k0 : Nat)
    (T : List Nat) (k p idx j : Nat) : Prop where
  len : T.length = S
  key : is_key k
  kmem : k = k0 ∨ K k
  pB : p ≤ B
  home : (H k + p) % S = idx % S
  crh : 0 < p → T.getD (prev_slot S (idx % S)) 0 ≠ 0 ∧
    p ≤ entry_disp (T.getD (prev_slot S (idx % S)) 0) + 1
  slot : ∀ i, i < S → T.getD i 0 ≠ 0 →
    ∃ k' d, (k' = k0 ∨ K k') ∧ d ≤ B ∧ T.getD i 0 = k' + d * 256 ∧ (H k' + d) % S = i
  ahead : ∀ i, i < j → entry_disp (T.getD ((idx + i) % S) 0) < B
  rh : ∀ i, i < S → T.getD i 0 ≠ 0 → 0 < entry_disp (T.getD i 0) →
    T.getD (prev_slot S i) 0 ≠ 0 ∧
      entry_disp (T.getD i 0) ≤ entry_disp (T.getD (prev_slot S i) 0) + 1
  mem : ∀ k', (k' = k0 ∨ K k') →
    k' = k ∨ ∃ i d, i < S ∧ d ≤ B ∧ T.getD i 0 = k' + d * 256 ∧ (H k' + d) % S = i
  cnt : T.countP (fun e => e != 0) ≤ B
  keys : ∀ k', (k' = k0 ∨ K k') → is_key k'

/-- The bytes that the key `k` designates in the pool contents `blob`. -/
def key_name (blob : List Nat) (k : Nat) : List Nat :=
  (blob.drop (k / 65536)).take (k % 256)

/-- The key under which the `i`-th enumerated name is stored: its offset in
the pool, which is the total length of the names before it, and its length. -/
def name_key (names : List (List Nat)) (i : Nat) : Nat :=
  ((names.take i).flatten).length * 65536 + (names.getD i []).length

/-- The home hash of a key: the hash of the bytes it designates. -/
def key_hash (signedChar : Bool) (blob : List Nat) (k : Nat) : Nat :=
  (bdgl_strhash signedChar (key_name blob k)).1

/-- The state of `bdgl_ext_init` after the first `m` of the names `names`
have been inserted into a table of `S` slots. -/
structure ExtInv (signedChar : Bool) (names : List (List Nat)) (S m : Nat)
    (t : bdgl_exts_tbl) : Prop where
  size : t.tblSize = S
  psize : t.poolSize = ((names.take m).flatten).length
  pool : t.pool.take t.poolSize = (names.take m).flatten
  plen : t.pool.length = t.poolCapacity
  cap_lo : 256 ≤ t.poolCapacity
  cap_hi : t.poolCapacity ≤ 2 ^ 17
  tbl : TblInv S (key_hash signedChar names.flatten) m
    (fun k => ∃ i, i < m ∧ k = name_key names i) t.tbl

/-! ## Vocabulary of the loader comparison -/

/-- The gated group with the fields of the extension `e` and the minimum
version `(0, 0)`. -/
def as_version (e : bdgl_Extension) : bdgl_Version :=
  { major := 0, minor := 0, loaded := e.loaded, names := e.names, funcs := e.funcs }

/-- The result of a gated load, read as the result of an ungated load: the
same return value, loaded flag, names, pointer array, context version and
resolver invocations. -/
def as_extension_result (r : VersionResult) : ExtensionResult :=
  { ret := r.ret
    extension := { loaded := r.version.loaded, names := r.version.names, funcs := r.version.funcs }
    ctx := r.ctx
    calls := r.calls }

/-- A group that requires context version 4.0 and lists `glGetString` next to
a 4.0 entry point. -/
def group_4_0 : bdgl_Version :=
  { major := 4
    minor := 0
    loaded := 0
    names := packNames [cstr "glGetString", cstr "glMinSampleShading"]
    funcs := fun _ => 0 }

/-- An extension group as the generator would emit it for
`GL_ARB_draw_instanced`. -/
def ext_draw_instanced : bdgl_Extension :=
  { loaded := 0
    names := packNames [cstr "glDrawArraysInstancedARB", cstr "glDrawElementsInstancedARB"]
    funcs := fun _ => 0 }

/-! ## Specification-side hashing -/

/-- The avalanche step in the words of the specification, modulo `2 ^ 32`:
`x ^= x >> 16; x *= 0x7feb352d; x ^= x >> 15; x *= 0x846ca68b; x ^= x >> 16`. -/
def spec_avalanche (x : Nat) : Nat :=
  let x := x ^^^ (x >>> 16)
  let x := (x * 0x7feb352d) % 2 ^ 32
  let x := x ^^^ (x >>> 15)
  let x := (x * 0x846ca68b) % 2 ^ 32
  x ^^^ (x >>> 16)

/-- The bytes of a NUL-terminated string: those before the first NUL. -/
def before_nul (s : List Nat) : List Nat := s.takeWhile (fun c => c ≠ 0)

/-- The hash and length in the words of the specification: from seed 31,
`hash = avalanche(hash XOR byte)` over the bytes in order, each byte taken as
its value `0..255`; and the number of bytes before the first NUL. -/
def spec_strhash (s : List Nat) : Nat × Nat :=
  ((before_nul s).foldl (fun hash byte => spec_avalanche (hash ^^^ byte)) 31,
    (before_nul s).length)

/-- The hash and length that `bdgl_strhash` computes, as a fold: every byte
enters the hash as `charToU32` converts it. -/
def fold_strhash (signedChar : Bool) (s : List Nat) : Nat × Nat :=
  ((before_nul s).foldl (fun hash c => bdgl_hash32 (hash ^^^ charToU32 signedChar c)) 31,
    (before_nul s).length)

/-! ## Vocabulary of the build in general -/

/-- The number of occupied (non-zero) slots of a table. -/
def occupied (T : List Nat) : Nat := T.countP (fun e => e != 0)

/-- The state of `bdgl_ext_init` when its `for` loop starts: a zeroed table
of `tableSize` slots and an empty pool of capacity `poolCap`. -/
def ext_initial (tableSize poolCap extCount : Nat) : bdgl_exts_tbl :=
  { tblSize := tableSize
    tbl := List.replicate tableSize 0
    pool := List.replicate poolCap 0
    poolSize := 0
    poolCapacity := poolCap
    extCount := extCount }

/-- The state of `bdgl_ext_init` after the first `m` of the names `names`,
whatever their lengths: the table has `S` slots of which at most `m` are
occupied, the pool size is the total length of these names, and while the
pool size is at most 65536 the pool holds these names one after the other. -/
structure BuildInv (names : List (List Nat)) (S m : Nat) (t : bdgl_exts_tbl) : Prop where
  size : t.tblSize = S
  tlen : t.tbl.length = S
  cnt : occupied t.tbl ≤ m
  psize : t.poolSize = ((names.take m).flatten).length
  plen : t.pool.length = t.poolCapacity
  pfit : t.poolSize ≤ t.poolCapacity
  cap_lo : 256 ≤ t.poolCapacity
  cap_hi : t.poolCapacity < 2 ^ 32
  pool : t.poolSize ≤ 65536 → t.pool.take t.poolSize = (names.take m).flatten

/-- Three capability names, as a driver could enumerate them. -/
def sample_names : List (List Nat) :=
  [cstr "GL_ARB_draw_instanced", cstr "GL_EXT_texture", cstr "GL_KHR_debug"]

/-- Two names of 200 bytes each, together more than the 256 bytes of the
initial pool, so that the build has to grow the pool. -/
def grow_names : List (List Nat) := [List.replicate 200 97, List.replicate 200 98]

/-- The stores `tbl[idx] = newEntry | (probeCount << 8)` that the insertion
loop performs, in order, each as the slot index and the stored entry; the
control flow is that of `insert_loop`. -/
def insert_loop_writes (tblSize : Nat) : Nat → List Nat → Nat → Nat → Nat → List (Nat × Nat)
  | 0, _, _, _, _ => []
  | fuel + 1, tbl, newEntry, probeCount, idx =>
    let idx := idx % tblSize
    let slotEntry := tbl.getD idx 0
    if slotEntry = 0 then
      [(idx, newEntry ||| (probeCount <<< 8) % 2 ^ 32)]
    else
      let slotDisp := (slotEntry >>> 8) &&& 0xff
      if probeCount > slotDisp then
        (idx, newEntry ||| (probeCount <<< 8) % 2 ^ 32) ::
          insert_loop_writes tblSize fuel (tbl.set idx (newEntry ||| (probeCount <<< 8) % 2 ^ 32))
            (slotEntry &&& 0xffff00ff) (slotDisp + 1) (idx + 1)
      else
        insert_loop_writes tblSize fuel tbl newEntry (probeCount + 1) (idx + 1)

/-- The stores into the table in one round of the `for` loop of
`bdgl_ext_init`, for the name `extName`. -/
def ext_step_writes (fuel : Nat) (signedChar : Bool) (t : bdgl_exts_tbl) (extName : List Nat) :
    List (Nat × Nat) :=
  let hash := (bdgl_strhash signedChar extName).1
  let extNameLen := (bdgl_strhash signedChar extName).2
  match pool_loop fuel extNameLen t.poolSize t.pool t.poolCapacity with
  | none => []
  | some _ =>
    let offset := t.poolSize % 2 ^ 16
    let newEntry := (offset <<< 16) ||| (extNameLen % 2 ^ 32)
    insert_loop_writes t.tblSize fuel t.tbl newEntry 0 hash

/-- The stores into the table in the `for` loop of `bdgl_ext_init`. -/
def ext_loop_writes (fuel : Nat) (signedChar : Bool) : List (List Nat) → bdgl_exts_tbl →
    List (Nat × Nat)
  | [], _ => []
  | extName :: rest, t =>
    ext_step_writes fuel signedChar t extName ++
      match ext_step fuel signedChar t extName with
      | none => []
      | some t => ext_loop_writes fuel signedChar rest t

/-- The stores into the table during `bdgl_ext_init()`. -/
def bdgl_ext_init_writes (fuel : Nat) (signedChar : Bool) (exts : List (List Nat)) :
    List (Nat × Nat) :=
  let extCount := exts.length
  let minTableSize := (extCount + extCount / 2) % 2 ^ 32
  match pow2_loop fuel 32 minTableSize with
  | none => []
  | some tableSize =>
    let minPoolCap := (extCount * 25) % 2 ^ 32
    match pow2_loop fuel 256 minPoolCap with
    | none => []
    | some poolCap =>
      ext_loop_writes fuel signedChar exts (ext_initial tableSize poolCap extCount)

/-- The displacement values that the insertion loop writes: the value of
`probeCount` in each store `tbl[idx] = newEntry | (probeCount << 8)`, in
order; the control flow is that of `insert_loop`. -/
def insert_loop_disps (tblSize : Nat) : Nat → List Nat → Nat → Nat → Nat → List Nat
  | 0, _, _, _, _ => []
  | fuel + 1, tbl, newEntry, probeCount, idx =>
    let idx := idx % tblSize
    let slotEntry := tbl.getD idx 0
    if slotEntry = 0 then
      [probeCount]
    else
      let slotDisp := (slotEntry >>> 8) &&& 0xff
      if probeCount > slotDisp then
        probeCount ::
          insert_loop_disps tblSize fuel (tbl.set idx (newEntry ||| (probeCount <<< 8) % 2 ^ 32))
            (slotEntry &&& 0xffff00ff) (slotDisp + 1) (idx + 1)
      else
        insert_loop_disps tblSize fuel tbl newEntry (probeCount + 1) (idx + 1)

/-- The displacement values written in one round of the `for` loop of
`bdgl_ext_init`, for the name `extName`. -/
def ext_step_disps (fuel : Nat) (signedChar : Bool) (t : bdgl_exts_tbl) (extName : List Nat) :
    List Nat :=
  let hash := (bdgl_strhash signedChar extName).1
  let extNameLen := (bdgl_strhash signedChar extName).2
  match pool_loop fuel extNameLen t.poolSize t.pool t.poolCapacity with
  | none => []
  | some _ =>
    let offset := t.poolSize % 2 ^ 16
    let newEntry := (offset <<< 16) ||| (extNameLen % 2 ^ 32)
    insert_loop_disps t.tblSize fuel t.tbl newEntry 0 hash

/-- The displacement values written in the `for` loop of `bdgl_ext_init`. -/
def ext_loop_disps (fuel : Nat) (signedChar : Bool) : List (List Nat) → bdgl_exts_tbl →
    List Nat
  | [], _ => []
  | extName :: rest, t =>
    ext_step_disps fuel signedChar t extName ++
      match ext_step fuel signedChar t extName with
      | none => []
      | some t => ext_loop_disps fuel signedChar rest t

/-- The displacement values written during `bdgl_ext_init()`. -/
def bdgl_ext_init_disps (fuel : Nat) (signedChar : Bool) (exts : List (List Nat)) : List Nat :=
  let extCount := exts.length
  let minTableSize := (extCount + extCount / 2) % 2 ^ 32
  match pow2_loop fuel 32 minTableSize with
  | none => []
  | some tableSize =>
    let minPoolCap := (extCount * 25) % 2 ^ 32
    match pow2_loop fuel 256 minPoolCap with
    | none => []
    | some poolCap =>
      ext_loop_disps fuel signedChar exts (ext_initial tableSize poolCap extCount)

/-- The largest displacement value written into a slot during the build: the
largest `probeCount` of its stores. -/
def max_written_disp (fuel : Nat) (signedChar : Bool) (exts : List (List Nat)) : Nat :=
  (bdgl_ext_init_disps fuel signedChar exts).foldl max 0

/-- A name of 258 bytes: `Gb` followed by 256 bytes `p`. -/
def long_name : List Nat := [71, 98] ++ List.replicate 256 112

/-! ## A cluster of 257 names -/

/-- 257 distinct names of four bytes (lower-case letters and digits) whose
hashes all select slot 134 of a table of 512 slots. -/
def cluster_names : List (List Nat) :=
  [[97, 97, 103, 51], [97, 97, 112, 106], [97, 97, 55, 115], [97, 99, 101, 121], [97, 99, 105, 113],
   [97, 99, 54, 115], [97, 100, 116, 120], [97, 100, 49, 54], [97, 100, 56, 116], [97, 101, 119, 50],
   [97, 101, 55, 117], [97, 103, 97, 110], [97, 103, 116, 48], [97, 103, 122, 120], [97, 103, 56, 118],
   [97, 104, 100, 116], [97, 104, 112, 117], [97, 104, 115, 52], [97, 104, 117, 120], [97, 104, 122, 48],
   [97, 105, 99, 52], [97, 105, 102, 106], [97, 105, 119, 107], [97, 105, 120, 116], [97, 106, 102, 107],
   [97, 107, 111, 57], [97, 107, 112, 119], [97, 108, 99, 110], [97, 108, 105, 116], [97, 108, 112, 120],
   [97, 109, 102, 48], [97, 109, 107, 115], [97, 109, 108, 111], [97, 109, 113, 117], [97, 109, 119, 107],
   [97, 109, 54, 112], [97, 110, 101, 55], [97, 110, 120, 112], [97, 110, 53, 55], [97, 110, 55, 113],
   [97, 111, 122, 108], [97, 111, 48, 48], [97, 111, 54, 109], [97, 112, 107, 51], [97, 112, 112, 119],
   [97, 112, 51, 118], [97, 114, 115, 98], [97, 115, 100, 104], [97, 115, 101, 101], [97, 115, 122, 52],
   [97, 116, 120, 49], [97, 116, 49, 118], [97, 116, 50, 97], [97, 117, 110, 54], [97, 117, 50, 102],
   [97, 117, 55, 112], [97, 118, 109, 107], [97, 118, 115, 98], [97, 119, 102, 105], [97, 119, 114, 122],
   [97, 119, 119, 111], [97, 119, 50, 49], [97, 119, 53, 114], [97, 120, 106, 52], [97, 120, 111, 113],
   [97, 120, 52, 117], [97, 121, 111, 110], [97, 121, 113, 105], [97, 121, 122, 112], [97, 122, 122, 104],
   [97, 48, 97, 120], [97, 48, 99, 109], [97, 48, 117, 108], [97, 49, 100, 97], [97, 49, 105, 112],
   [97, 49, 106, 99], [97, 49, 114, 111], [97, 49, 56, 110], [97, 51, 99, 117], [97, 51, 107, 107],
   [97, 51, 114, 116], [97, 51, 122, 121], [97, 52, 120, 52], [97, 52, 122, 48], [97, 52, 49, 121],
   [97, 52, 57, 108], [97, 53, 98, 120], [97, 53, 111, 122], [97, 53, 112, 103], [97, 55, 106, 114],
   [97, 55, 111, 119], [97, 55, 116, 118], [97, 55, 122, 50], [97, 55, 52, 99], [97, 56, 105, 114],
   [97, 56, 51, 120], [97, 57, 105, 101], [98, 97, 97, 57], [98, 97, 103, 104], [98, 97, 115, 118],
   [98, 97, 122, 52], [98, 97, 52, 51], [98, 97, 56, 100], [98, 97, 56, 106], [98, 97, 56, 51],
   [98, 98, 49, 57], [98, 99, 97, 114], [98, 99, 112, 100], [98, 99, 52, 98], [98, 99, 57, 50],
   [98, 100, 98, 113], [98, 100, 103, 104], [98, 100, 108, 56], [98, 100, 51, 111], [98, 101, 121, 110],
   [98, 101, 52, 108], [98, 101, 56, 122], [98, 101, 57, 99], [98, 102, 112, 102], [98, 102, 122, 51],
   [98, 102, 48, 56], [98, 102, 49, 101], [98, 102, 51, 100], [98, 102, 51, 105], [98, 102, 57, 117],
   [98, 103, 103, 98], [98, 103, 104, 113], [98, 103, 108, 103], [98, 103, 56, 56], [98, 104, 112, 99],
   [98, 104, 121, 120], [98, 105, 121, 114], [98, 106, 99, 108], [98, 106, 104, 116], [98, 106, 50, 113],
   [98, 106, 55, 117], [98, 107, 112, 115], [98, 107, 57, 101], [98, 107, 57, 116], [98, 108, 101, 105],
   [98, 108, 103, 52], [98, 108, 104, 120], [98, 108, 49, 116], [98, 108, 53, 56], [98, 109, 110, 99],
   [98, 109, 112, 55], [98, 109, 53, 120], [98, 110, 112, 55], [98, 110, 51, 112], [98, 110, 54, 101],
   [98, 111, 101, 107], [98, 111, 102, 116], [98, 112, 98, 53], [98, 112, 57, 108], [98, 113, 101, 55],
   [98, 113, 105, 109], [98, 113, 122, 110], [98, 113, 56, 111], [98, 114, 105, 105], [98, 114, 108, 99],
   [98, 114, 53, 121], [98, 115, 114, 52], [98, 115, 120, 113], [98, 116, 102, 52], [98, 116, 110, 115],
   [98, 117, 97, 121], [98, 117, 115, 57], [98, 117, 49, 57], [98, 117, 56, 55], [98, 119, 112, 97],
   [98, 119, 114, 106], [98, 119, 53, 111], [98, 119, 56, 121], [98, 120, 97, 103], [98, 120, 99, 99],
   [98, 120, 101, 48], [98, 120, 52, 48], [98, 120, 56, 116], [98, 121, 115, 116], [98, 121, 56, 120],
   [98, 122, 119, 116], [98, 122, 57, 113], [98, 48, 108, 97], [98, 49, 108, 117], [98, 49, 110, 57],
   [98, 49, 112, 105], [98, 49, 120, 106], [98, 50, 100, 115], [98, 50, 102, 115], [98, 50, 108, 53],
   [98, 51, 119, 111], [98, 52, 97, 112], [98, 53, 111, 57], [98, 54, 109, 104], [98, 54, 113, 111],
   [98, 55, 106, 55], [98, 55, 110, 116], [98, 55, 50, 113], [98, 55, 55, 118], [98, 56, 101, 117],
   [98, 56, 119, 52], [98, 56, 48, 118], [98, 56, 50, 52], [98, 57, 50, 118], [99, 97, 110, 121],
   [99, 98, 52, 97], [99, 99, 119, 118], [99, 100, 101, 121], [99, 100, 114, 103], [99, 100, 117, 55],
   [99, 101, 114, 115], [99, 101, 117, 116], [99, 101, 119, 121], [99, 101, 50, 111], [99, 102, 105, 118],
   [99, 102, 57, 50], [99, 103, 102, 53], [99, 103, 114, 52], [99, 103, 118, 109], [99, 103, 52, 107],
   [99, 103, 55, 109], [99, 104, 98, 103], [99, 104, 112, 101], [99, 104, 48, 108], [99, 104, 49, 50],
   [99, 105, 118, 116], [99, 105, 50, 57], [99, 106, 99, 53], [99, 107, 106, 104], [99, 107, 107, 116],
   [99, 107, 113, 118], [99, 107, 119, 104], [99, 107, 50, 115], [99, 107, 51, 107], [99, 107, 57, 107],
   [99, 108, 108, 117], [99, 108, 117, 49], [99, 108, 118, 120], [99, 108, 52, 111], [99, 109, 99, 104],
   [99, 109, 51, 56], [99, 110, 98, 100], [99, 110, 119, 49], [99, 110, 121, 50], [99, 111, 121, 110],
   [99, 112, 102, 116], [99, 112, 105, 117], [99, 112, 108, 120], [99, 112, 111, 105], [99, 112, 117, 50],
   [99, 113, 105, 113], [99, 113, 119, 111], [99, 113, 122, 117], [99, 114, 97, 100], [99, 114, 103, 50],
   [99, 115, 100, 108], [99, 115, 109, 50]]

/-- The state of the build after the first `m` of the names `cluster_names`:
the `i`-th of them is stored `i` slots after slot 134, with `i` in the
displacement bits, and the slots after them are empty. -/
structure ClusterInv (m : Nat) (t : bdgl_exts_tbl) : Prop where
  size : t.tblSize = 512
  tlen : t.tbl.length = 512
  slots : ∀ i, i < m → t.tbl.getD (134 + i) 0 = 4 * i * 65536 + i * 256 + 4
  rest : ∀ i, m ≤ i → t.tbl.getD (134 + i) 0 = 0
  psize : t.poolSize = 4 * m
  plen : t.pool.length = t.poolCapacity
  pfit : t.poolSize ≤ t.poolCapacity
  cap_lo : 256 ≤ t.poolCapacity
  cap_hi : t.poolCapacity < 2 ^ 32

/-! # Theorems -/

/-! ## Version gate -/

/-- C8: `bdgl_min_context(M, m)` is nonzero exactly when the recorded version
`(cM, cm)` has `cM = M` and `cm ≥ m`, or `cM > M`, that is when
`(M, m) ≤ (cM, cm)` in the lexicographic order; context `(1, x)` never
satisfies `(2, y)`, context `(2, 2)` satisfies `(2, 1)` but not `(2, 3)`, and
context `(3, 0)` satisfies `(2, 9)`. -/
theorem bdgl_min_context_lex (cM cm M m : Nat) :
    (bdgl_min_context ⟨cM, cm⟩ M m ≠ 0 ↔ (cM = M ∧ m ≤ cm) ∨ M < cM) ∧
    (bdgl_min_context ⟨cM, cm⟩ M m ≠ 0 ↔ toLex (M, m) ≤ toLex (cM, cm)) ∧
    (∀ x y, bdgl_min_context ⟨1, x⟩ 2 y = 0) ∧
    bdgl_min_context ⟨2, 2⟩ 2 1 ≠ 0 ∧
    bdgl_min_context ⟨2, 2⟩ 2 3 = 0 ∧
    bdgl_min_context ⟨3, 0⟩ 2 9 ≠ 0 := by
  have key : bdgl_min_context ⟨cM, cm⟩ M m ≠ 0 ↔ (cM = M ∧ m ≤ cm) ∨ M < cM := by
    unfold bdgl_min_context
    by_cases h : (cM = M ∧ m ≤ cm) ∨ M < cM
    · simp [h]
    · simp [h]
  refine ⟨key, ?_, ?_, by decide, by decide, by decide⟩
  · rw [key, Prod.Lex.le_iff]
    constructor
    · rintro (⟨h1, h2⟩ | h)
      · exact Or.inr ⟨h1.symm, h2⟩
      · exact Or.inl h
    · rintro (h | ⟨h1, h2⟩)
      · exact Or.inr h
      · exact Or.inl ⟨h1.symm, h2⟩
  · intro x y
    simp [bdgl_min_context]

/-! ## Version parser -/

/-- With no major version recorded, the value returned by `bdgl_init` is the
code of the first rule the input violates. -/
theorem bdgl_init_ret_eq (d : Driver) (ctx : bdgl_ctx) (h0 : ctx.major = 0) :
    (bdgl_init d ctx).ret = failure_code (spec_init_failure d) := by
  unfold bdgl_init spec_init_failure
  simp only [h0, lt_irrefl, if_false, is_digit, is_suffix_ok]
  by_cases h1 : d.loadproc (cstr "glGetString") = 0
  · simp [h1, failure_code]
  · simp only [h1, if_false]
    cases hv : d.call (d.loadproc (cstr "glGetString")) GL_VERSION with
    | none => simp [failure_code]
    | some s =>
      simp only []
      split_ifs <;> simp_all [failure_code]

/-- With no major version recorded, a successful `bdgl_init` records the two
digits of the version string. -/
theorem bdgl_init_ctx_eq (d : Driver) (ctx : bdgl_ctx) (s : List Nat) (h0 : ctx.major = 0)
    (hs : d.call (d.loadproc (cstr "glGetString")) GL_VERSION = some s)
    (hok : spec_init_failure d = none) :
    (bdgl_init d ctx).ctx = ⟨byteAt s 0 - '0'.toNat, byteAt s 2 - '0'.toNat⟩ := by
  unfold spec_init_failure at hok
  by_cases h1 : d.loadproc (cstr "glGetString") = 0
  · simp [h1] at hok
  · simp only [h1, if_false, hs, is_digit, is_suffix_ok] at hok
    unfold bdgl_init
    simp only [h0, lt_irrefl, if_false, h1, hs]
    split_ifs at hok ⊢
    simp_all

/-- C4: with no major version recorded and a resolver that yields the
version query, `bdgl_init` returns 0 exactly when the version string is not
NULL and has a digit at byte 0, a dot at byte 1, a digit at byte 2 and
end-of-string, a space or a dot at byte 3; it then records
`(byte0 - '0', byte2 - '0')`.  The strings `3.3`, `3.3.0 NVIDIA 535.54` and
`3.3 Mesa` are accepted and record `(3, 3)`. -/
theorem bdgl_init_success_iff (d : Driver) (ctx : bdgl_ctx) (h0 : ctx.major = 0)
    (hres : d.loadproc (cstr "glGetString") ≠ 0) :
    ((bdgl_init d ctx).ret = 0 ↔
      ∃ s, d.call (d.loadproc (cstr "glGetString")) GL_VERSION = some s ∧
        is_digit (byteAt s 0) ∧ byteAt s 1 = '.'.toNat ∧ is_digit (byteAt s 2) ∧
        (byteAt s 3 = 0 ∨ byteAt s 3 = ' '.toNat ∨ byteAt s 3 = '.'.toNat)) ∧
    (∀ s, d.call (d.loadproc (cstr "glGetString")) GL_VERSION = some s →
      (bdgl_init d ctx).ret = 0 →
      bdgl_get_context_version (bdgl_init d ctx).ctx
        = (byteAt s 0 - '0'.toNat, byteAt s 2 - '0'.toNat)) ∧
    (∀ s ∈ [cstr "3.3", cstr "3.3.0 NVIDIA 535.54", cstr "3.3 Mesa"],
      d.call (d.loadproc (cstr "glGetString")) GL_VERSION = some s →
      (bdgl_init d ctx).ret = 0 ∧ bdgl_get_context_version (bdgl_init d ctx).ctx = (3, 3)) := by
  have hret := bdgl_init_ret_eq d ctx h0
  have hfail : ∀ s, d.call (d.loadproc (cstr "glGetString")) GL_VERSION = some s →
      (spec_init_failure d = none ↔
        is_digit (byteAt s 0) ∧ byteAt s 1 = '.'.toNat ∧ is_digit (byteAt s 2) ∧
        (byteAt s 3 = 0 ∨ byteAt s 3 = ' '.toNat ∨ byteAt s 3 = '.'.toNat)) := by
    intro s hs
    unfold spec_init_failure
    simp only [hres, if_false, hs, is_suffix_ok]
    split_ifs <;> simp_all
  have hzero : (bdgl_init d ctx).ret = 0 ↔ spec_init_failure d = none := by
    rw [hret]
    cases spec_init_failure d with
    | none => simp [failure_code]
    | some k => cases k <;> simp [failure_code]
  have hrec : ∀ s, d.call (d.loadproc (cstr "glGetString")) GL_VERSION = some s →
      (bdgl_init d ctx).ret = 0 →
      bdgl_get_context_version (bdgl_init d ctx).ctx
        = (byteAt s 0 - '0'.toNat, byteAt s 2 - '0'.toNat) := by
    intro s hs hz
    rw [bdgl_init_ctx_eq d ctx s h0 hs (hzero.mp hz)]
    rfl
  refine ⟨?_, hrec, ?_⟩
  · rw [hzero]
    constructor
    · intro hn
      cases hs : d.call (d.loadproc (cstr "glGetString")) GL_VERSION with
      | none =>
        unfold spec_init_failure at hn
        simp [hres, hs] at hn
      | some s => exact ⟨s, rfl, (hfail s hs).mp hn⟩
    · rintro ⟨s, hs, hrest⟩
      exact (hfail s hs).mpr hrest
  · intro s hmem hs
    have hz : (bdgl_init d ctx).ret = 0 := by
      rw [hzero, hfail s hs]
      simp only [List.mem_cons, List.mem_singleton, List.not_mem_nil, or_false] at hmem
      rcases hmem with rfl | rfl | rfl <;> decide
    refine ⟨hz, ?_⟩
    rw [hrec s hs hz]
    simp only [List.mem_cons, List.mem_singleton, List.not_mem_nil, or_false] at hmem
    rcases hmem with rfl | rfl | rfl <;> decide

/-- C4, at the driver that reports `3.3 Mesa`, starting from the zeroed
context. -/
theorem bdgl_init_success_iff_witness :
    (bdgl_init (driver_of "3.3 Mesa") ⟨0, 0⟩).ret = 0 ∧
    bdgl_get_context_version (bdgl_init (driver_of "3.3 Mesa") ⟨0, 0⟩).ctx = (3, 3) :=
  (bdgl_init_success_iff (driver_of "3.3 Mesa") ⟨0, 0⟩ rfl (by decide)).2.2
    (cstr "3.3 Mesa") (by decide) rfl

/-- C5: for a non-NULL version string that violates the format, `bdgl_init`
returns the code of the first violated byte rule: 2 when byte 0 is not a
digit, else 3 when byte 1 is not a dot, else 4 when byte 2 is not a digit,
else 5 when byte 3 is not end-of-string, space or dot; the four codes are
pairwise distinct and nonzero.  `a.3` gives the byte-0 code, `3,3` the byte-1
code and `3.10` the byte-3 code. -/
theorem bdgl_init_format_errors (d : Driver) (ctx : bdgl_ctx) (s : List Nat)
    (h0 : ctx.major = 0) (hres : d.loadproc (cstr "glGetString") ≠ 0)
    (hs : d.call (d.loadproc (cstr "glGetString")) GL_VERSION = some s) :
    (¬ is_digit (byteAt s 0) → (bdgl_init d ctx).ret = 2) ∧
    (is_digit (byteAt s 0) → byteAt s 1 ≠ '.'.toNat → (bdgl_init d ctx).ret = 3) ∧
    (is_digit (byteAt s 0) → byteAt s 1 = '.'.toNat → ¬ is_digit (byteAt s 2) →
      (bdgl_init d ctx).ret = 4) ∧
    (is_digit (byteAt s 0) → byteAt s 1 = '.'.toNat → is_digit (byteAt s 2) →
      ¬ is_suffix_ok (byteAt s 3) → (bdgl_init d ctx).ret = 5) ∧
    (s = cstr "a.3" → (bdgl_init d ctx).ret = 2) ∧
    (s = cstr "3,3" → (bdgl_init d ctx).ret = 3) ∧
    (s = cstr "3.10" → (bdgl_init d ctx).ret = 5) := by
  have hret := bdgl_init_ret_eq d ctx h0
  have hf : spec_init_failure d =
      if ¬ is_digit (byteAt s 0) then some .byte0
      else if byteAt s 1 ≠ '.'.toNat then some .byte1
      else if ¬ is_digit (byteAt s 2) then some .byte2
      else if ¬ is_suffix_ok (byteAt s 3) then some .byte3
      else none := by
    unfold spec_init_failure
    simp only [hres, if_false, hs]
  rw [hf] at hret
  refine ⟨?_, ?_, ?_, ?_, ?_, ?_, ?_⟩
  · intro c0
    rw [hret, if_pos c0]; rfl
  · intro c0 c1
    rw [hret, if_neg (not_not.mpr c0), if_pos c1]; rfl
  · intro c0 c1 c2
    rw [hret, if_neg (not_not.mpr c0), if_neg (not_not.mpr c1), if_pos c2]; rfl
  · intro c0 c1 c2 c3
    rw [hret, if_neg (not_not.mpr c0), if_neg (not_not.mpr c1), if_neg (not_not.mpr c2),
      if_pos c3]; rfl
  · rintro rfl
    rw [hret]; decide
  · rintro rfl
    rw [hret]; decide
  · rintro rfl
    rw [hret]; decide

/-- C5, at the driver that reports `3.10`, starting from the zeroed context:
the digit 1 is the minor and the 0 after it is rejected at byte 3. -/
theorem bdgl_init_format_errors_witness :
    (bdgl_init (driver_of "3.10") ⟨0, 0⟩).ret = 5 :=
  (bdgl_init_format_errors (driver_of "3.10") ⟨0, 0⟩ (cstr "3.10") rfl (by decide) rfl).2.2.2.1
    (by decide) (by decide) (by decide) (by decide)

/-- C6, as stated, fails: a resolver miss and a NULL version string are two
different failure kinds and `bdgl_init` returns 1 for both. -/
theorem bdgl_init_kinds_share_code :
    spec_init_failure driver_miss = some InitFailure.resolverMiss ∧
    spec_init_failure driver_null = some InitFailure.nullVersion ∧
    (bdgl_init driver_miss ⟨0, 0⟩).ret = 1 ∧
    (bdgl_init driver_null ⟨0, 0⟩).ret = 1 := by
  decide

/-- C6, amended: on calls made with no major version recorded (the only calls
that can fail), `bdgl_init` returns 1 for a resolver miss and also 1 for a
NULL version string, and 2, 3, 4, 5 for a violation at byte 0, 1, 2, 3; so two
inputs that fail for different kinds get different nonzero values, except
that the resolver miss and the NULL version string share the value 1. -/
theorem bdgl_init_kinds_distinct (d₁ d₂ : Driver) (ctx₁ ctx₂ : bdgl_ctx)
    (k₁ k₂ : InitFailure) (h₁ : ctx₁.major = 0) (h₂ : ctx₂.major = 0)
    (hk₁ : spec_init_failure d₁ = some k₁) (hk₂ : spec_init_failure d₂ = some k₂)
    (hne : k₁ ≠ k₂) :
    (bdgl_init d₁ ctx₁).ret = failure_code (some k₁) ∧
    (bdgl_init d₂ ctx₂).ret = failure_code (some k₂) ∧
    (bdgl_init d₁ ctx₁).ret ≠ 0 ∧ (bdgl_init d₂ ctx₂).ret ≠ 0 ∧
    ((bdgl_init d₁ ctx₁).ret = (bdgl_init d₂ ctx₂).ret ↔
      (k₁ = .resolverMiss ∧ k₂ = .nullVersion) ∨ (k₁ = .nullVersion ∧ k₂ = .resolverMiss)) := by
  rw [bdgl_init_ret_eq d₁ ctx₁ h₁, bdgl_init_ret_eq d₂ ctx₂ h₂, hk₁, hk₂]
  cases k₁ <;> cases k₂ <;> simp_all [failure_code]

/-- C6 amended, at the version strings `a.3` (byte 0) and `3,3` (byte 1). -/
theorem bdgl_init_kinds_distinct_witness :
    (bdgl_init (driver_of "a.3") ⟨0, 0⟩).ret ≠ (bdgl_init (driver_of "3,3") ⟨0, 0⟩).ret := by
  have h := (bdgl_init_kinds_distinct (driver_of "a.3") (driver_of "3,3") ⟨0, 0⟩ ⟨0, 0⟩
    .byte0 .byte1 rfl rfl (by decide) (by decide) (by decide)).2.2.2.2
  intro he
  have := h.mp he
  revert this
  decide

/-- C7 fails on the code: the accepted version string `0.9` records major 0,
which `bdgl_init` reads as "nothing recorded".  The next call invokes the
resolver again; it fails when the resolver now misses, and it overwrites the
recorded version when the driver now reports `4.5`. -/
theorem bdgl_init_major_zero_not_idempotent :
    (bdgl_init (driver_of "0.9") ⟨0, 0⟩).ret = 0 ∧
    (bdgl_init (driver_of "0.9") ⟨0, 0⟩).ctx = ⟨0, 9⟩ ∧
    (bdgl_init driver_miss (bdgl_init (driver_of "0.9") ⟨0, 0⟩).ctx).ret = 1 ∧
    (bdgl_init driver_miss (bdgl_init (driver_of "0.9") ⟨0, 0⟩).ctx).calls
      = [cstr "glGetString"] ∧
    (bdgl_init (driver_of "4.5") (bdgl_init (driver_of "0.9") ⟨0, 0⟩).ctx).ctx = ⟨4, 5⟩ := by
  decide

/-- Once a major version of at least 1 is recorded, `bdgl_init` returns 0
without invoking the resolver and leaves the recorded version as it is. -/
theorem bdgl_init_recorded (d : Driver) (ctx : bdgl_ctx) (h : 0 < ctx.major) :
    bdgl_init d ctx = ⟨0, ctx, []⟩ := by
  unfold bdgl_init
  simp [h]

/-! ## Name list walker -/

/-- Slots below the first written slot keep their value. -/
theorem store_all_lt (ps : List Nat) (funcs : Nat → Nat) (c i : Nat) (h : i < c) :
    store_all funcs c ps i = funcs i := by
  induction ps generalizing funcs c with
  | nil => rfl
  | cons p ps ih =>
    rw [store_all, ih _ _ (by omega), Function.update_noteq (by omega)]

/-- Slots after the last written slot keep their value. -/
theorem store_all_ge (ps : List Nat) (funcs : Nat → Nat) (c i : Nat) (h : c + ps.length ≤ i) :
    store_all funcs c ps i = funcs i := by
  induction ps generalizing funcs c with
  | nil => rfl
  | cons p ps ih =>
    simp only [List.length_cons] at h
    rw [store_all, ih _ _ (by omega), Function.update_noteq (by omega)]

/-- The `i`-th written slot holds the `i`-th pointer. -/
theorem store_all_get (ps : List Nat) (funcs : Nat → Nat) (c i : Nat) (h : i < ps.length) :
    store_all funcs c ps (c + i) = ps.getD i 0 := by
  induction ps generalizing funcs c i with
  | nil => simp at h
  | cons p ps ih =>
    cases i with
    | zero =>
      rw [store_all, store_all_lt _ _ _ _ (by omega)]
      simp
    | succ i =>
      simp only [List.length_cons, Nat.succ_lt_succ_iff] at h
      have := ih (Function.update funcs c p) (c + 1) i h
      rw [store_all, show c + (i + 1) = c + 1 + i by omega, this]
      simp

/-- The string at the start of a name of the packed list is that name. -/
theorem cstrAt_name (pre n post : List Nat) (hn : ∀ c ∈ n, c ≠ 0) :
    cstrAt (pre ++ n ++ 0 :: post) pre.length = n := by
  unfold cstrAt
  rw [List.append_assoc, List.drop_left]
  induction n with
  | nil => simp
  | cons c n ih =>
    have hc : c ≠ 0 := hn c (by simp)
    simp only [List.cons_append, List.takeWhile_cons, hc, ne_eq, not_false_eq_true,
      decide_True, if_true, List.cons.injEq, true_and]
    exact ih (fun x hx => hn x (by simp [hx]))

/-- Reading the bytes of a name: the loop only advances `fnIndex` and `last`. -/
theorem bdgl_load_loop_scan (lp : List Nat → Nat) (n : List Nat) (hn : ∀ c ∈ n, c ≠ 0) :
    ∀ (pre post : List Nat) (fuel fnBegin fnCount last : Nat) (funcs : Nat → Nat)
      (calls : List (List Nat)),
      bdgl_load_loop (pre ++ n ++ post) lp (fuel + n.length) fnBegin fnCount pre.length last
          funcs calls
        = bdgl_load_loop (pre ++ n ++ post) lp fuel fnBegin fnCount (pre.length + n.length)
          (n.foldl (fun _ c => c) last) funcs calls := by
  induction n with
  | nil => intros; simp
  | cons c n ih =>
    intro pre post fuel fnBegin fnCount last funcs calls
    have hc : c ≠ 0 := hn c (by simp)
    have hget : (pre ++ c :: n ++ post)[pre.length]? = some c := by
      rw [List.append_assoc, List.getElem?_append_right (le_refl _)]
      simp
    have hstep : bdgl_load_loop (pre ++ c :: n ++ post) lp (fuel + (c :: n).length) fnBegin
        fnCount pre.length last funcs calls
        = bdgl_load_loop (pre ++ c :: n ++ post) lp (fuel + n.length) fnBegin fnCount
          (pre.length + 1) c funcs calls := by
      rw [show fuel + (c :: n).length = (fuel + n.length) + 1 by simp; omega]
      rw [bdgl_load_loop]
      simp only [hget, hc, if_false]
    have hbuf : pre ++ c :: n ++ post = (pre ++ [c]) ++ n ++ post := by simp
    rw [hstep, hbuf]
    have := ih (fun x hx => hn x (by simp [hx])) (pre ++ [c]) post fuel fnBegin fnCount c
      funcs calls
    simp only [List.length_append, List.length_singleton] at this
    rw [this]
    simp only [List.length_cons, List.foldl_cons]
    rw [show pre.length + 1 + n.length = pre.length + (n.length + 1) by omega]

/-- After the bytes of a non-empty name have been read, `last` is not NUL. -/
theorem foldl_last_ne_zero (n : List Nat) (hne : n ≠ []) (hn : ∀ c ∈ n, c ≠ 0) (last : Nat) :
    n.foldl (fun _ c => c) last ≠ 0 := by
  induction n generalizing last with
  | nil => exact absurd rfl hne
  | cons c n ih =>
    simp only [List.foldl_cons]
    by_cases hnil : n = []
    · subst hnil
      simpa using hn c (by simp)
    · exact ih hnil (fun x hx => hn x (by simp [hx])) c

/-- One whole name whose resolution succeeds: the pointer is stored and the
loop stands at the byte after the name's terminator. -/
theorem bdgl_load_loop_name (lp : List Nat → Nat) (n : List Nat) (hne : n ≠ [])
    (hn : ∀ c ∈ n, c ≠ 0) (hres : lp n ≠ 0)
    (pre post : List Nat) (fuel fnCount : Nat) (funcs : Nat → Nat)
    (calls : List (List Nat)) :
    bdgl_load_loop (pre ++ n ++ 0 :: post) lp (fuel + (n.length + 1)) pre.length fnCount
        pre.length 0 funcs calls
      = bdgl_load_loop (pre ++ n ++ 0 :: post) lp fuel (pre.length + n.length + 1)
        (fnCount + 1) (pre.length + n.length + 1) 0 (Function.update funcs fnCount (lp n))
        (calls ++ [n]) := by
  rw [show fuel + (n.length + 1) = (fuel + 1) + n.length by omega]
  rw [bdgl_load_loop_scan lp n hn pre (0 :: post) (fuel + 1) pre.length fnCount 0 funcs calls]
  rw [bdgl_load_loop]
  have hget : (pre ++ n ++ 0 :: post)[pre.length + n.length]? = some 0 := by
    rw [← List.length_append, List.getElem?_append_right (le_refl _)]
    simp
  simp only [hget, if_true, foldl_last_ne_zero n hne hn 0, if_false, cstrAt_name pre n post hn,
    hres]

/-- One whole name whose resolution fails: the loop returns a pointer to it. -/
theorem bdgl_load_loop_miss (lp : List Nat → Nat) (n : List Nat) (hne : n ≠ [])
    (hn : ∀ c ∈ n, c ≠ 0) (hres : lp n = 0)
    (pre post : List Nat) (fuel fnCount : Nat) (funcs : Nat → Nat)
    (calls : List (List Nat)) :
    bdgl_load_loop (pre ++ n ++ 0 :: post) lp (fuel + (n.length + 1)) pre.length fnCount
        pre.length 0 funcs calls
      = some ⟨some pre.length, funcs, calls ++ [n]⟩ := by
  rw [show fuel + (n.length + 1) = (fuel + 1) + n.length by omega]
  rw [bdgl_load_loop_scan lp n hn pre (0 :: post) (fuel + 1) pre.length fnCount 0 funcs calls]
  rw [bdgl_load_loop]
  have hget : (pre ++ n ++ 0 :: post)[pre.length + n.length]? = some 0 := by
    rw [← List.length_append, List.getElem?_append_right (le_refl _)]
    simp
  simp only [hget, if_true, foldl_last_ne_zero n hne hn 0, if_false, cstrAt_name pre n post hn,
    hres]

/-- The packed length of a list of names, name by name. -/
theorem packed_len_cons (n : List Nat) (names : List (List Nat)) :
    packed_len (n :: names) = n.length + 1 + packed_len names := by
  simp [packed_len]
  omega

/-- The packed list is one NUL longer than its names. -/
theorem packNames_length (names : List (List Nat)) :
    (packNames names).length = packed_len names + 1 := by
  simp [packNames, packed_len]

/-- A run of names that all resolve: their pointers are stored in order and the
loop stands at the byte after the last terminator. -/
theorem bdgl_load_loop_prefix (lp : List Nat → Nat) (good : List (List Nat))
    (hgood : ∀ n ∈ good, n ≠ [] ∧ (∀ c ∈ n, c ≠ 0) ∧ lp n ≠ 0) :
    ∀ (pre post : List Nat) (fuel fnCount : Nat) (funcs : Nat → Nat) (calls : List (List Nat)),
      bdgl_load_loop (pre ++ (good.map (fun n => n ++ [0])).flatten ++ post) lp
          (fuel + packed_len good) pre.length fnCount pre.length 0 funcs calls
        = bdgl_load_loop (pre ++ (good.map (fun n => n ++ [0])).flatten ++ post) lp fuel
          (pre.length + packed_len good) (fnCount + good.length) (pre.length + packed_len good) 0
          (store_all funcs fnCount (good.map lp)) (calls ++ good) := by
  induction good with
  | nil => intros; simp [packed_len, store_all]
  | cons n good ih =>
    intro pre post fuel fnCount funcs calls
    obtain ⟨hne, hnz, hres⟩ := hgood n (by simp)
    have hbuf : pre ++ ((n :: good).map (fun n => n ++ [0])).flatten ++ post
        = pre ++ n ++ 0 :: ((good.map (fun n => n ++ [0])).flatten ++ post) := by
      simp
    have hbuf' : pre ++ ((n :: good).map (fun n => n ++ [0])).flatten ++ post
        = (pre ++ n ++ [0]) ++ (good.map (fun n => n ++ [0])).flatten ++ post := by
      simp
    have h1 := bdgl_load_loop_name lp n hne hnz hres pre
      ((good.map (fun n => n ++ [0])).flatten ++ post) (fuel + packed_len good) fnCount funcs calls
    have h2 := ih (fun m hm => hgood m (by simp [hm])) (pre ++ n ++ [0]) post fuel (fnCount + 1)
      (Function.update funcs fnCount (lp n)) (calls ++ [n])
    rw [← hbuf] at h1
    rw [← hbuf'] at h2
    simp only [List.length_append, List.length_singleton] at h2
    rw [packed_len_cons, show fuel + (n.length + 1 + packed_len good)
      = fuel + packed_len good + (n.length + 1) by omega, h1, h2]
    simp only [List.map_cons, store_all, List.length_cons, List.append_assoc, List.singleton_append]
    rw [show pre.length + n.length + 1 + packed_len good
      = pre.length + (n.length + 1 + packed_len good) by omega,
      show fnCount + 1 + good.length = fnCount + (good.length + 1) by omega]

/-- The successful walk: every name of the packed list resolves. -/
theorem bdgl_load_all_ok (names : List (List Nat)) (lp : List Nat → Nat) (funcs : Nat → Nat)
    (fuel : Nat)
    (hnames : ∀ n ∈ names, n ≠ [] ∧ IsCStr n)
    (hres : ∀ n ∈ names, lp n ≠ 0)
    (hfuel : (packNames names).length ≤ fuel) :
    ∃ r, bdgl_load fuel funcs (packNames names) lp = some r ∧
      r.failed = none ∧
      (∀ i, i < names.length → r.funcs i = lp (names.getD i [])) ∧
      (∀ j, names.length ≤ j → r.funcs j = funcs j) ∧
      r.calls = names ∧
      (names = [] → r.funcs = funcs ∧ r.calls = []) := by
  have hgood : ∀ n ∈ names, n ≠ [] ∧ (∀ c ∈ n, c ≠ 0) ∧ lp n ≠ 0 := fun n hn =>
    ⟨(hnames n hn).1, fun c hc => Nat.pos_iff_ne_zero.mp ((hnames n hn).2 c hc).1, hres n hn⟩
  rw [packNames_length] at hfuel
  obtain ⟨f, rfl⟩ : ∃ f, fuel = (f + 1) + packed_len names :=
    ⟨fuel - packed_len names - 1, by omega⟩
  have h := bdgl_load_loop_prefix lp names hgood [] [0] (f + 1) 0 funcs []
  simp only [List.nil_append, List.length_nil, Nat.zero_add] at h
  have hget : ((names.map (fun n => n ++ [0])).flatten ++ [0])[packed_len names]? = some 0 := by
    rw [packed_len, List.getElem?_append_right (le_refl _)]
    simp
  refine ⟨⟨none, store_all funcs 0 (names.map lp), names⟩, ?_, rfl, ?_, ?_, rfl, ?_⟩
  · unfold bdgl_load packNames
    rw [h, bdgl_load_loop]
    simp only [hget, if_true]
  · intro i hi
    have := store_all_get (names.map lp) funcs 0 i (by simpa using hi)
    simp only [Nat.zero_add] at this
    show store_all funcs 0 (names.map lp) i = _
    rw [this, List.getD_eq_getElem?_getD, List.getD_eq_getElem?_getD, List.getElem?_map]
    rw [List.getElem?_eq_getElem hi]
    simp
  · intro j hj
    exact store_all_ge _ _ _ _ (by simpa using hj)
  · rintro rfl
    exact ⟨rfl, rfl⟩

/-- The failing walk: the loop stops at the first name the resolver misses. -/
theorem bdgl_load_stops_at_miss (names : List (List Nat)) (lp : List Nat → Nat) (funcs : Nat → Nat)
    (fuel j : Nat)
    (hnames : ∀ n ∈ names, n ≠ [] ∧ IsCStr n)
    (hj : j < names.length)
    (hmiss : lp (names.getD j []) = 0)
    (hfirst : ∀ i, i < j → lp (names.getD i []) ≠ 0)
    (hfuel : (packNames names).length ≤ fuel) :
    ∃ r off, bdgl_load fuel funcs (packNames names) lp = some r ∧
      r.failed = some off ∧
      off = packed_len (names.take j) ∧
      cstrAt (packNames names) off = names.getD j [] ∧
      (∀ i, i < j → r.funcs i = lp (names.getD i [])) ∧
      (∀ i, j ≤ i → r.funcs i = funcs i) ∧
      r.calls = names.take (j + 1) := by
  have hsplit : names = names.take j ++ names.getD j [] :: names.drop (j + 1) := by
    rw [List.getD_eq_getElem?_getD, List.getElem?_eq_getElem hj]
    simp
  set good := names.take j with hgooddef
  set bad := names.getD j [] with hbaddef
  set rest := names.drop (j + 1) with hrestdef
  have hgoodlen : good.length = j := by
    rw [hgooddef, List.length_take]; omega
  have hbadmem : bad ∈ names := by
    rw [hsplit]; simp
  have hgoodmem : ∀ n ∈ good, n ∈ names := fun n hn => by
    rw [hsplit]; simp [hn]
  have hgetgood : ∀ i, i < j → names.getD i [] = good.getD i [] := by
    intro i hi
    rw [List.getD_eq_getElem?_getD, List.getD_eq_getElem?_getD, hgooddef,
      List.getElem?_take_of_lt hi]
  have hgood : ∀ n ∈ good, n ≠ [] ∧ (∀ c ∈ n, c ≠ 0) ∧ lp n ≠ 0 := by
    intro n hn
    refine ⟨(hnames n (hgoodmem n hn)).1,
      fun c hc => Nat.pos_iff_ne_zero.mp ((hnames n (hgoodmem n hn)).2 c hc).1, ?_⟩
    obtain ⟨i, hi, rfl⟩ := List.getElem_of_mem hn
    have hij : i < j := by omega
    have := hfirst i hij
    rw [hgetgood i hij, List.getD_eq_getElem?_getD, List.getElem?_eq_getElem hi] at this
    simpa using this
  have hbadne : bad ≠ [] := (hnames bad hbadmem).1
  have hbadnz : ∀ c ∈ bad, c ≠ 0 := fun c hc =>
    Nat.pos_iff_ne_zero.mp ((hnames bad hbadmem).2 c hc).1
  have hbuf : packNames names
      = ((good.map (fun n => n ++ [0])).flatten) ++ bad ++
        0 :: ((rest.map (fun n => n ++ [0])).flatten ++ [0]) := by
    rw [packNames, hsplit]
    simp
  have hlen : packed_len good + (bad.length + 1) ≤ fuel := by
    have : (packNames names).length
        = packed_len good + (bad.length + 1) + (packed_len rest + 1) := by
      rw [hbuf]; simp [packed_len]; omega
    omega
  obtain ⟨f, rfl⟩ : ∃ f, fuel = (f + (bad.length + 1)) + packed_len good :=
    ⟨fuel - packed_len good - (bad.length + 1), by omega⟩
  have h1 := bdgl_load_loop_prefix lp good hgood []
    (bad ++ 0 :: ((rest.map (fun n => n ++ [0])).flatten ++ [0])) (f + (bad.length + 1)) 0 funcs []
  have h2 := bdgl_load_loop_miss lp bad hbadne hbadnz hmiss ((good.map (fun n => n ++ [0])).flatten)
    ((rest.map (fun n => n ++ [0])).flatten ++ [0]) f (0 + good.length)
    (store_all funcs 0 (good.map lp)) ([] ++ good)
  simp only [List.nil_append, List.length_nil, Nat.zero_add] at h1 h2
  rw [← List.append_assoc, ← hbuf] at h1
  rw [← hbuf] at h2
  have hpl : ((good.map (fun n => n ++ [0])).flatten).length = packed_len good := rfl
  rw [hpl] at h2
  refine ⟨⟨some (packed_len good), store_all funcs 0 (good.map lp), good ++ [bad]⟩,
    packed_len good, ?_, rfl, rfl, ?_, ?_, ?_, ?_⟩
  · unfold bdgl_load
    rw [h1, h2]
  · rw [hbuf, ← hpl]
    exact cstrAt_name _ bad _ hbadnz
  · intro i hi
    have := store_all_get (good.map lp) funcs 0 i (by simpa [hgoodlen] using hi)
    simp only [Nat.zero_add] at this
    show store_all funcs 0 (good.map lp) i = _
    rw [this, hgetgood i hi, List.getD_eq_getElem?_getD, List.getD_eq_getElem?_getD,
      List.getElem?_map, List.getElem?_eq_getElem (by omega : i < good.length)]
    simp
  · intro i hi
    exact store_all_ge _ _ _ _ (by simpa [hgoodlen] using hi)
  · show names.take j ++ [names.getD j []] = names.take (j + 1)
    rw [List.take_succ, List.getD_eq_getElem?_getD, List.getElem?_eq_getElem hj]
    simp

/-- C2: on a packed list of `k ≥ 0` non-empty names that the resolver all
resolves, `bdgl_load` returns NULL, leaves `funcs[i] = resolver(name_i)` for
every `i < k` and every other slot as it was, and has invoked the resolver on
the names in order; on the empty list it writes no slot and never invokes
the resolver. -/
theorem bdgl_load_success (names : List (List Nat)) (lp : List Nat → Nat) (funcs : Nat → Nat)
    (fuel : Nat)
    (hnames : ∀ n ∈ names, n ≠ [] ∧ IsCStr n)
    (hres : ∀ n ∈ names, lp n ≠ 0)
    (hfuel : (packNames names).length ≤ fuel) :
    ∃ r, bdgl_load fuel funcs (packNames names) lp = some r ∧
      r.failed = none ∧
      (∀ i, i < names.length → r.funcs i = lp (names.getD i [])) ∧
      (∀ j, names.length ≤ j → r.funcs j = funcs j) ∧
      r.calls = names ∧
      (names = [] → r.funcs = funcs ∧ r.calls = []) :=
  bdgl_load_all_ok names lp funcs fuel hnames hres hfuel

/-- C2, at the two names `glGetString` and `glGetStringi` with a resolver that
answers the length of the name. -/
theorem bdgl_load_success_witness :
    ∃ r, bdgl_load 40 (fun _ => 0) (packNames [cstr "glGetString", cstr "glGetStringi"])
        List.length = some r ∧
      r.failed = none ∧
      (∀ i, i < 2 → r.funcs i = ([cstr "glGetString", cstr "glGetStringi"].getD i []).length) ∧
      (∀ j, 2 ≤ j → r.funcs j = 0) ∧
      r.calls = [cstr "glGetString", cstr "glGetStringi"] ∧
      ([cstr "glGetString", cstr "glGetStringi"] = [] →
        r.funcs = (fun _ => 0) ∧ r.calls = []) :=
  bdgl_load_success [cstr "glGetString", cstr "glGetStringi"] List.length (fun _ => 0) 40
    (by decide) (by decide) (by decide)

/-- C3: on a well-formed packed list with a name the resolver misses, `j`
being the index of the first such name, `bdgl_load` returns a non-null
pointer to `name_j`; `funcs[i] = resolver(name_i)` for `i < j`, every slot
from `j` on is as it was, and the resolver has been invoked on
`name_0 .. name_j` and on no later name. -/
theorem bdgl_load_first_miss (names : List (List Nat)) (lp : List Nat → Nat) (funcs : Nat → Nat)
    (fuel j : Nat)
    (hnames : ∀ n ∈ names, n ≠ [] ∧ IsCStr n)
    (hj : j < names.length)
    (hmiss : lp (names.getD j []) = 0)
    (hfirst : ∀ i, i < j → lp (names.getD i []) ≠ 0)
    (hfuel : (packNames names).length ≤ fuel) :
    ∃ r off, bdgl_load fuel funcs (packNames names) lp = some r ∧
      r.failed = some off ∧
      off = packed_len (names.take j) ∧
      cstrAt (packNames names) off = names.getD j [] ∧
      (∀ i, i < j → r.funcs i = lp (names.getD i [])) ∧
      (∀ i, j ≤ i → r.funcs i = funcs i) ∧
      r.calls = names.take (j + 1) :=
  bdgl_load_stops_at_miss names lp funcs fuel j hnames hj hmiss hfirst hfuel

/-- C3, at the names `a`, `b`, `c` with a resolver that misses `b` only. -/
theorem bdgl_load_first_miss_witness :
    ∃ r off, bdgl_load 40 (fun _ => 0) (packNames [cstr "a", cstr "b", cstr "c"])
        (fun n => if n = cstr "b" then 0 else 7) = some r ∧
      r.failed = some off ∧
      off = packed_len ([cstr "a", cstr "b", cstr "c"].take 1) ∧
      cstrAt (packNames [cstr "a", cstr "b", cstr "c"]) off
        = [cstr "a", cstr "b", cstr "c"].getD 1 [] ∧
      (∀ i, i < 1 → r.funcs i
        = (fun n => if n = cstr "b" then 0 else 7) ([cstr "a", cstr "b", cstr "c"].getD i [])) ∧
      (∀ i, 1 ≤ i → r.funcs i = 0) ∧
      r.calls = [cstr "a", cstr "b", cstr "c"].take (1 + 1) :=
  bdgl_load_first_miss [cstr "a", cstr "b", cstr "c"] (fun n => if n = cstr "b" then 0 else 7)
    (fun _ => 0) 40 1 (by decide) (by decide) (by decide) (by decide) (by decide)

/-! ## Capability loader -/

/-- A group whose `loaded` flag is set: `bdgl_load_version` returns 0 at once. -/
theorem bdgl_load_version_loaded (fuel : Nat) (d : Driver) (v : bdgl_Version) (ctx : bdgl_ctx)
    (h : v.loaded ≠ 0) : bdgl_load_version fuel d v ctx = some ⟨0, v, ctx, []⟩ := by
  unfold bdgl_load_version
  simp [h]

/-- A call of `bdgl_load_version` that returns 0 leaves the `loaded` flag set. -/
theorem bdgl_load_version_ret_zero (fuel : Nat) (d : Driver) (v : bdgl_Version) (ctx : bdgl_ctx)
    (r : VersionResult) (h : bdgl_load_version fuel d v ctx = some r) (hret : r.ret = 0) :
    r.version.loaded ≠ 0 := by
  unfold bdgl_load_version at h
  by_cases hl : v.loaded ≠ 0
  · rw [if_pos hl] at h
    cases h
    exact hl
  · rw [if_neg hl] at h
    simp only [] at h
    split_ifs at h with h1 h2
    · cases h
      simp at hret
    · cases h
      simp at hret
    · cases hld : bdgl_load fuel v.funcs v.names d.loadproc with
      | none => simp [hld] at h
      | some l =>
        simp only [hld] at h
        cases hf : l.failed with
        | some off =>
          simp only [hf] at h
          cases h
          simp at hret
        | none =>
          simp only [hf] at h
          cases h
          simp

/-- C9: when the group's `loaded` flag is set, `bdgl_load_version` returns 0
without invoking the resolver and without changing the group, its pointer
array or the context version; hence after a first call that returned 0, a
second call on the same group, with any resolver, returns 0 and leaves the
state as the first call left it. -/
theorem bdgl_load_version_idempotent (fuel fuel' : Nat) (d d' : Driver) (v : bdgl_Version)
    (ctx : bdgl_ctx) :
    (v.loaded ≠ 0 → bdgl_load_version fuel d v ctx = some ⟨0, v, ctx, []⟩) ∧
    (∀ r, bdgl_load_version fuel d v ctx = some r → r.ret = 0 →
      bdgl_load_version fuel' d' r.version r.ctx = some ⟨0, r.version, r.ctx, []⟩) :=
  ⟨bdgl_load_version_loaded fuel d v ctx, fun r h hret =>
    bdgl_load_version_loaded fuel' d' r.version r.ctx
      (bdgl_load_version_ret_zero fuel d v ctx r h hret)⟩

/-- C9, at the group `GL_VERSION_1_0` loaded on a 3.3 context: the first call
loads it, and a second call, even with a resolver that finds nothing, returns
0 and changes nothing. -/
theorem bdgl_load_version_idempotent_witness :
    ∃ r, bdgl_load_version 64 (driver_of "3.3") bdgl_GL_VERSION_1_0 ⟨0, 0⟩ = some r ∧
      r.ret = 0 ∧ r.version.loaded = 1 ∧ r.ctx = ⟨3, 3⟩ ∧
      bdgl_load_version 0 driver_miss r.version r.ctx = some ⟨0, r.version, r.ctx, []⟩ :=
  ⟨_, rfl, rfl, rfl, rfl,
    (bdgl_load_version_idempotent 64 0 (driver_of "3.3") driver_miss bdgl_GL_VERSION_1_0
      ⟨0, 0⟩).2 _ rfl rfl⟩

/-- A list with a name the resolver misses has a first such name. -/
theorem exists_first_miss (lp : List Nat → Nat) (names : List (List Nat))
    (h : ¬ ∀ n ∈ names, lp n ≠ 0) :
    ∃ j, j < names.length ∧ lp (names.getD j []) = 0 ∧
      ∀ i, i < j → lp (names.getD i []) ≠ 0 := by
  classical
  have hex : ∃ j, j < names.length ∧ lp (names.getD j []) = 0 := by
    push_neg at h
    obtain ⟨n, hn, h0⟩ := h
    obtain ⟨j, hj, rfl⟩ := List.getElem_of_mem hn
    refine ⟨j, hj, ?_⟩
    rw [List.getD_eq_getElem?_getD, List.getElem?_eq_getElem hj]
    simpa using h0
  refine ⟨Nat.find hex, (Nat.find_spec hex).1, (Nat.find_spec hex).2, ?_⟩
  intro i hi hz
  exact Nat.find_min hex hi ⟨lt_trans hi (Nat.find_spec hex).1, hz⟩

/-- What `bdgl_load_version` does on a group that is not loaded yet and whose
packed list is well formed. -/
theorem bdgl_load_version_cases (fuel : Nat) (d : Driver) (v : bdgl_Version) (ctx : bdgl_ctx)
    (names : List (List Nat))
    (hloaded : v.loaded = 0)
    (hpack : v.names = packNames names)
    (hnames : ∀ n ∈ names, n ≠ [] ∧ IsCStr n)
    (hfuel : v.names.length ≤ fuel) :
    ∃ r, bdgl_load_version fuel d v ctx = some r ∧
      (((bdgl_init d ctx).ret = 0 ∧
        bdgl_min_context (bdgl_init d ctx).ctx v.major v.minor ≠ 0 ∧
        ∀ n ∈ names, d.loadproc n ≠ 0) → r.ret = 0 ∧ r.version.loaded = 1) ∧
      (¬ ((bdgl_init d ctx).ret = 0 ∧
        bdgl_min_context (bdgl_init d ctx).ctx v.major v.minor ≠ 0 ∧
        ∀ n ∈ names, d.loadproc n ≠ 0) → r.ret = 1 ∧ r.version.loaded = 0) := by
  unfold bdgl_load_version
  rw [if_neg (by simp [hloaded])]
  simp only []
  by_cases h1 : (bdgl_init d ctx).ret = 0
  · by_cases h2 : bdgl_min_context (bdgl_init d ctx).ctx v.major v.minor = 0
    · rw [if_neg (by simp [h1]), if_pos h2]
      exact ⟨_, rfl, fun hc => absurd h2 hc.2.1, fun _ => ⟨rfl, hloaded⟩⟩
    · rw [if_neg (by simp [h1]), if_neg h2]
      rw [hpack] at hfuel ⊢
      by_cases h3 : ∀ n ∈ names, d.loadproc n ≠ 0
      · obtain ⟨l, hl, hf, -⟩ := bdgl_load_all_ok names d.loadproc v.funcs fuel hnames h3 hfuel
        rw [hl]
        simp only [hf]
        exact ⟨_, rfl, fun _ => ⟨rfl, rfl⟩, fun hc => absurd ⟨h1, h2, h3⟩ hc⟩
      · obtain ⟨j, hj, hmiss, hfirst⟩ := exists_first_miss d.loadproc names h3
        obtain ⟨l, off, hl, hf, -⟩ :=
          bdgl_load_stops_at_miss names d.loadproc v.funcs fuel j hnames hj hmiss hfirst hfuel
        rw [hl]
        simp only [hf]
        exact ⟨_, rfl, fun hc => absurd hc.2.2 h3, fun _ => ⟨rfl, hloaded⟩⟩
  · rw [if_pos h1]
    exact ⟨_, rfl, fun hc => absurd hc.1 h1, fun _ => ⟨rfl, hloaded⟩⟩

/-- C10: for a group whose `loaded` flag is 0 (and whose packed list is well
formed), `bdgl_load_version` returns 0 and sets `loaded` to 1 exactly when
`bdgl_init` succeeds, `bdgl_min_context(major, minor)` is satisfied on the
context version it leaves and the resolver resolves every name of the list;
in every other case it returns the nonzero value 1 and `loaded` stays 0. -/
theorem bdgl_load_version_loads_iff (fuel : Nat) (d : Driver) (v : bdgl_Version)
    (ctx : bdgl_ctx) (names : List (List Nat))
    (hloaded : v.loaded = 0)
    (hpack : v.names = packNames names)
    (hnames : ∀ n ∈ names, n ≠ [] ∧ IsCStr n)
    (hfuel : v.names.length ≤ fuel) :
    ∃ r, bdgl_load_version fuel d v ctx = some r ∧
      ((r.ret = 0 ∧ r.version.loaded = 1) ↔
        ((bdgl_init d ctx).ret = 0 ∧
          bdgl_min_context (bdgl_init d ctx).ctx v.major v.minor ≠ 0 ∧
          ∀ n ∈ names, d.loadproc n ≠ 0)) ∧
      (¬ ((bdgl_init d ctx).ret = 0 ∧
          bdgl_min_context (bdgl_init d ctx).ctx v.major v.minor ≠ 0 ∧
          ∀ n ∈ names, d.loadproc n ≠ 0) → r.ret ≠ 0 ∧ r.version.loaded = 0) := by
  obtain ⟨r, hr, hyes, hno⟩ := bdgl_load_version_cases fuel d v ctx names hloaded hpack hnames hfuel
  refine ⟨r, hr, ⟨?_, hyes⟩, ?_⟩
  · intro hret
    by_contra hc
    have := (hno hc).1
    omega
  · intro hc
    have := hno hc
    exact ⟨by omega, this.2⟩

/-- C10, at the group `GL_VERSION_1_0` on a driver that reports `3.3` and
resolves every name. -/
theorem bdgl_load_version_loads_iff_witness :
    ∃ r, bdgl_load_version 64 (driver_of "3.3") bdgl_GL_VERSION_1_0 ⟨0, 0⟩ = some r ∧
      ((r.ret = 0 ∧ r.version.loaded = 1) ↔
        ((bdgl_init (driver_of "3.3") ⟨0, 0⟩).ret = 0 ∧
          bdgl_min_context (bdgl_init (driver_of "3.3") ⟨0, 0⟩).ctx bdgl_GL_VERSION_1_0.major
            bdgl_GL_VERSION_1_0.minor ≠ 0 ∧
          ∀ n ∈ [cstr "glGetString", cstr "glGetStringi", cstr "glGetIntegerv"],
            (driver_of "3.3").loadproc n ≠ 0)) ∧
      (¬ ((bdgl_init (driver_of "3.3") ⟨0, 0⟩).ret = 0 ∧
          bdgl_min_context (bdgl_init (driver_of "3.3") ⟨0, 0⟩).ctx bdgl_GL_VERSION_1_0.major
            bdgl_GL_VERSION_1_0.minor ≠ 0 ∧
          ∀ n ∈ [cstr "glGetString", cstr "glGetStringi", cstr "glGetIntegerv"],
            (driver_of "3.3").loadproc n ≠ 0) → r.ret ≠ 0 ∧ r.version.loaded = 0) :=
  bdgl_load_version_loads_iff 64 (driver_of "3.3") bdgl_GL_VERSION_1_0 ⟨0, 0⟩
    [cstr "glGetString", cstr "glGetStringi", cstr "glGetIntegerv"] rfl rfl (by decide)
    (by decide)

/-! ## Capability set: bit fields of a slot entry -/

/-- Or-ing a displacement into an entry whose displacement byte is clear adds it. -/
theorem key_or_disp (off len d : Nat) (hlen : len < 256) (hd : d < 256) :
    (off * 65536 + len) ||| (d * 256) = off * 65536 + len + d * 256 := by
  have h1 : off * 65536 + len = 2 ^ 16 * off ||| len := by
    rw [← Nat.mul_add_lt_is_or (by omega)]; omega
  have h2 : 2 ^ 8 * d + len = 2 ^ 8 * d ||| len := Nat.mul_add_lt_is_or (by omega) d
  have h3 : 2 ^ 16 * off + (2 ^ 8 * d + len) = 2 ^ 16 * off ||| (2 ^ 8 * d + len) :=
    Nat.mul_add_lt_is_or (by omega) off
  have h4 : d * 256 = 2 ^ 8 * d := by omega
  rw [h1, h4, Nat.lor_assoc, Nat.lor_comm len, ← h2, ← h3]
  omega

/-- The bits of the mask `0xffff00ff`. -/
theorem mask_testBit (i : Nat) :
    (0xffff00ff : Nat).testBit i = (decide (i < 8) || (decide (16 ≤ i) && decide (i < 32))) := by
  by_cases h : i < 32
  · interval_cases i <;> rfl
  · have : (0xffff00ff : Nat).testBit i = false :=
      Nat.testBit_eq_false_of_lt (lt_of_lt_of_le (by norm_num)
        (Nat.pow_le_pow_right (by norm_num) (not_lt.mp h)))
    rw [this]
    have h8 : ¬ i < 8 := by omega
    simp [h, h8]

/-- A number below `2 ^ b` has no bit at `b` or above. -/
theorem testBit_small (x b i : Nat) (hx : x < 2 ^ b) (hi : b ≤ i) : x.testBit i = false :=
  Nat.testBit_eq_false_of_lt (lt_of_lt_of_le hx (Nat.pow_le_pow_right (by norm_num) hi))

/-- Masking with `0xffff00ff` clears the displacement byte and nothing else. -/
theorem entry_and_mask (off len d : Nat) (hoff : off < 65536) (hlen : len < 256)
    (hd : d < 256) :
    (off * 65536 + len + d * 256) &&& 0xffff00ff = off * 65536 + len := by
  have h1 : off * 65536 + len = 2 ^ 16 * off ||| len := by
    rw [← Nat.mul_add_lt_is_or (by omega)]; omega
  have h2 : 2 ^ 8 * d + len = 2 ^ 8 * d ||| len := Nat.mul_add_lt_is_or (by omega) d
  have h3 : 2 ^ 16 * off + (2 ^ 8 * d + len) = 2 ^ 16 * off ||| (2 ^ 8 * d + len) :=
    Nat.mul_add_lt_is_or (by omega) off
  have h0 : off * 65536 + len + d * 256 = 2 ^ 16 * off ||| (2 ^ 8 * d ||| len) := by
    rw [← h2, ← h3]; omega
  rw [h0, h1]
  apply Nat.eq_of_testBit_eq
  intro i
  simp only [Nat.testBit_and, Nat.testBit_or, Nat.testBit_mul_pow_two, mask_testBit]
  by_cases c8 : i < 8
  · have : ¬ 16 ≤ i := by omega
    have h8 : ¬ 8 ≤ i := by omega
    simp [c8, this, h8]
  · have hl : len.testBit i = false := testBit_small len 8 i (by omega) (by omega)
    by_cases c16 : i < 16
    · have : ¬ 16 ≤ i := by omega
      simp [c8, this, hl]
    · by_cases c32 : i < 32
      · have hdd : d.testBit (i - 8) = false := testBit_small d 8 (i - 8) (by omega) (by omega)
        have c16' : 16 ≤ i := by omega
        simp [c8, hl, hdd, c32, c16']
      · have ho : off.testBit (i - 16) = false :=
          testBit_small off 16 (i - 16) (by omega) (by omega)
        simp [c8, c32, hl, ho]

/-- The displacement byte as a quotient and a remainder. -/
theorem entry_disp_eq (x : Nat) : entry_disp x = x / 256 % 256 := by
  rw [entry_disp, Nat.shiftRight_eq_div_pow, show (0xff : Nat) = 2 ^ 8 - 1 by norm_num,
    Nat.and_pow_two_sub_one_eq_mod]

/-- A displacement byte is at most 255. -/
theorem entry_disp_lt (x : Nat) : entry_disp x < 256 := by
  rw [entry_disp_eq]; omega

/-- The length byte (`slotLen`) as a remainder. -/
theorem entry_len_eq (x : Nat) : x &&& 0xff = x % 256 := by
  rw [show (0xff : Nat) = 2 ^ 8 - 1 by norm_num, Nat.and_pow_two_sub_one_eq_mod]

/-- The offset field (`slotOffset`) as a quotient and a remainder. -/
theorem entry_off_eq (x : Nat) : (x >>> 16) &&& 0xffff = x / 65536 % 65536 := by
  rw [Nat.shiftRight_eq_div_pow, show (0xffff : Nat) = 2 ^ 16 - 1 by norm_num,
    Nat.and_pow_two_sub_one_eq_mod]

/-- The value of `newEntry` for a 16-bit offset and an 8-bit length. -/
theorem new_entry_eq (off len : Nat) (hlen : len < 256) :
    (off <<< 16) ||| (len % 2 ^ 32) = off * 65536 + len := by
  rw [Nat.shiftLeft_eq, Nat.mod_eq_of_lt (by omega), Nat.mul_comm,
    ← Nat.mul_add_lt_is_or (by omega)]

/-- The entry written for the key `k` at probe count `d`. -/
theorem key_write (k d : Nat) (hk : is_key k) (hd : d < 256) :
    k ||| (d <<< 8) % 2 ^ 32 = k + d * 256 := by
  obtain ⟨off, len, rfl, -, -, hlen⟩ := hk
  have : (d <<< 8) % 2 ^ 32 = d * 256 := by
    rw [Nat.shiftLeft_eq]; omega
  rw [this, key_or_disp off len d hlen hd]

/-- The displacement byte of the entry written for a key. -/
theorem key_disp (k d : Nat) (hk : is_key k) (hd : d < 256) : entry_disp (k + d * 256) = d := by
  obtain ⟨off, len, rfl, -, -, hlen⟩ := hk
  rw [entry_disp_eq]; omega

/-- Evicting an entry gives back its key. -/
theorem key_mask (k d : Nat) (hk : is_key k) (hd : d < 256) :
    (k + d * 256) &&& 0xffff00ff = k := by
  obtain ⟨off, len, rfl, hoff, -, hlen⟩ := hk
  exact entry_and_mask off len d hoff hlen hd

/-- An entry written for a key is not the empty sentinel. -/
theorem key_entry_ne_zero (k d : Nat) (hk : is_key k) : k + d * 256 ≠ 0 := by
  obtain ⟨off, len, rfl, -, hpos, -⟩ := hk
  omega

/-- Two keys stored in the same entry are the same key. -/
theorem key_entry_inj (k k' d d' : Nat) (hk : is_key k) (hk' : is_key k') (hd : d < 256)
    (hd' : d' < 256) (h : k + d * 256 = k' + d' * 256) : k = k' ∧ d = d' := by
  have h1 := key_mask k d hk hd
  have h2 := key_mask k' d' hk' hd'
  have h3 := key_disp k d hk hd
  have h4 := key_disp k' d' hk' hd'
  rw [h] at h1 h3
  exact ⟨h1.symm.trans h2, h3.symm.trans h4⟩

/-! ## Capability set: probe order -/

/-- The slot `i` steps after the next slot is the slot `i + 1` steps after this one. -/
theorem probe_succ (S idx i : Nat) : (idx % S + 1 + i) % S = (idx + (i + 1)) % S := by
  rw [show idx % S + 1 + i = idx % S + (i + 1) by omega, Nat.add_mod, Nat.mod_mod, ← Nat.add_mod]

/-- Fewer than `S` steps ahead never lead back to the same slot. -/
theorem probe_ne (S idx i : Nat) (h0 : 0 < i) (hi : i < S) : (idx + i) % S ≠ idx % S := by
  intro h
  have h1 : (idx + i) ≡ (idx + 0) [MOD S] := by
    simpa [Nat.ModEq] using h
  have h2 : i ≡ 0 [MOD S] := Nat.ModEq.add_left_cancel' idx h1
  have h3 : S ∣ i := (Nat.modEq_zero_iff_dvd).mp h2
  have := Nat.le_of_dvd h0 h3
  omega

/-- The slot before the next slot is this slot. -/
theorem prev_slot_succ (S x : Nat) (hS : 0 < S) : prev_slot S ((x + 1) % S) = x % S := by
  unfold prev_slot
  have h1 : ((x + 1) % S + S - 1) ≡ x [MOD S] := by
    have e : (x + 1) % S + S - 1 = (x + 1) % S + (S - 1) := by omega
    rw [e]
    have a : (x + 1) % S + (S - 1) ≡ (x + 1) + (S - 1) [MOD S] :=
      Nat.ModEq.add_right _ (Nat.mod_modEq _ _)
    have b : (x + 1) + (S - 1) = x + S := by omega
    rw [b] at a
    exact a.trans (by simp [Nat.ModEq])
  exact h1

/-- The previous slot is a slot of the table. -/
theorem prev_slot_lt (S i : Nat) (hS : 0 < S) : prev_slot S i < S := Nat.mod_lt _ hS

/-- In a table of at least two slots the previous slot is another slot. -/
theorem prev_slot_ne (S i : Nat) (hS : 1 < S) (hi : i < S) : prev_slot S i ≠ i := by
  unfold prev_slot
  intro h
  have h1 : (i + (S - 1)) % S = i % S := by
    rw [Nat.mod_eq_of_lt hi, ← h]
    congr 1
    omega
  exact probe_ne S i (S - 1) (by omega) (by omega) h1

/-- One more probe step moves the probed slot by one. -/
theorem home_succ (S a i : Nat) (h : a % S = i % S) : (a + 1) % S = (i + 1) % S := by
  rw [Nat.add_mod, h, ← Nat.add_mod]

/-! ## Capability set: table lists -/

/-- Reading the slot that was just written. -/
theorem getD_set_eq (T : List Nat) (i v : Nat) (h : i < T.length) : (T.set i v).getD i 0 = v := by
  rw [List.getD_eq_getElem?_getD, List.getElem?_set]
  simp [h]

/-- Reading another slot than the one that was written. -/
theorem getD_set_ne (T : List Nat) (i j v : Nat) (h : i ≠ j) :
    (T.set i v).getD j 0 = T.getD j 0 := by
  rw [List.getD_eq_getElem?_getD, List.getD_eq_getElem?_getD, List.getElem?_set]
  simp [h]

/-- Overwriting an occupied slot keeps the number of occupied slots. -/
theorem countP_set_occupied (T : List Nat) (i v : Nat) (h : i < T.length) (hv : v ≠ 0)
    (hi : T.getD i 0 ≠ 0) :
    (T.set i v).countP (fun e => e != 0) = T.countP (fun e => e != 0) := by
  rw [List.countP_set _ _ _ _ h]
  rw [List.getD_eq_getElem?_getD, List.getElem?_eq_getElem h] at hi
  simp only [Option.getD_some] at hi
  have hpos : 0 < T.countP (fun e => e != 0) := by
    rw [List.countP_pos_iff]
    exact ⟨T[i], List.getElem_mem h, by simpa using hi⟩
  simp [hv, hi]
  omega

/-- Filling an empty slot adds at most one occupied slot. -/
theorem countP_set_empty (T : List Nat) (i v : Nat) (h : i < T.length)
    (hi : T.getD i 0 = 0) :
    (T.set i v).countP (fun e => e != 0) ≤ T.countP (fun e => e != 0) + 1 := by
  rw [List.countP_set _ _ _ _ h]
  rw [List.getD_eq_getElem?_getD, List.getElem?_eq_getElem h] at hi
  simp only [Option.getD_some] at hi
  simp [hi]
  split_ifs <;> omega

/-! ## Capability set: the insertion loop -/

/-- The insertion loop, started `j` slots before the first empty slot, ends
after `j + 1` rounds and leaves a table that satisfies the invariant for the
old keys and the new key. -/
theorem insert_loop_inv (S : Nat) (H : Nat → Nat) (B : Nat) (K : Nat → Prop) (k0 : Nat)
    (hS : 1 < S) (hB : B < 256) :
    ∀ (j fuel : Nat) (T : List Nat) (k p idx : Nat), j < fuel → j < S →
      T.getD ((idx + j) % S) 0 = 0 →
      (∀ i, i < j → T.getD ((idx + i) % S) 0 ≠ 0) →
      LoopInv S H B K k0 T k p idx j →
      ∃ T', insert_loop S fuel T k p idx = some T' ∧
        TblInv S H (B + 1) (fun x => x = k0 ∨ K x) T' := by
  intro j
  induction j with
  | zero =>
    intro fuel T k p idx hfuel _ hempty _ inv
    obtain ⟨f, rfl⟩ : ∃ f, fuel = f + 1 := ⟨fuel - 1, by omega⟩
    have hpB : p ≤ B := inv.pB
    have hi0 : idx % S < S := Nat.mod_lt _ (by omega)
    have hi0T : idx % S < T.length := by rw [inv.len]; exact hi0
    simp only [Nat.add_zero] at hempty
    have hget0 : (T.set (idx % S) (k + p * 256)).getD (idx % S) 0 = k + p * 256 :=
      getD_set_eq T _ _ hi0T
    have hget : ∀ i, i ≠ idx % S →
        (T.set (idx % S) (k + p * 256)).getD i 0 = T.getD i 0 :=
      fun i hi => getD_set_ne T _ _ _ (Ne.symm hi)
    have hpd : entry_disp (k + p * 256) = p := key_disp k p inv.key (by omega)
    refine ⟨T.set (idx % S) (k + p * 256), ?_, ?_⟩
    · rw [insert_loop]
      simp only []
      rw [if_pos hempty, key_write k p inv.key (by omega)]
    · refine ⟨by rw [List.length_set]; exact inv.len, ?_, ?_, ?_, ?_, inv.keys⟩
      · intro i hi hne
        by_cases hii : i = idx % S
        · subst hii
          rw [hget0]
          exact ⟨k, p, inv.kmem, by omega, rfl, inv.home⟩
        · rw [hget i hii] at hne ⊢
          obtain ⟨k', d, hk', hd, he, hh⟩ := inv.slot i hi hne
          exact ⟨k', d, hk', by omega, he, hh⟩
      · intro i hi hne hpos
        by_cases hii : i = idx % S
        · subst hii
          rw [hget0, hpd] at hpos
          rw [hget0, hpd, hget _ (prev_slot_ne S _ hS hi0)]
          exact inv.crh hpos
        · rw [hget i hii] at hne hpos ⊢
          have hold := inv.rh i hi hne hpos
          have hpi : prev_slot S i ≠ idx % S := by
            intro hc
            rw [hc] at hold
            exact hold.1 hempty
          rw [hget _ hpi]
          exact hold
      · intro k' hk'
        rcases inv.mem k' hk' with rfl | ⟨i, d, hi, hd, he, hh⟩
        · exact ⟨idx % S, p, hi0, by omega, hget0, inv.home⟩
        · have hii : i ≠ idx % S := by
            intro hc
            rw [hc, hempty] at he
            exact key_entry_ne_zero k' d (inv.keys k' hk') he.symm
          exact ⟨i, d, hi, by omega, by rw [hget i hii]; exact he, hh⟩
      · have := countP_set_empty T (idx % S) (k + p * 256) hi0T hempty
        have := inv.cnt
        omega
  | succ j ih =>
    intro fuel T k p idx hfuel hjS hempty hfull inv
    obtain ⟨f, rfl⟩ : ∃ f, fuel = f + 1 := ⟨fuel - 1, by omega⟩
    have hS0 : 0 < S := by omega
    have hpB : p ≤ B := inv.pB
    have hi0 : idx % S < S := Nat.mod_lt _ hS0
    have hi0T : idx % S < T.length := by rw [inv.len]; exact hi0
    have hocc : T.getD (idx % S) 0 ≠ 0 := by
      have := hfull 0 (by omega)
      simpa using this
    obtain ⟨k', d', hk', hd', he, hh⟩ := inv.slot (idx % S) hi0 hocc
    have hkey' : is_key k' := inv.keys k' hk'
    have hdisp : entry_disp (T.getD (idx % S) 0) = d' := by
      rw [he]; exact key_disp k' d' hkey' (by omega)
    have hd'B : d' < B := by
      have := inv.ahead 0 (by omega)
      rw [Nat.add_zero, hdisp] at this
      exact this
    have hmask : T.getD (idx % S) 0 &&& 0xffff00ff = k' := by
      rw [he]; exact key_mask k' d' hkey' (by omega)
    have hdispc : (T.getD (idx % S) 0 >>> 8) &&& 0xff = d' := hdisp
    have hnext0 : ∀ T' : List Nat, (∀ i, i ≠ idx % S → T'.getD i 0 = T.getD i 0) →
        T'.getD ((idx % S + 1 + j) % S) 0 = 0 := by
      intro T' hT'
      rw [probe_succ, hT' _ (probe_ne S idx (j + 1) (by omega) hjS)]
      exact hempty
    have hnextfull : ∀ T' : List Nat, (∀ i, i ≠ idx % S → T'.getD i 0 = T.getD i 0) →
        ∀ i, i < j → T'.getD ((idx % S + 1 + i) % S) 0 ≠ 0 := by
      intro T' hT' i hi
      rw [probe_succ, hT' _ (probe_ne S idx (i + 1) (by omega) (by omega))]
      exact hfull (i + 1) (by omega)
    have hnextahead : ∀ T' : List Nat, (∀ i, i ≠ idx % S → T'.getD i 0 = T.getD i 0) →
        ∀ i, i < j → entry_disp (T'.getD ((idx % S + 1 + i) % S) 0) < B := by
      intro T' hT' i hi
      rw [probe_succ, hT' _ (probe_ne S idx (i + 1) (by omega) (by omega))]
      exact inv.ahead (i + 1) (by omega)
    have hprev : prev_slot S ((idx % S + 1) % S) = idx % S := by
      rw [prev_slot_succ S _ hS0, Nat.mod_mod]
    rw [insert_loop]
    simp only []
    rw [if_neg hocc, hdispc, hmask]
    by_cases hsteal : p > d'
    · rw [if_pos hsteal, key_write k p inv.key (by omega)]
      have hget0 : (T.set (idx % S) (k + p * 256)).getD (idx % S) 0 = k + p * 256 :=
        getD_set_eq T _ _ hi0T
      have hget : ∀ i, i ≠ idx % S →
          (T.set (idx % S) (k + p * 256)).getD i 0 = T.getD i 0 :=
        fun i hi => getD_set_ne T _ _ _ (Ne.symm hi)
      have hpd : entry_disp (k + p * 256) = p := key_disp k p inv.key (by omega)
      have hvne : k + p * 256 ≠ 0 := key_entry_ne_zero k p inv.key
      apply ih f (T.set (idx % S) (k + p * 256)) k' (d' + 1) (idx % S + 1) (by omega) (by omega)
        (hnext0 _ hget) (hnextfull _ hget)
      refine ⟨by rw [List.length_set]; exact inv.len, hkey', hk', by omega, ?_, ?_, ?_,
        hnextahead _ hget, ?_, ?_, ?_, inv.keys⟩
      · exact home_succ S (H k' + d') (idx % S) (by rw [hh, Nat.mod_mod])
      · intro _
        rw [hprev, hget0, hpd]
        exact ⟨hvne, by omega⟩
      · intro i hi hne
        by_cases hii : i = idx % S
        · subst hii
          rw [hget0]
          exact ⟨k, p, inv.kmem, inv.pB, rfl, inv.home⟩
        · rw [hget i hii] at hne ⊢
          exact inv.slot i hi hne
      · intro i hi hne hpos
        by_cases hii : i = idx % S
        · subst hii
          rw [hget0, hpd] at hpos
          rw [hget0, hpd, hget _ (prev_slot_ne S _ hS hi0)]
          exact inv.crh hpos
        · rw [hget i hii] at hne hpos ⊢
          have hold := inv.rh i hi hne hpos
          by_cases hpi : prev_slot S i = idx % S
          · rw [hpi, hget0, hpd]
            rw [hpi, hdisp] at hold
            exact ⟨hvne, by omega⟩
          · rw [hget _ hpi]
            exact hold
      · intro k'' hk''
        rcases inv.mem k'' hk'' with rfl | ⟨i, d, hi, hd, he2, hh2⟩
        · exact Or.inr ⟨idx % S, p, hi0, inv.pB, hget0, inv.home⟩
        · by_cases hii : i = idx % S
          · left
            rw [hii, he] at he2
            exact ((key_entry_inj k' k'' d' d hkey' (inv.keys k'' hk'') (by omega) (by omega)
              he2).1).symm
          · exact Or.inr ⟨i, d, hi, hd, by rw [hget i hii]; exact he2, hh2⟩
      · rw [countP_set_occupied T _ _ hi0T hvne hocc]
        exact inv.cnt
    · rw [if_neg hsteal]
      apply ih f T k (p + 1) (idx % S + 1) (by omega) (by omega)
        (hnext0 T (fun _ _ => rfl)) (hnextfull T (fun _ _ => rfl))
      refine ⟨inv.len, inv.key, inv.kmem, by omega, ?_, ?_, inv.slot,
        hnextahead T (fun _ _ => rfl), inv.rh, inv.mem, inv.cnt, inv.keys⟩
      · exact home_succ S (H k + p) (idx % S) (by rw [inv.home, Nat.mod_mod])
      · intro _
        rw [hprev, hdisp]
        exact ⟨hocc, by omega⟩

/-- A table with fewer occupied slots than slots has, from every slot on, a
first empty slot ahead in probe order. -/
theorem exists_first_empty (S : Nat) (T : List Nat) (idx : Nat) (hS : 0 < S)
    (hlen : T.length = S) (hcnt : T.countP (fun e => e != 0) < S) :
    ∃ j, j < S ∧ T.getD ((idx + j) % S) 0 = 0 ∧
      ∀ i, i < j → T.getD ((idx + i) % S) 0 ≠ 0 := by
  classical
  have hz : ∃ i, i < S ∧ T.getD i 0 = 0 := by
    by_contra hno
    push_neg at hno
    have hall : T.countP (fun e => e != 0) = T.length := by
      rw [List.countP_eq_length]
      intro e he
      obtain ⟨i, hi, rfl⟩ := List.getElem_of_mem he
      have := hno i (by omega)
      rw [List.getD_eq_getElem?_getD, List.getElem?_eq_getElem hi] at this
      simpa using this
    omega
  obtain ⟨i0, hi0, hz0⟩ := hz
  have hex : ∃ j, j < S ∧ T.getD ((idx + j) % S) 0 = 0 := by
    refine ⟨(i0 + (S - idx % S)) % S, Nat.mod_lt _ hS, ?_⟩
    have hm : idx % S < S := Nat.mod_lt _ hS
    have : (idx + (i0 + (S - idx % S)) % S) % S = i0 := by
      have hdm := Nat.div_add_mod idx S
      have e : idx + (i0 + (S - idx % S)) = i0 + S * (idx / S + 1) := by
        rw [Nat.mul_add, Nat.mul_one]; omega
      rw [Nat.add_mod_mod, e, Nat.add_mul_mod_self_left, Nat.mod_eq_of_lt hi0]
    rw [this]
    exact hz0
  refine ⟨Nat.find hex, (Nat.find_spec hex).1, (Nat.find_spec hex).2, ?_⟩
  intro i hi hzero
  exact Nat.find_min hex hi ⟨lt_trans hi (Nat.find_spec hex).1, hzero⟩

/-- Inserting a new key into a table that satisfies the invariant with fewer
than 256 and fewer than `S` keys: the loop ends within `S` rounds and the
invariant holds with the new key. -/
theorem insert_loop_ok (S : Nat) (H : Nat → Nat) (B : Nat) (K : Nat → Prop) (T : List Nat)
    (k0 hash fuel : Nat) (hS : 1 < S) (hB : B < 256) (hBS : B < S) (hfuel : S ≤ fuel)
    (inv : TblInv S H B K T) (hkey : is_key k0) (hhash : H k0 = hash) :
    ∃ T', insert_loop S fuel T k0 0 hash = some T' ∧
      TblInv S H (B + 1) (fun x => x = k0 ∨ K x) T' := by
  obtain ⟨j, hj, hempty, hfull⟩ := exists_first_empty S T hash (by omega) inv.len
    (lt_of_le_of_lt inv.cnt hBS)
  apply insert_loop_inv S H B K k0 hS hB j fuel T k0 0 hash (by omega) hj hempty hfull
  refine ⟨inv.len, hkey, Or.inl rfl, Nat.zero_le _, by rw [Nat.add_zero, hhash], ?_, ?_, ?_,
    inv.rh, ?_, inv.cnt, ?_⟩
  · intro h
    exact absurd h (lt_irrefl 0)
  · intro i hi hne
    obtain ⟨k, d, hk, hd, he, hh⟩ := inv.slot i hi hne
    exact ⟨k, d, Or.inr hk, by omega, he, hh⟩
  · intro i _
    have hlt : (hash + i) % S < S := Nat.mod_lt _ (by omega)
    by_cases hne : T.getD ((hash + i) % S) 0 = 0
    · exact absurd hne (hfull i ‹_›)
    · obtain ⟨k, d, hk, hd, he, -⟩ := inv.slot _ hlt hne
      rw [he, key_disp k d (inv.keys k hk) (by omega)]
      exact hd
  · intro k' hk'
    rcases hk' with rfl | hk'
    · exact Or.inl rfl
    · obtain ⟨i, d, hi, hd, he, hh⟩ := inv.mem k' hk'
      exact Or.inr ⟨i, d, hi, by omega, he, hh⟩
  · intro k' hk'
    rcases hk' with rfl | hk'
    · exact hkey
    · exact inv.keys k' hk'

/-! ## Capability set: the lookup loop -/

/-- The lookup loop always returns within 257 rounds, because a slot's
displacement byte is at most 255. -/
theorem have_loop_returns (S : Nat) (T pool q : List Nat) (lq : Nat) :
    ∀ (n fuel p idx : Nat), 256 ≤ p + n → n < fuel →
      ∃ r, have_loop S T pool q lq fuel p idx = some r := by
  intro n
  induction n with
  | zero =>
    intro fuel p idx hp hfuel
    obtain ⟨f, rfl⟩ : ∃ f, fuel = f + 1 := ⟨fuel - 1, by omega⟩
    rw [have_loop]
    simp only []
    have hd := entry_disp_lt (T.getD (idx % S) 0)
    have hgt : p > (T.getD (idx % S) 0 >>> 8) &&& 0xff := by
      have : (T.getD (idx % S) 0 >>> 8) &&& 0xff = entry_disp (T.getD (idx % S) 0) := rfl
      rw [this]; omega
    split_ifs <;> exact ⟨_, rfl⟩
  | succ n ih =>
    intro fuel p idx hp hfuel
    obtain ⟨f, rfl⟩ : ∃ f, fuel = f + 1 := ⟨fuel - 1, by omega⟩
    rw [have_loop]
    simp only []
    split_ifs
    · exact ⟨_, rfl⟩
    · exact ⟨_, rfl⟩
    · exact ⟨_, rfl⟩
    · exact ih f (p + 1) (idx % S + 1) (by omega) (by omega)

/-- The lookup loop returns 0 or 1, and it returns 1 only at an occupied slot
whose length byte is the query length and whose pool bytes are the query. -/
theorem have_loop_sound (S : Nat) (T pool q : List Nat) (lq : Nat) (hS : 0 < S) :
    ∀ (fuel p idx : Nat) (r : Nat × Nat), have_loop S T pool q lq fuel p idx = some r →
      r.1 = 0 ∨ (r.1 = 1 ∧ ∃ i, i < S ∧ T.getD i 0 ≠ 0 ∧ T.getD i 0 &&& 0xff = lq ∧
        memcmp_eq pool ((T.getD i 0 >>> 16) &&& 0xffff) q lq = true) := by
  intro fuel
  induction fuel with
  | zero =>
    intro p idx r h
    simp [have_loop] at h
  | succ f ih =>
    intro p idx r h
    rw [have_loop] at h
    simp only [] at h
    split_ifs at h with h0 h1 h2
    · cases h; exact Or.inl rfl
    · cases h; exact Or.inl rfl
    · cases h
      exact Or.inr ⟨rfl, idx % S, Nat.mod_lt _ hS, h0, h2.1, h2.2⟩
    · exact ih _ _ r h

/-- Behind an entry displaced by `d0` from the home `hq`, every slot of the
probe sequence from `hq` is occupied by an entry displaced at least as far as
the probe count that reaches it. -/
theorem probe_chain (S : Nat) (T : List Nat) (hq d0 : Nat) (hS : 0 < S)
    (rh : ∀ i, i < S → T.getD i 0 ≠ 0 → 0 < entry_disp (T.getD i 0) →
      T.getD (prev_slot S i) 0 ≠ 0 ∧
        entry_disp (T.getD i 0) ≤ entry_disp (T.getD (prev_slot S i) 0) + 1)
    (hne : T.getD ((hq + d0) % S) 0 ≠ 0)
    (hd : entry_disp (T.getD ((hq + d0) % S) 0) = d0) :
    ∀ (n p : Nat), p + n = d0 →
      T.getD ((hq + p) % S) 0 ≠ 0 ∧ p ≤ entry_disp (T.getD ((hq + p) % S) 0) := by
  intro n
  induction n with
  | zero =>
    intro p hp
    simp only [Nat.add_zero] at hp
    subst hp
    exact ⟨hne, by omega⟩
  | succ n ih =>
    intro p hp
    obtain ⟨h1, h2⟩ := ih (p + 1) (by omega)
    have h3 := rh ((hq + (p + 1)) % S) (Nat.mod_lt _ hS) h1 (by omega)
    have hprev : prev_slot S ((hq + (p + 1)) % S) = (hq + p) % S :=
      prev_slot_succ S (hq + p) hS
    rw [hprev] at h3
    exact ⟨h3.1, by omega⟩

/-- The lookup loop returns 1 for a query whose entry is stored `d0` slots
after its home, in a table that satisfies the robin-hood order. -/
theorem have_loop_finds (S : Nat) (T pool q : List Nat) (lq hq d0 : Nat) (hS : 0 < S)
    (rh : ∀ i, i < S → T.getD i 0 ≠ 0 → 0 < entry_disp (T.getD i 0) →
      T.getD (prev_slot S i) 0 ≠ 0 ∧
        entry_disp (T.getD i 0) ≤ entry_disp (T.getD (prev_slot S i) 0) + 1)
    (hne : T.getD ((hq + d0) % S) 0 ≠ 0)
    (hd : entry_disp (T.getD ((hq + d0) % S) 0) = d0)
    (hlen : T.getD ((hq + d0) % S) 0 &&& 0xff = lq)
    (hcmp : memcmp_eq pool ((T.getD ((hq + d0) % S) 0 >>> 16) &&& 0xffff) q lq = true) :
    ∀ (n fuel p idx : Nat), p + n = d0 → idx % S = (hq + p) % S → n < fuel →
      ∃ c, have_loop S T pool q lq fuel p idx = some (1, c) := by
  intro n
  induction n with
  | zero =>
    intro fuel p idx hp hidx hfuel
    obtain ⟨f, rfl⟩ : ∃ f, fuel = f + 1 := ⟨fuel - 1, by omega⟩
    simp only [Nat.add_zero] at hp
    subst hp
    have hdc : (T.getD ((hq + p) % S) 0 >>> 8) &&& 0xff = p := hd
    rw [have_loop]
    simp only []
    rw [hidx, if_neg hne, hdc, if_neg (lt_irrefl p), if_pos ⟨hlen, hcmp⟩]
    exact ⟨p, rfl⟩
  | succ n ih =>
    intro fuel p idx hp hidx hfuel
    obtain ⟨f, rfl⟩ : ∃ f, fuel = f + 1 := ⟨fuel - 1, by omega⟩
    obtain ⟨h1, h2⟩ := probe_chain S T hq d0 hS rh hne hd (n + 1) p hp
    have h2c : ¬ p > (T.getD ((hq + p) % S) 0 >>> 8) &&& 0xff := by
      have : (T.getD ((hq + p) % S) 0 >>> 8) &&& 0xff = entry_disp (T.getD ((hq + p) % S) 0) := rfl
      rw [this]; omega
    rw [have_loop]
    simp only []
    rw [hidx, if_neg h1, if_neg h2c]
    split_ifs
    · exact ⟨p, rfl⟩
    · apply ih f (p + 1) ((hq + p) % S + 1) (by omega) _ (by omega)
      exact home_succ S ((hq + p) % S) (hq + p) (Nat.mod_mod _ _)

/-! ## Capability set: hashing, sizing and the pool -/

/-- The length counter of `bdgl_strhash` advances by the length of a string without NUL bytes. -/
theorem bdgl_strhash_loop_len (sc : Bool) (s : List Nat) (hs : ∀ c ∈ s, c ≠ 0) :
    ∀ hash len, (bdgl_strhash_loop sc s hash len).2 = len + s.length := by
  induction s with
  | nil => intro hash len; rfl
  | cons c s ih =>
    intro hash len
    have hc : c ≠ 0 := hs c (by simp)
    rw [bdgl_strhash_loop, if_neg hc, ih (fun x hx => hs x (by simp [hx]))]
    simp only [List.length_cons]
    omega

/-- On a string without NUL bytes `bdgl_strhash` reports its length. -/
theorem bdgl_strhash_len (sc : Bool) (s : List Nat) (hs : IsCStr s) :
    (bdgl_strhash sc s).2 = s.length := by
  rw [bdgl_strhash, bdgl_strhash_loop_len sc s (fun c hc => Nat.pos_iff_ne_zero.mp (hs c hc).1)]
  omega

/-- The first `m` names of at most 255 bytes take at most `255 * m` bytes. -/
theorem flatten_take_length_le (names : List (List Nat)) (m : Nat)
    (h : ∀ n ∈ names, n.length ≤ 255) : ((names.take m).flatten).length ≤ 255 * m := by
  induction names generalizing m with
  | nil => simp
  | cons n names ih =>
    cases m with
    | zero => simp
    | succ m =>
      have h1 := ih m (fun x hx => h x (by simp [hx]))
      have h2 := h n (by simp)
      simp only [List.take_succ_cons, List.flatten_cons, List.length_append]
      omega

/-- The pool contents after one more name. -/
theorem take_succ_flatten (names : List (List Nat)) (m : Nat) (hm : m < names.length) :
    (names.take (m + 1)).flatten = (names.take m).flatten ++ names.getD m [] := by
  rw [List.getD_eq_getElem?_getD, List.take_succ, List.getElem?_eq_getElem hm]
  simp only [Option.toList, Option.getD_some, List.flatten_append, List.flatten_cons,
    List.flatten_nil, List.append_nil]

/-- The pool contents split at the `m`-th name. -/
theorem flatten_split (names : List (List Nat)) (m : Nat) (hm : m < names.length) :
    names.flatten
      = (names.take m).flatten ++ (names.getD m [] ++ (names.drop (m + 1)).flatten) := by
  conv_lhs => rw [← List.take_append_drop (m + 1) names]
  rw [List.flatten_append, take_succ_flatten names m hm, List.append_assoc]

/-- Within the limits of the slot format the key of a name has exact fields. -/
theorem name_key_is_key (names : List (List Nat)) (m : Nat) (hm : m < names.length)
    (hN : names.length ≤ 256) (hn : ∀ n ∈ names, n ≠ [] ∧ n.length ≤ 255) :
    is_key (name_key names m) := by
  have h1 := flatten_take_length_le names m (fun n h => (hn n h).2)
  have hmem : names.getD m [] ∈ names := by
    rw [List.getD_eq_getElem?_getD, List.getElem?_eq_getElem hm]
    exact List.getElem_mem hm
  have h2 := hn _ hmem
  refine ⟨_, _, rfl, by omega, ?_, by omega⟩
  exact List.length_pos.mpr h2.1

/-- The key of the `m`-th name designates that name in the pool contents. -/
theorem key_name_name_key (names : List (List Nat)) (m : Nat) (hm : m < names.length)
    (hn : ∀ n ∈ names, n.length ≤ 255) :
    key_name names.flatten (name_key names m) = names.getD m [] := by
  have hmem : names.getD m [] ∈ names := by
    rw [List.getD_eq_getElem?_getD, List.getElem?_eq_getElem hm]
    exact List.getElem_mem hm
  have h2 := hn _ hmem
  have e1 : name_key names m / 65536 = ((names.take m).flatten).length := by
    unfold name_key; omega
  have e2 : name_key names m % 256 = (names.getD m []).length := by
    unfold name_key; omega
  rw [key_name, e1, e2]
  conv_lhs => rw [flatten_split names m hm]
  rw [List.drop_left, List.take_left]

/-- The doubling loops return when the bound does not overflow. -/
theorem pow2_loop_ok : ∀ (n fuel size minSize : Nat), n < fuel → minSize ≤ size * 2 ^ n →
    size * 2 ^ n ≤ 2 ^ 31 →
    ∃ r, pow2_loop fuel size minSize = some r ∧ size ≤ r ∧ minSize ≤ r ∧ r ≤ size * 2 ^ n := by
  intro n
  induction n with
  | zero =>
    intro fuel size minSize hfuel hmin _
    obtain ⟨f, rfl⟩ : ∃ f, fuel = f + 1 := ⟨fuel - 1, by omega⟩
    simp only [pow_zero, Nat.mul_one] at hmin
    rw [pow2_loop, if_neg (by omega)]
    exact ⟨size, rfl, le_refl _, hmin, by simp⟩
  | succ n ih =>
    intro fuel size minSize hfuel hmin hmax
    obtain ⟨f, rfl⟩ : ∃ f, fuel = f + 1 := ⟨fuel - 1, by omega⟩
    have hpow : size * 2 ^ (n + 1) = size * 2 * 2 ^ n := by ring
    have h1 : 1 ≤ 2 ^ n := Nat.one_le_two_pow
    have hle : size * 2 ≤ size * 2 * 2 ^ n := Nat.le_mul_of_pos_right _ (by omega)
    rw [pow2_loop]
    by_cases hlt : size < minSize
    · rw [if_pos hlt, Nat.mod_eq_of_lt (by omega)]
      obtain ⟨r, hr, h2, h3, h4⟩ := ih f (size * 2) minSize (by omega) (by omega) (by omega)
      exact ⟨r, hr, by omega, h3, by omega⟩
    · rw [if_neg hlt]
      exact ⟨size, rfl, le_refl _, by omega, by omega⟩

/-- After `realloc` the pool has the new capacity. -/
theorem realloc_length (pool : List Nat) (n : Nat) : (realloc pool n).length = n := by
  unfold realloc
  simp only [List.length_append, List.length_take, List.length_replicate]
  omega

/-- A growing `realloc` keeps the bytes already appended. -/
theorem realloc_take (pool : List Nat) (n p : Nat) (hp : p ≤ pool.length) (hn : p ≤ n) :
    (realloc pool n).take p = pool.take p := by
  unfold realloc
  rw [List.take_append_of_le_length (by simp; omega), List.take_take, min_eq_left hn]

/-- The pool loop ends with room for the name and keeps the bytes already
appended. -/
theorem pool_loop_ok (len poolSize : Nat) (hfit : poolSize + len ≤ 65535) :
    ∀ (n fuel : Nat) (pool : List Nat) (cap : Nat), n < fuel → 65535 < cap * 2 ^ n →
      poolSize ≤ cap → cap ≤ 2 ^ 17 → pool.length = cap →
      ∃ pool' cap', pool_loop fuel len poolSize pool cap = some (pool', cap') ∧
        pool'.length = cap' ∧ poolSize + len ≤ cap' ∧ cap ≤ cap' ∧ cap' ≤ 2 ^ 17 ∧
        pool'.take poolSize = pool.take poolSize := by
  intro n
  induction n with
  | zero =>
    intro fuel pool cap hfuel hbig hps hcap hlen
    obtain ⟨f, rfl⟩ : ∃ f, fuel = f + 1 := ⟨fuel - 1, by omega⟩
    simp only [pow_zero, Nat.mul_one] at hbig
    rw [pool_loop, if_neg (by omega)]
    exact ⟨pool, cap, rfl, hlen, by omega, le_refl _, hcap, rfl⟩
  | succ n ih =>
    intro fuel pool cap hfuel hbig hps hcap hlen
    obtain ⟨f, rfl⟩ : ∃ f, fuel = f + 1 := ⟨fuel - 1, by omega⟩
    have hpow : cap * 2 ^ (n + 1) = cap * 2 * 2 ^ n := by ring
    rw [pool_loop]
    by_cases hgrow : len % 2 ^ 32 > (cap + 2 ^ 32 - poolSize) % 2 ^ 32
    · rw [if_pos hgrow]
      simp only []
      have hsmall : cap < poolSize + len := by omega
      rw [Nat.mod_eq_of_lt (by omega : cap * 2 < 2 ^ 32)]
      obtain ⟨pool', cap', h1, h2, h3, h4, h5, h6⟩ := ih f (realloc pool (cap * 2)) (cap * 2)
        (by omega) (by omega) (by omega) (by omega) (realloc_length _ _)
      refine ⟨pool', cap', h1, h2, h3, by omega, h5, ?_⟩
      rw [h6, realloc_take pool (cap * 2) poolSize (by omega) (by omega)]
    · rw [if_neg hgrow]
      exact ⟨pool, cap, rfl, hlen, by omega, le_refl _, hcap, rfl⟩

/-- A copy inside the pool keeps its capacity. -/
theorem memcpy_length (pool src : List Nat) (off : Nat) (h : off + src.length ≤ pool.length) :
    (memcpy pool off src).length = pool.length := by
  unfold memcpy
  simp only [List.length_append, List.length_take, List.length_drop]
  omega

/-- After the copy the pool holds its old prefix followed by the copied bytes. -/
theorem memcpy_take (pool src : List Nat) (off : Nat) (h : off ≤ pool.length) :
    (memcpy pool off src).take (off + src.length) = pool.take off ++ src := by
  unfold memcpy
  rw [List.take_append_of_le_length (by simp; omega)]
  exact List.take_of_length_le (by simp [h])

/-! ## Capability set: the build -/

/-- The `m`-th name is one of the names. -/
theorem getD_mem (names : List (List Nat)) (m : Nat) (hm : m < names.length) :
    names.getD m [] ∈ names := by
  rw [List.getD_eq_getElem?_getD, List.getElem?_eq_getElem hm]
  exact List.getElem_mem hm

/-- One round of the build keeps the invariant. -/
theorem ext_step_ok (sc : Bool) (names : List (List Nat)) (S m fuel : Nat) (t : bdgl_exts_tbl)
    (hN : names.length ≤ 256)
    (hn : ∀ n ∈ names, n ≠ [] ∧ IsCStr n ∧ n.length ≤ 255)
    (hm : m < names.length) (hS : 1 < S) (hNS : names.length ≤ S) (hfuel : S ≤ fuel)
    (hfuel9 : 9 ≤ fuel) (inv : ExtInv sc names S m t) :
    ∃ t', ext_step fuel sc t (names.getD m []) = some t' ∧ ExtInv sc names S (m + 1) t' := by
  have hmem := getD_mem names m hm
  obtain ⟨hne, hcs, h255⟩ := hn _ hmem
  have hslen := bdgl_strhash_len sc _ hcs
  have hps : t.poolSize ≤ 255 * m := by
    rw [inv.psize]
    exact flatten_take_length_le names m (fun n h => (hn n h).2.2)
  have hpcap : t.poolSize ≤ t.poolCapacity := by
    have := congrArg List.length inv.pool
    rw [List.length_take, inv.plen, ← inv.psize] at this
    omega
  have hcl := inv.cap_lo
  have hch := inv.cap_hi
  obtain ⟨pool', cap', hpl, hplen, hroom, hcapmono, hcaphi, hptake⟩ :=
    pool_loop_ok (names.getD m []).length t.poolSize (by omega) 8 fuel t.pool t.poolCapacity
      (by omega) (by omega) hpcap hch inv.plen
  have hkey : is_key (name_key names m) :=
    name_key_is_key names m hm hN (fun n h => ⟨(hn n h).1, (hn n h).2.2⟩)
  have hkeyeq : name_key names m = t.poolSize * 65536 + (names.getD m []).length := by
    rw [name_key, inv.psize]
  have hhash : key_hash sc names.flatten (name_key names m)
      = (bdgl_strhash sc (names.getD m [])).1 := by
    rw [key_hash, key_name_name_key names m hm (fun n h => (hn n h).2.2)]
  obtain ⟨T', hins, hT'⟩ := insert_loop_ok S (key_hash sc names.flatten) m
    (fun k => ∃ i, i < m ∧ k = name_key names i) t.tbl (name_key names m)
    (bdgl_strhash sc (names.getD m [])).1 fuel hS (by omega) (by omega) hfuel inv.tbl hkey hhash
  have hK : (fun x => x = name_key names m ∨ ∃ i, i < m ∧ x = name_key names i)
      = (fun k => ∃ i, i < m + 1 ∧ k = name_key names i) := by
    funext x
    apply propext
    constructor
    · rintro (rfl | ⟨i, hi, rfl⟩)
      · exact ⟨m, by omega, rfl⟩
      · exact ⟨i, by omega, rfl⟩
    · rintro ⟨i, hi, rfl⟩
      by_cases him : i = m
      · subst him; exact Or.inl rfl
      · exact Or.inr ⟨i, by omega, rfl⟩
  rw [hK] at hT'
  have hoff : t.poolSize % 2 ^ 16 = t.poolSize := Nat.mod_eq_of_lt (by omega)
  have hnew : (t.poolSize <<< 16) ||| ((names.getD m []).length % 2 ^ 32) = name_key names m := by
    rw [new_entry_eq _ _ (by omega), hkeyeq]
  have hsz : (t.poolSize + (names.getD m []).length) % 2 ^ 32
      = t.poolSize + (names.getD m []).length := Nat.mod_eq_of_lt (by omega)
  refine ⟨{ t with
    tbl := T'
    pool := memcpy pool' t.poolSize (names.getD m [])
    poolSize := t.poolSize + (names.getD m []).length
    poolCapacity := cap' }, ?_, ?_⟩
  · unfold ext_step
    simp only [hslen, hpl, hoff, hnew, hsz, List.take_length, inv.size, hins]
  · refine ⟨inv.size, ?_, ?_, ?_, by simp only; omega, hcaphi, hT'⟩
    · simp only
      rw [take_succ_flatten names m hm, List.length_append, inv.psize]
    · simp only
      rw [memcpy_take _ _ _ (by omega), hptake, inv.pool, take_succ_flatten names m hm]
    · simp only
      rw [memcpy_length _ _ _ (by omega), hplen]

/-- The rounds for the names from the `m`-th on keep the invariant. -/
theorem ext_loop_ok (sc : Bool) (names : List (List Nat)) (S fuel : Nat)
    (hN : names.length ≤ 256)
    (hn : ∀ n ∈ names, n ≠ [] ∧ IsCStr n ∧ n.length ≤ 255)
    (hS : 1 < S) (hNS : names.length ≤ S) (hfuel : S ≤ fuel) (hfuel9 : 9 ≤ fuel) :
    ∀ (todo : List (List Nat)) (m : Nat) (t : bdgl_exts_tbl), names.drop m = todo →
      m ≤ names.length → ExtInv sc names S m t →
      ∃ t', ext_loop fuel sc todo t = some t' ∧ ExtInv sc names S names.length t' := by
  intro todo
  induction todo with
  | nil =>
    intro m t hdrop hle inv
    have hm : names.length ≤ m := List.drop_eq_nil_iff.mp hdrop
    have hmm : m = names.length := by omega
    subst hmm
    exact ⟨t, rfl, inv⟩
  | cons n todo ih =>
    intro m t hdrop _ inv
    have hm : m < names.length := by
      by_contra hc
      rw [List.drop_of_length_le (by omega)] at hdrop
      exact List.noConfusion hdrop
    have hnm : names.getD m [] = n := by
      rw [List.getD_eq_getElem?_getD, ← List.head?_drop, hdrop]
      rfl
    have hrest : names.drop (m + 1) = todo := by
      rw [← List.drop_drop 1 m, hdrop]
      rfl
    obtain ⟨t1, h1, inv1⟩ := ext_step_ok sc names S m fuel t hN hn hm hS hNS hfuel hfuel9 inv
    obtain ⟨t2, h2, inv2⟩ := ih (m + 1) t1 hrest (by omega) inv1
    rw [hnm] at h1
    exact ⟨t2, by rw [ext_loop, h1]; exact h2, inv2⟩

/-- Every slot of the zeroed table is empty. -/
theorem getD_replicate_zero (S i : Nat) : (List.replicate S 0).getD i 0 = 0 := by
  rw [List.getD_eq_getElem?_getD]
  by_cases h : i < S
  · rw [List.getElem?_eq_getElem (by simpa using h)]
    simp
  · rw [List.getElem?_eq_none (by simpa using h)]
    rfl

/-- Within the limits of the slot format the build returns, with a table of
32 to 512 slots that satisfies the invariant for all the names. -/
theorem bdgl_ext_init_ok (sc : Bool) (names : List (List Nat)) (fuel : Nat)
    (hN : names.length ≤ 256)
    (hn : ∀ n ∈ names, n ≠ [] ∧ IsCStr n ∧ n.length ≤ 255)
    (hfuel : 512 ≤ fuel) :
    ∃ t, bdgl_ext_init fuel sc names = some t ∧ 32 ≤ t.tblSize ∧ t.tblSize ≤ 512 ∧
      ExtInv sc names t.tblSize names.length t := by
  have hmin : (names.length + names.length / 2) % 2 ^ 32 = names.length + names.length / 2 :=
    Nat.mod_eq_of_lt (by omega)
  have hminp : (names.length * 25) % 2 ^ 32 = names.length * 25 := Nat.mod_eq_of_lt (by omega)
  obtain ⟨S, hS, hS32, hSmin, hSmax⟩ := pow2_loop_ok 4 fuel 32
    (names.length + names.length / 2) (by omega) (by norm_num; omega) (by norm_num)
  obtain ⟨cap, hcap, hcap256, -, hcapmax⟩ := pow2_loop_ok 5 fuel 256 (names.length * 25)
    (by omega) (by norm_num; omega) (by norm_num)
  have hSmax' : S ≤ 512 := by norm_num at hSmax; exact hSmax
  have hcapmax' : cap ≤ 8192 := by norm_num at hcapmax; exact hcapmax
  have inv0 : ExtInv sc names S 0
      { tblSize := S, tbl := List.replicate S 0, pool := List.replicate cap 0, poolSize := 0,
        poolCapacity := cap, extCount := names.length } := by
    refine ⟨rfl, by simp, by simp, by simp, hcap256, by simp only; omega, ?_⟩
    refine ⟨by simp, ?_, ?_, ?_, ?_, ?_⟩
    · intro i _ hne
      exact absurd (getD_replicate_zero S i) hne
    · intro i _ hne
      exact absurd (getD_replicate_zero S i) hne
    · rintro k ⟨i, hi, -⟩
      omega
    · simp only [Nat.le_zero]
      rw [List.countP_eq_zero]
      intro e he
      rw [List.eq_of_mem_replicate he]
      simp
    · rintro k ⟨i, hi, -⟩
      omega
  obtain ⟨t, ht, inv⟩ := ext_loop_ok sc names S fuel hN hn (by omega) (by omega) (by omega)
    (by omega) names 0 _ rfl (Nat.zero_le _) inv0
  refine ⟨t, ?_, ?_, ?_, ?_⟩
  · unfold bdgl_ext_init
    simp only [hmin, hminp, hS, hcap]
    exact ht
  · rw [inv.size]; exact hS32
  · rw [inv.size]; exact hSmax'
  · rw [inv.size]; exact inv

/-! ## Capability set: the query -/

/-- A range inside the used part of the pool reads the same in the pool contents. -/
theorem drop_take_of_take (pool blob : List Nat) (P off len : Nat) (h : pool.take P = blob)
    (hle : off + len ≤ P) : (pool.drop off).take len = (blob.drop off).take len := by
  rw [← h, List.drop_take, List.take_take, min_eq_left (by omega)]

/-- In a built table, the comparison that `bdgl_have_ext` makes at the slot of
the `j`-th name succeeds exactly for the query that equals that name. -/
theorem entry_matches_iff (sc : Bool) (names : List (List Nat)) (S : Nat) (t : bdgl_exts_tbl)
    (q : List Nat) (j d : Nat)
    (hN : names.length ≤ 256)
    (hn : ∀ n ∈ names, n ≠ [] ∧ IsCStr n ∧ n.length ≤ 255)
    (inv : ExtInv sc names S names.length t) (hj : j < names.length) (hd : d < 256) :
    ((name_key names j + d * 256) &&& 0xff = q.length ∧
      memcmp_eq t.pool (((name_key names j + d * 256) >>> 16) &&& 0xffff) q q.length = true)
      ↔ names.getD j [] = q := by
  have h255 := (hn _ (getD_mem names j hj)).2.2
  have hoffle := flatten_take_length_le names j (fun n h => (hn n h).2.2)
  have hlenb : (name_key names j + d * 256) &&& 0xff = (names.getD j []).length := by
    rw [entry_len_eq]; unfold name_key; omega
  have hoffb : ((name_key names j + d * 256) >>> 16) &&& 0xffff
      = ((names.take j).flatten).length := by
    rw [entry_off_eq]; unfold name_key; omega
  have hpool : t.pool.take t.poolSize = names.flatten := by
    rw [inv.pool, List.take_length]
  have hP : ((names.take j).flatten).length + (names.getD j []).length ≤ t.poolSize := by
    rw [inv.psize, List.take_length]
    conv_rhs => rw [flatten_split names j hj]
    simp only [List.length_append]
    omega
  have hslice : (t.pool.drop ((names.take j).flatten).length).take (names.getD j []).length
      = names.getD j [] := by
    rw [drop_take_of_take t.pool names.flatten t.poolSize _ _ hpool hP]
    conv_lhs => rw [flatten_split names j hj]
    rw [List.drop_left, List.take_left]
  rw [hlenb, hoffb]
  unfold memcmp_eq
  constructor
  · rintro ⟨h1, h2⟩
    rw [← h1, hslice, List.take_of_length_le (by omega)] at h2
    exact of_decide_eq_true (by simpa using h2)
  · intro h
    have hl : (names.getD j []).length = q.length := by rw [h]
    refine ⟨hl, ?_⟩
    rw [← hl, hslice, h, List.take_length]
    simp

/-- A query that equals an enumerated name is reported present. -/
theorem have_ext_present (sc : Bool) (names : List (List Nat)) (S fuel : Nat)
    (t : bdgl_exts_tbl) (j : Nat)
    (hN : names.length ≤ 256)
    (hn : ∀ n ∈ names, n ≠ [] ∧ IsCStr n ∧ n.length ≤ 255)
    (hS : 0 < S) (hfuel : 256 < fuel)
    (inv : ExtInv sc names S names.length t) (hj : j < names.length) :
    bdgl_have_ext fuel sc t (names.getD j []) = some 1 := by
  obtain ⟨i, d, hi, hd, he, hh⟩ := inv.tbl.mem (name_key names j) ⟨j, hj, rfl⟩
  have hcs := (hn _ (getD_mem names j hj)).2.1
  have hkey := name_key_is_key names j hj hN (fun n h => ⟨(hn n h).1, (hn n h).2.2⟩)
  have hhash : key_hash sc names.flatten (name_key names j)
      = (bdgl_strhash sc (names.getD j [])).1 := by
    rw [key_hash, key_name_name_key names j hj (fun n h => (hn n h).2.2)]
  rw [hhash] at hh
  have hm := (entry_matches_iff sc names S t (names.getD j []) j d hN hn inv hj (by omega)).mpr rfl
  have hslot : t.tbl.getD (((bdgl_strhash sc (names.getD j [])).1 + d) % S) 0
      = name_key names j + d * 256 := by rw [hh, he]
  obtain ⟨c, hc⟩ := have_loop_finds S t.tbl t.pool (names.getD j []) (names.getD j []).length
    (bdgl_strhash sc (names.getD j [])).1 d hS inv.tbl.rh
    (by rw [hslot]; exact key_entry_ne_zero _ _ hkey)
    (by rw [hslot]; exact key_disp _ _ hkey (by omega))
    (by rw [hslot]; exact hm.1)
    (by rw [hslot]; exact hm.2)
    d fuel 0 (bdgl_strhash sc (names.getD j [])).1 (by omega) rfl (by omega)
  unfold bdgl_have_ext bdgl_have_ext_probe
  simp only [bdgl_strhash_len sc _ hcs, inv.size, hc, Option.map_some']

/-- A query that equals no enumerated name is reported absent. -/
theorem have_ext_absent (sc : Bool) (names : List (List Nat)) (S fuel : Nat)
    (t : bdgl_exts_tbl) (q : List Nat)
    (hN : names.length ≤ 256)
    (hn : ∀ n ∈ names, n ≠ [] ∧ IsCStr n ∧ n.length ≤ 255)
    (hS : 0 < S) (hfuel : 256 < fuel)
    (inv : ExtInv sc names S names.length t) (hq : IsCStr q) (hnot : q ∉ names) :
    bdgl_have_ext fuel sc t q = some 0 := by
  obtain ⟨r, hr⟩ := have_loop_returns S t.tbl t.pool q q.length 256 fuel 0
    (bdgl_strhash sc q).1 (by omega) hfuel
  have hsound := have_loop_sound S t.tbl t.pool q q.length hS fuel 0 _ r hr
  have hr0 : r.1 = 0 := by
    rcases hsound with h0 | ⟨-, i, hi, hne, hlen, hcmp⟩
    · exact h0
    · exfalso
      obtain ⟨k, d, ⟨j, hj, rfl⟩, hd, he, -⟩ := inv.tbl.slot i hi hne
      rw [he] at hlen hcmp
      have := (entry_matches_iff sc names S t q j d hN hn inv hj (by omega)).mp ⟨hlen, hcmp⟩
      exact hnot (this ▸ getD_mem names j hj)
  unfold bdgl_have_ext bdgl_have_ext_probe
  simp only [bdgl_strhash_len sc _ hq, inv.size, hr, Option.map_some', hr0]

/-- Round trip of the capability set within the limits of the slot format. -/
theorem ext_roundtrip (sc : Bool) (names : List (List Nat)) (fuel : Nat) (q : List Nat)
    (hN : names.length ≤ 256)
    (hn : ∀ n ∈ names, n ≠ [] ∧ IsCStr n ∧ n.length ≤ 255)
    (hq : IsCStr q) (hfuel : 512 ≤ fuel) :
    build_and_query fuel sc names q = some (if q ∈ names then 1 else 0) := by
  obtain ⟨t, ht, hS32, -, inv⟩ := bdgl_ext_init_ok sc names fuel hN hn hfuel
  unfold build_and_query
  rw [ht]
  simp only []
  by_cases hmem : q ∈ names
  · rw [if_pos hmem]
    obtain ⟨j, hj, rfl⟩ := List.getElem_of_mem hmem
    have := have_ext_present sc names t.tblSize fuel t j hN hn (by omega) (by omega) inv hj
    rw [List.getD_eq_getElem?_getD, List.getElem?_eq_getElem hj] at this
    exact this
  · rw [if_neg hmem]
    exact have_ext_absent sc names t.tblSize fuel t q hN hn (by omega) (by omega) inv hq hmem

/-- C1, as stated, fails: a single enumerated name of 256 bytes (each `A`) is
not found after the build.  Its entry is stored as `0x100`: the length byte
is 0 and bit 8 of the length lands in the displacement field. -/
theorem have_ext_misses_long_name :
    List.replicate 256 65 ≠ [] ∧ IsCStr (List.replicate 256 65) ∧
    (bdgl_ext_init 64 true [List.replicate 256 65]).map
      (fun t => t.tbl.filter (fun e => e != 0)) = some [0x100] ∧
    build_and_query 64 true [List.replicate 256 65] (List.replicate 256 65) = some 0 ∧
    build_and_query 64 false [List.replicate 256 65] (List.replicate 256 65) = some 0 := by
  decide!

/-- C1, amended: for every list of at most 256 names, each of 1 to 255
non-NUL bytes, after the build `bdgl_have_ext(q)` returns 1 for every `q` that
is one of the enumerated names and 0 for every string `q` that is not equal to
any enumerated name. -/
theorem have_ext_roundtrip (sc : Bool) (names : List (List Nat)) (fuel : Nat) (q : List Nat)
    (hN : names.length ≤ 256)
    (hn : ∀ n ∈ names, n ≠ [] ∧ IsCStr n ∧ n.length ≤ 255)
    (hq : IsCStr q) (hfuel : 512 ≤ fuel) :
    (q ∈ names → build_and_query fuel sc names q = some 1) ∧
    (q ∉ names → build_and_query fuel sc names q = some 0) := by
  have h := ext_roundtrip sc names fuel q hN hn hq hfuel
  constructor
  · intro hmem
    rw [h, if_pos hmem]
  · intro hmem
    rw [h, if_neg hmem]

/-- C1 amended, at the names `GL_ARB_a` and `GL_ARB_b`: the first is found and
`GL_ARB_c` is not. -/
theorem have_ext_roundtrip_witness :
    build_and_query 512 true [cstr "GL_ARB_a", cstr "GL_ARB_b"] (cstr "GL_ARB_a") = some 1 ∧
    build_and_query 512 true [cstr "GL_ARB_a", cstr "GL_ARB_b"] (cstr "GL_ARB_c") = some 0 :=
  ⟨(have_ext_roundtrip true [cstr "GL_ARB_a", cstr "GL_ARB_b"] 512 (cstr "GL_ARB_a")
      (by decide) (by decide) (by decide) (by decide)).1 (by decide),
   (have_ext_roundtrip true [cstr "GL_ARB_a", cstr "GL_ARB_b"] 512 (cstr "GL_ARB_c")
      (by decide) (by decide) (by decide) (by decide)).2 (by decide)⟩

/-! ## Capability loader: the version gate and the ungated load -/

/-- The gate with minimum version `(0, 0)` is satisfied by every context
version. -/
theorem bdgl_min_context_zero (ctx : bdgl_ctx) : bdgl_min_context ctx 0 0 = 1 := by
  unfold bdgl_min_context
  by_cases h : ctx.major = 0
  · simp [h]
  · have : 0 < ctx.major := Nat.pos_of_ne_zero h
    simp [this]

/-- What `bdgl_init` invokes the resolver on: nothing when a major version is
recorded, and the literal `glGetString` otherwise. -/
theorem bdgl_init_calls (d : Driver) (ctx : bdgl_ctx) :
    (bdgl_init d ctx).calls = if 0 < ctx.major then [] else [cstr "glGetString"] := by
  unfold bdgl_init
  by_cases h : 0 < ctx.major
  · simp [h]
  · have h0 : ¬ ctx.major > 0 := h
    rw [if_neg h0, if_neg h]
    simp only []
    split_ifs
    · rfl
    · split <;> (try split_ifs) <;> rfl

/-- A group that is not loaded and whose minimum version the gate rejects:
`bdgl_load_version` returns 1 after `bdgl_init` alone. -/
theorem bdgl_load_version_gate_fails (fuel : Nat) (d : Driver) (v : bdgl_Version)
    (ctx : bdgl_ctx) (hloaded : v.loaded = 0)
    (hgate : bdgl_min_context (bdgl_init d ctx).ctx v.major v.minor = 0) :
    bdgl_load_version fuel d v ctx
      = some ⟨1, v, (bdgl_init d ctx).ctx, (bdgl_init d ctx).calls⟩ := by
  unfold bdgl_load_version
  rw [if_neg (by simp [hloaded])]
  simp only []
  by_cases h1 : (bdgl_init d ctx).ret ≠ 0
  · rw [if_pos h1]
  · rw [if_neg h1, if_pos hgate]

/-- C11: for a group that is not loaded and whose minimum version is not
satisfied by the recorded context version, `bdgl_load_version` fails (returns
1) whatever the fuel, so without running the name-list walk: the group, with
its pointer array and `loaded` flag, is unchanged, and the resolver
invocations are those of `bdgl_init` alone.  With a version recorded (major
at least 1) there is none at all; with none recorded yet the only one is the
version query's lookup of the literal `glGetString`. -/
theorem bdgl_load_version_gate (fuel : Nat) (d : Driver) (v : bdgl_Version)
    (ctx : bdgl_ctx) (hloaded : v.loaded = 0)
    (hgate : bdgl_min_context (bdgl_init d ctx).ctx v.major v.minor = 0) :
    ∃ r, bdgl_load_version fuel d v ctx = some r ∧
      r.ret = 1 ∧ r.version = v ∧ r.version.funcs = v.funcs ∧ r.version.loaded = 0 ∧
      r.calls = (bdgl_init d ctx).calls ∧
      (0 < ctx.major → r.ctx = ctx ∧ r.calls = []) ∧
      (ctx.major = 0 → r.calls = [cstr "glGetString"]) := by
  refine ⟨_, bdgl_load_version_gate_fails fuel d v ctx hloaded hgate, rfl, rfl, rfl, hloaded,
    rfl, ?_, ?_⟩
  · intro h
    rw [bdgl_init_recorded d ctx h]
    exact ⟨rfl, rfl⟩
  · intro h
    show (bdgl_init d ctx).calls = _
    rw [bdgl_init_calls, if_neg (by omega)]

/-- C11, at a group that requires 4.0, on the recorded context version 3.3 and
with a resolver that would resolve every name: nothing is resolved, with no
fuel at all. -/
theorem bdgl_load_version_gate_witness :
    ∃ r, bdgl_load_version 0 (driver_of "3.3") group_4_0 ⟨3, 3⟩ = some r ∧
      r.ret = 1 ∧ r.version = group_4_0 ∧ r.version.funcs = group_4_0.funcs ∧
      r.version.loaded = 0 ∧
      r.calls = (bdgl_init (driver_of "3.3") ⟨3, 3⟩).calls ∧
      (0 < 3 → r.ctx = ⟨3, 3⟩ ∧ r.calls = []) ∧
      ((⟨3, 3⟩ : bdgl_ctx).major = 0 → r.calls = [cstr "glGetString"]) :=
  bdgl_load_version_gate 0 (driver_of "3.3") group_4_0 ⟨3, 3⟩ rfl (by decide)

/-- C12: `bdgl_load_extension` on an extension group is `bdgl_load_version` on
the group with the same loaded flag, names and pointer array and the minimum
version `(0, 0)`, whose gate every context version satisfies: both return the
same value and leave the same loaded flag, pointer array and context version,
after the same resolver invocations (and one runs out of fuel exactly when the
other does). -/
theorem bdgl_load_extension_eq (fuel : Nat) (d : Driver) (e : bdgl_Extension)
    (ctx : bdgl_ctx) :
    bdgl_load_extension fuel d e ctx
      = (bdgl_load_version fuel d (as_version e) ctx).map as_extension_result ∧
    (∀ c : bdgl_ctx, bdgl_min_context c (as_version e).major (as_version e).minor ≠ 0) := by
  refine ⟨?_, fun c => by
    show bdgl_min_context c 0 0 ≠ 0
    rw [bdgl_min_context_zero]; decide⟩
  unfold bdgl_load_extension bdgl_load_version
  simp only [as_version, bdgl_min_context_zero, one_ne_zero, if_false]
  split_ifs
  · rfl
  · rfl
  · cases bdgl_load fuel e.funcs e.names d.loadproc with
    | none => rfl
    | some l =>
      simp only []
      cases l.failed <;> rfl

/-- The ungated load at the group of `GL_ARB_draw_instanced`, on a driver that
resolves every name: both names are resolved and the group is marked loaded,
as the gated load does on the group with minimum version `(0, 0)`. -/
theorem bdgl_load_extension_example :
    ∃ r, bdgl_load_extension 64 (driver_of "3.3") ext_draw_instanced ⟨0, 0⟩ = some r ∧
      r.ret = 0 ∧ r.extension.loaded = 1 ∧ r.ctx = ⟨3, 3⟩ ∧
      r.calls = [cstr "glGetString", cstr "glDrawArraysInstancedARB",
        cstr "glDrawElementsInstancedARB"] :=
  ⟨_, rfl, rfl, rfl, rfl, by decide⟩

/-! ## Hashing -/

/-- The loop of `bdgl_strhash` is a left fold over the bytes before the first
NUL. -/
theorem bdgl_strhash_loop_fold (sc : Bool) (s : List Nat) :
    ∀ hash len, bdgl_strhash_loop sc s hash len
      = ((before_nul s).foldl (fun hash c => bdgl_hash32 (hash ^^^ charToU32 sc c)) hash,
          len + (before_nul s).length) := by
  induction s with
  | nil => intro hash len; rfl
  | cons c s ih =>
    intro hash len
    by_cases hc : c = 0
    · subst hc
      simp [bdgl_strhash_loop, before_nul]
    · rw [bdgl_strhash_loop, if_neg hc, ih]
      have : before_nul (c :: s) = c :: before_nul s := by
        simp [before_nul, hc]
      rw [this, List.foldl_cons, List.length_cons]
      congr 1
      omega

/-- The code's hash is the fold with the code's conversion of `char`. -/
theorem bdgl_strhash_eq_fold (sc : Bool) (s : List Nat) :
    bdgl_strhash sc s = fold_strhash sc s := by
  rw [bdgl_strhash, bdgl_strhash_loop_fold, fold_strhash, Nat.zero_add]

/-- The avalanche of the code is the avalanche of the specification. -/
theorem bdgl_hash32_eq_spec (x : Nat) : bdgl_hash32 x = spec_avalanche x := rfl

/-- A byte below 128, and every byte where `char` is unsigned, enters the hash
as its value. -/
theorem charToU32_eq (sc : Bool) (c : Nat) (h : sc = false ∨ c < 128) : charToU32 sc c = c := by
  unfold charToU32
  rcases h with h | h
  · simp [h]
  · have : ¬ 128 ≤ c := by omega
    simp [this]

/-- C19, as stated, fails where `char` is signed: the one-byte string with the
byte 200 hashes as `avalanche(31 XOR 0xFFFFFFC8)`, not as
`avalanche(31 XOR 200)`. -/
theorem bdgl_strhash_sign_extends :
    bdgl_strhash true [200] = (bdgl_hash32 (31 ^^^ 0xFFFFFFC8), 1) ∧
    spec_strhash [200] = (spec_avalanche (31 ^^^ 200), 1) ∧
    (bdgl_strhash true [200]).1 = 1354005582 ∧
    (spec_strhash [200]).1 = 1043149413 ∧
    bdgl_strhash true [200] ≠ spec_strhash [200] := by
  decide

/-- C19, amended: for every NUL-terminated string `bdgl_strhash` returns in
one pass the number of bytes before the first NUL and the hash obtained by
folding, from seed 31, `hash = avalanche(hash XOR c)` over these bytes in
order, where `c` is the byte converted as a `char` is: its value `0..255`
where `char` is unsigned and for every byte below 128, and `0xFFFFFF00 + byte`
(sign extension) for a byte of 128 or more where `char` is signed.  So on
strings of bytes below 128, and everywhere where `char` is unsigned, it is the
hash of the specification; the empty string hashes to 31 with length 0. -/
theorem bdgl_strhash_spec (sc : Bool) (s : List Nat) :
    bdgl_strhash sc s = fold_strhash sc s ∧
    (bdgl_strhash sc s).2 = (before_nul s).length ∧
    (∀ c, 128 ≤ c → charToU32 true c = 0xFFFFFF00 + c) ∧
    (sc = false ∨ (∀ c ∈ s, c < 128) → bdgl_strhash sc s = spec_strhash s) ∧
    bdgl_strhash sc [] = (31, 0) := by
  refine ⟨bdgl_strhash_eq_fold sc s, by rw [bdgl_strhash_eq_fold]; rfl, ?_, ?_, rfl⟩
  · intro c hc
    have hb : (true && decide (128 ≤ c)) = true := by
      rw [Bool.true_and]; exact decide_eq_true hc
    unfold charToU32
    exact if_pos hb
  · intro h
    have hf : (before_nul s).foldl (fun hash c => bdgl_hash32 (hash ^^^ charToU32 sc c)) 31
        = (before_nul s).foldl (fun hash byte => spec_avalanche (hash ^^^ byte)) 31 := by
      apply List.foldl_ext
      intro hash c hc
      have hcs : c ∈ s := (List.takeWhile_sublist _).subset hc
      rw [charToU32_eq sc c (h.imp id (fun hs => hs c hcs))]
      rfl
    rw [bdgl_strhash_eq_fold, fold_strhash, spec_strhash, hf]

/-- C19 amended, at the name `GL_ARB_draw_instanced` where `char` is signed:
the code's hash is the hash of the specification. -/
theorem bdgl_strhash_spec_witness :
    bdgl_strhash true (cstr "GL_ARB_draw_instanced")
      = spec_strhash (cstr "GL_ARB_draw_instanced") :=
  (bdgl_strhash_spec true (cstr "GL_ARB_draw_instanced")).2.2.2.1 (Or.inr (by decide))

/-! ## Capability set: the table size -/

/-- The doubling loop started at a power of two returns the smallest power of
two, not below the start, that reaches the bound, as long as the bound is at
most `2 ^ 31`. -/
theorem pow2_loop_smallest : ∀ (n fuel k0 minSize : Nat), n < fuel → k0 + n ≤ 31 →
    minSize ≤ 2 ^ (k0 + n) →
    ∃ k, k0 ≤ k ∧ k ≤ k0 + n ∧ pow2_loop fuel (2 ^ k0) minSize = some (2 ^ k) ∧
      minSize ≤ 2 ^ k ∧ (k = k0 ∨ 2 ^ (k - 1) < minSize) := by
  intro n
  induction n with
  | zero =>
    intro fuel k0 minSize hfuel _ hmin
    obtain ⟨f, rfl⟩ : ∃ f, fuel = f + 1 := ⟨fuel - 1, by omega⟩
    rw [Nat.add_zero] at hmin
    refine ⟨k0, le_refl _, by omega, ?_, hmin, Or.inl rfl⟩
    rw [pow2_loop, if_neg (by omega)]
  | succ n ih =>
    intro fuel k0 minSize hfuel hk hmin
    obtain ⟨f, rfl⟩ : ∃ f, fuel = f + 1 := ⟨fuel - 1, by omega⟩
    by_cases hlt : 2 ^ k0 < minSize
    · have hpow : 2 ^ k0 * 2 = 2 ^ (k0 + 1) := by rw [pow_succ]
      have hsmall : 2 ^ (k0 + 1) < 2 ^ 32 := Nat.pow_lt_pow_right (by norm_num) (by omega)
      obtain ⟨k, hk1, hk2, hr, hge, hmin'⟩ := ih f (k0 + 1) minSize (by omega) (by omega)
        (by rw [show k0 + 1 + n = k0 + (n + 1) by omega]; exact hmin)
      refine ⟨k, by omega, by omega, ?_, hge, Or.inr ?_⟩
      · rw [pow2_loop, if_pos hlt, hpow, Nat.mod_eq_of_lt hsmall]
        exact hr
      · rcases hmin' with rfl | h
        · simpa using hlt
        · exact h
    · refine ⟨k0, le_refl _, by omega, ?_, by omega, Or.inl rfl⟩
      rw [pow2_loop, if_neg hlt]

/-- The build keeps the table size it chose. -/
theorem ext_loop_tblSize (fuel : Nat) (sc : Bool) :
    ∀ (names : List (List Nat)) (t t' : bdgl_exts_tbl), ext_loop fuel sc names t = some t' →
      t'.tblSize = t.tblSize := by
  intro names
  induction names with
  | nil =>
    intro t t' h
    simp only [ext_loop, Option.some.injEq] at h
    rw [h]
  | cons n names ih =>
    intro t t' h
    rw [ext_loop] at h
    cases hs : ext_step fuel sc t n with
    | none => simp [hs] at h
    | some t1 =>
      simp only [hs] at h
      rw [ih t1 t' h]
      unfold ext_step at hs
      simp only [] at hs
      split at hs
      · exact absurd hs (by simp)
      · split at hs
        · exact absurd hs (by simp)
        · simp only [Option.some.injEq] at hs
          rw [← hs]

/-- The table size of a built set is the value of the sizing loop. -/
theorem bdgl_ext_init_tblSize (fuel : Nat) (sc : Bool) (names : List (List Nat))
    (t : bdgl_exts_tbl) (h : bdgl_ext_init fuel sc names = some t) :
    pow2_loop fuel 32 ((names.length + names.length / 2) % 2 ^ 32) = some t.tblSize := by
  unfold bdgl_ext_init at h
  simp only [] at h
  split at h
  · exact absurd h (by simp)
  · rename_i S hS
    split at h
    · exact absurd h (by simp)
    · rw [ext_loop_tblSize fuel sc names _ t h]
      exact hS

/-- C20: for a capability count `N` with `N + N / 2 ≤ 2 ^ 31` the sizing loop
of `bdgl_ext_init` returns (within 27 rounds) the smallest power of two that
is at least `max(32, N + N / 2)`: a power of two, at least 32, at least
`N + N / 2`, and either 32 or with half of it below `N + N / 2`; and this is
the `tblSize` of every set that `bdgl_ext_init` builds from `N` names. -/
theorem bdgl_ext_init_table_size (fuel : Nat) (sc : Bool) (names : List (List Nat))
    (hN : names.length + names.length / 2 ≤ 2 ^ 31) (hfuel : 27 ≤ fuel) :
    ∃ S k, pow2_loop fuel 32 ((names.length + names.length / 2) % 2 ^ 32) = some S ∧
      S = 2 ^ k ∧ 32 ≤ S ∧ names.length + names.length / 2 ≤ S ∧
      (S = 32 ∨ S / 2 < names.length + names.length / 2) ∧
      (∀ j, 32 ≤ 2 ^ j → names.length + names.length / 2 ≤ 2 ^ j → S ≤ 2 ^ j) ∧
      (∀ t, bdgl_ext_init fuel sc names = some t → t.tblSize = S) := by
  have hmod : (names.length + names.length / 2) % 2 ^ 32 = names.length + names.length / 2 :=
    Nat.mod_eq_of_lt (by omega)
  obtain ⟨k, hk5, hk31, hr, hge, hmin⟩ := pow2_loop_smallest 26 fuel 5
    (names.length + names.length / 2) (by omega) (by omega) (by norm_num; omega)
  have h32 : (2 : Nat) ^ 5 = 32 := by norm_num
  rw [h32] at hr
  have hmono : (2 : Nat) ^ 5 ≤ 2 ^ k := Nat.pow_le_pow_right (by norm_num) hk5
  have hhalf : k ≠ 5 → 2 ^ k / 2 = 2 ^ (k - 1) := by
    intro hk
    obtain ⟨j, rfl⟩ : ∃ j, k = j + 1 := ⟨k - 1, by omega⟩
    rw [pow_succ, Nat.add_sub_cancel, Nat.mul_div_cancel _ (by norm_num)]
  refine ⟨2 ^ k, k, by rw [hmod]; exact hr, rfl, by omega, hge, ?_, ?_, ?_⟩
  · rcases hmin with rfl | h
    · exact Or.inl (by norm_num)
    · by_cases hk : k = 5
      · subst hk; exact Or.inl (by norm_num)
      · exact Or.inr (by rw [hhalf hk]; exact h)
  · intro j h32' hge'
    rcases hmin with rfl | h
    · rw [h32]; exact h32'
    · have hlt : 2 ^ (k - 1) < 2 ^ j := lt_of_lt_of_le h hge'
      have hkj : k - 1 < j := (Nat.pow_lt_pow_iff_right (by norm_num)).mp hlt
      exact Nat.pow_le_pow_right (by norm_num) (by omega)
  · intro t ht
    have := bdgl_ext_init_tblSize fuel sc names t ht
    rw [hmod, hr] at this
    exact (Option.some.inj this).symm

/-- C20, at a list of 30 one-byte names: `N + N / 2 = 45`, and the table that
is built has 64 slots. -/
theorem bdgl_ext_init_table_size_witness :
    ∃ S k, pow2_loop 64 32 (((List.replicate 30 [65]).length
        + (List.replicate 30 [65]).length / 2) % 2 ^ 32) = some S ∧
      S = 2 ^ k ∧ 32 ≤ S ∧
      (List.replicate 30 [65]).length + (List.replicate 30 [65]).length / 2 ≤ S ∧
      (S = 32 ∨ S / 2 < (List.replicate 30 [65]).length + (List.replicate 30 [65]).length / 2) ∧
      (∀ j, 32 ≤ 2 ^ j →
        (List.replicate 30 [65]).length + (List.replicate 30 [65]).length / 2 ≤ 2 ^ j →
        S ≤ 2 ^ j) ∧
      (∀ t, bdgl_ext_init 64 true (List.replicate 30 [65]) = some t → t.tblSize = S) :=
  bdgl_ext_init_table_size 64 true (List.replicate 30 [65]) (by decide) (by decide)

/-! ## Capability set: the probe loops in general -/

/-- Overwriting an occupied slot does not add an occupied slot. -/
theorem occupied_set_le (T : List Nat) (i v : Nat) (hi : T.getD i 0 ≠ 0) :
    occupied (T.set i v) ≤ occupied T := by
  have h : i < T.length := by
    by_contra hc
    rw [List.getD_eq_getElem?_getD, List.getElem?_eq_none (by omega)] at hi
    exact hi rfl
  unfold occupied
  rw [List.countP_set _ _ _ _ h]
  rw [List.getD_eq_getElem?_getD, List.getElem?_eq_getElem h] at hi
  simp only [Option.getD_some] at hi
  have hpos : 0 < T.countP (fun e => e != 0) := by
    rw [List.countP_pos_iff]
    exact ⟨T[i], List.getElem_mem h, by simpa using hi⟩
  simp only [bne_iff_ne, ne_eq, hi, not_false_eq_true, if_true]
  split_ifs <;> omega

/-- Writing one slot adds at most one occupied slot. -/
theorem occupied_set_le_succ (T : List Nat) (i v : Nat) :
    occupied (T.set i v) ≤ occupied T + 1 := by
  by_cases h : i < T.length
  · unfold occupied
    rw [List.countP_set _ _ _ _ h]
    split_ifs <;> omega
  · rw [List.set_eq_of_length_le (by omega)]
    omega

/-- An insertion loop that returns keeps the number of slots and adds at most
one occupied slot. -/
theorem insert_loop_count (S : Nat) :
    ∀ (fuel : Nat) (T : List Nat) (e p idx : Nat) (T' : List Nat),
      insert_loop S fuel T e p idx = some T' →
      T'.length = T.length ∧ occupied T' ≤ occupied T + 1 := by
  intro fuel
  induction fuel with
  | zero =>
    intro T e p idx T' h
    simp [insert_loop] at h
  | succ f ih =>
    intro T e p idx T' h
    rw [insert_loop] at h
    simp only [] at h
    split_ifs at h with h0 h1
    · cases h
      exact ⟨List.length_set _ _ _, occupied_set_le_succ _ _ _⟩
    · obtain ⟨hl, hc⟩ := ih _ _ _ _ T' h
      rw [List.length_set] at hl
      have := occupied_set_le T (idx % S) (e ||| (p <<< 8) % 2 ^ 32) h0
      exact ⟨hl, by omega⟩
    · exact ih _ _ _ _ T' h

/-- The insertion loop, started `j` slots before the first empty slot,
returns within `j + 1` rounds, whatever the entries of the table. -/
theorem insert_loop_reaches_empty (S : Nat) :
    ∀ (j fuel : Nat) (T : List Nat) (e p idx : Nat), j < fuel → j < S → T.length = S →
      T.getD ((idx + j) % S) 0 = 0 →
      (∀ i, i < j → T.getD ((idx + i) % S) 0 ≠ 0) →
      ∃ T', insert_loop S fuel T e p idx = some T' := by
  intro j
  induction j with
  | zero =>
    intro fuel T e p idx hfuel _ _ hempty _
    obtain ⟨f, rfl⟩ : ∃ f, fuel = f + 1 := ⟨fuel - 1, by omega⟩
    simp only [Nat.add_zero] at hempty
    rw [insert_loop]
    simp only []
    rw [if_pos hempty]
    exact ⟨_, rfl⟩
  | succ j ih =>
    intro fuel T e p idx hfuel hjS hlen hempty hfull
    obtain ⟨f, rfl⟩ : ∃ f, fuel = f + 1 := ⟨fuel - 1, by omega⟩
    have hocc : T.getD (idx % S) 0 ≠ 0 := by
      have := hfull 0 (by omega)
      simpa using this
    have hnext0 : ∀ T' : List Nat, (∀ i, i ≠ idx % S → T'.getD i 0 = T.getD i 0) →
        T'.getD ((idx % S + 1 + j) % S) 0 = 0 := by
      intro T' hT'
      rw [probe_succ, hT' _ (probe_ne S idx (j + 1) (by omega) hjS)]
      exact hempty
    have hnextfull : ∀ T' : List Nat, (∀ i, i ≠ idx % S → T'.getD i 0 = T.getD i 0) →
        ∀ i, i < j → T'.getD ((idx % S + 1 + i) % S) 0 ≠ 0 := by
      intro T' hT' i hi
      rw [probe_succ, hT' _ (probe_ne S idx (i + 1) (by omega) (by omega))]
      exact hfull (i + 1) (by omega)
    rw [insert_loop]
    simp only []
    rw [if_neg hocc]
    split_ifs
    · exact ih f _ _ _ _ (by omega) (by omega) (by rw [List.length_set]; exact hlen)
        (hnext0 _ (fun i hi => getD_set_ne T _ _ _ (Ne.symm hi)))
        (hnextfull _ (fun i hi => getD_set_ne T _ _ _ (Ne.symm hi)))
    · exact ih f _ _ _ _ (by omega) (by omega) hlen (hnext0 T (fun _ _ => rfl))
        (hnextfull T (fun _ _ => rfl))

/-- In a table that is not full every insertion loop returns within as many
rounds as the table has slots. -/
theorem insert_loop_returns (S fuel : Nat) (T : List Nat) (e p idx : Nat) (hlen : T.length = S)
    (hcnt : occupied T < S) (hfuel : S ≤ fuel) :
    ∃ T', insert_loop S fuel T e p idx = some T' := by
  obtain ⟨j, hj, hempty, hfull⟩ := exists_first_empty S T idx (by omega) hlen hcnt
  exact insert_loop_reaches_empty S j fuel T e p idx (by omega) hj hlen hempty hfull

/-- The lookup loop, started at probe count `p` with the first empty slot `n`
slots ahead, returns at a probe count of at most `p + n`. -/
theorem have_loop_reaches_empty (S : Nat) (T pool q : List Nat) (lq hq j : Nat)
    (hempty : T.getD ((hq + j) % S) 0 = 0) :
    ∀ (n fuel p idx : Nat), p + n = j → idx % S = (hq + p) % S → n < fuel →
      ∃ r p', have_loop S T pool q lq fuel p idx = some (r, p') ∧ p' ≤ j := by
  intro n
  induction n with
  | zero =>
    intro fuel p idx hp hidx hfuel
    obtain ⟨f, rfl⟩ : ∃ f, fuel = f + 1 := ⟨fuel - 1, by omega⟩
    simp only [Nat.add_zero] at hp
    subst hp
    rw [have_loop]
    simp only []
    rw [hidx, if_pos hempty]
    exact ⟨0, p, rfl, le_refl _⟩
  | succ n ih =>
    intro fuel p idx hp hidx hfuel
    obtain ⟨f, rfl⟩ : ∃ f, fuel = f + 1 := ⟨fuel - 1, by omega⟩
    rw [have_loop]
    simp only []
    split_ifs
    · exact ⟨0, p, rfl, by omega⟩
    · exact ⟨0, p, rfl, by omega⟩
    · exact ⟨1, p, rfl, by omega⟩
    · apply ih f (p + 1) (idx % S + 1) (by omega) _ (by omega)
      exact home_succ S (idx % S) (hq + p) (by rw [Nat.mod_mod, hidx])

/-- In a table that is not full the lookup returns after fewer probes than the
table has slots. -/
theorem have_loop_bound (S fuel : Nat) (T pool q : List Nat) (lq hq : Nat) (hlen : T.length = S)
    (hcnt : occupied T < S) (hfuel : S ≤ fuel) :
    ∃ r p, have_loop S T pool q lq fuel 0 hq = some (r, p) ∧ p < S := by
  have hS : 0 < S := by omega
  obtain ⟨j, hj, hempty, -⟩ := exists_first_empty S T hq hS hlen hcnt
  obtain ⟨r, p, h, hp⟩ := have_loop_reaches_empty S T pool q lq hq j hempty j fuel 0 hq
    (by omega) rfl (by omega)
  exact ⟨r, p, h, by omega⟩

/-! ## Capability set: the build in general -/

/-- The pool loop ends with room for the name and keeps the bytes already
appended, for every pool of less than `2 ^ 31` bytes. -/
theorem pool_loop_grows (len poolSize : Nat) (hfit : poolSize + len ≤ 2 ^ 31) :
    ∀ (n fuel : Nat) (pool : List Nat) (cap : Nat), n < fuel → 2 ^ 31 ≤ cap * 2 ^ n →
      poolSize ≤ cap → cap < 2 ^ 32 → pool.length = cap →
      ∃ pool' cap', pool_loop fuel len poolSize pool cap = some (pool', cap') ∧
        pool'.length = cap' ∧ poolSize + len ≤ cap' ∧ cap ≤ cap' ∧ cap' < 2 ^ 32 ∧
        pool'.take poolSize = pool.take poolSize := by
  intro n
  induction n with
  | zero =>
    intro fuel pool cap hfuel hbig hps hcap hlen
    obtain ⟨f, rfl⟩ : ∃ f, fuel = f + 1 := ⟨fuel - 1, by omega⟩
    simp only [pow_zero, Nat.mul_one] at hbig
    rw [pool_loop, if_neg (by omega)]
    exact ⟨pool, cap, rfl, hlen, by omega, le_refl _, hcap, rfl⟩
  | succ n ih =>
    intro fuel pool cap hfuel hbig hps hcap hlen
    obtain ⟨f, rfl⟩ : ∃ f, fuel = f + 1 := ⟨fuel - 1, by omega⟩
    have hpow : cap * 2 ^ (n + 1) = cap * 2 * 2 ^ n := by ring
    rw [pool_loop]
    by_cases hgrow : len % 2 ^ 32 > (cap + 2 ^ 32 - poolSize) % 2 ^ 32
    · rw [if_pos hgrow]
      simp only []
      have hsmall : cap < poolSize + len := by omega
      rw [Nat.mod_eq_of_lt (by omega : cap * 2 < 2 ^ 32)]
      obtain ⟨pool', cap', h1, h2, h3, h4, h5, h6⟩ := ih f (realloc pool (cap * 2)) (cap * 2)
        (by omega) (by omega) (by omega) (by omega) (realloc_length _ _)
      refine ⟨pool', cap', h1, h2, h3, by omega, h5, ?_⟩
      rw [h6, realloc_take pool (cap * 2) poolSize (by omega) (by omega)]
    · rw [if_neg hgrow]
      exact ⟨pool, cap, rfl, hlen, by omega, le_refl _, hcap, rfl⟩

/-- A prefix of the names is no longer than all of them. -/
theorem flatten_take_length_mono (names : List (List Nat)) (m : Nat) :
    ((names.take m).flatten).length ≤ names.flatten.length := by
  conv_rhs => rw [← List.take_append_drop m names]
  rw [List.flatten_append, List.length_append]
  omega

/-- One round of the build keeps the general invariant. -/
theorem build_step_ok (sc : Bool) (names : List (List Nat)) (S m fuel : Nat) (t : bdgl_exts_tbl)
    (hn : ∀ n ∈ names, IsCStr n) (htotal : names.flatten.length ≤ 2 ^ 31)
    (hm : m < names.length) (hNS : names.length < S) (hfuel : S ≤ fuel)
    (hfuel24 : 24 ≤ fuel) (inv : BuildInv names S m t) :
    ∃ t', ext_step fuel sc t (names.getD m []) = some t' ∧ BuildInv names S (m + 1) t' := by
  have hmem := getD_mem names m hm
  have hslen := bdgl_strhash_len sc _ (hn _ hmem)
  have hnext : ((names.take (m + 1)).flatten).length
      = t.poolSize + (names.getD m []).length := by
    rw [take_succ_flatten names m hm, List.length_append, inv.psize]
  have hle := flatten_take_length_mono names (m + 1)
  have hcl := inv.cap_lo
  have hch := inv.cap_hi
  have hpf := inv.pfit
  have hcnt := inv.cnt
  obtain ⟨pool', cap', hpl, hplen, hroom, hcapmono, hcaphi, hptake⟩ :=
    pool_loop_grows (names.getD m []).length t.poolSize (by omega) 23 fuel t.pool t.poolCapacity
      (by omega) (by omega) hpf hch inv.plen
  obtain ⟨T', hins⟩ := insert_loop_returns S fuel t.tbl
    (((t.poolSize % 2 ^ 16) <<< 16) ||| ((names.getD m []).length % 2 ^ 32)) 0
    (bdgl_strhash sc (names.getD m [])).1 inv.tlen (by omega) hfuel
  obtain ⟨hT'len, hT'cnt⟩ := insert_loop_count S fuel _ _ _ _ T' hins
  have hsz : (t.poolSize + (names.getD m []).length) % 2 ^ 32
      = t.poolSize + (names.getD m []).length := Nat.mod_eq_of_lt (by omega)
  have hoffle : t.poolSize % 2 ^ 16 ≤ t.poolSize := Nat.mod_le _ _
  refine ⟨{ t with
    tbl := T'
    pool := memcpy pool' (t.poolSize % 2 ^ 16) (names.getD m [])
    poolSize := t.poolSize + (names.getD m []).length
    poolCapacity := cap' }, ?_, ?_⟩
  · unfold ext_step
    simp only [hslen, hpl, hsz, List.take_length, inv.size, hins]
  · refine ⟨inv.size, ?_, ?_, ?_, ?_, ?_, by simp only; omega, hcaphi, ?_⟩
    · simp only; rw [hT'len]; exact inv.tlen
    · simp only; omega
    · simp only; exact hnext.symm
    · simp only
      rw [memcpy_length _ _ _ (by omega)]
      exact hplen
    · simp only; exact hroom
    · simp only
      intro h64
      rw [take_succ_flatten names m hm, ← inv.pool (by omega)]
      by_cases hlt : t.poolSize < 65536
      · rw [Nat.mod_eq_of_lt (by omega : t.poolSize < 2 ^ 16),
          memcpy_take _ _ _ (by omega), hptake]
      · have hz : (names.getD m []).length = 0 := by omega
        have hnil : names.getD m [] = [] := List.length_eq_zero.mp hz
        have hps : t.poolSize = 65536 := by omega
        rw [hnil, hps]
        have hp' := hptake
        rw [hps] at hp'
        simp only [memcpy, List.length_nil, Nat.add_zero, List.append_nil, Nat.reducePow,
          Nat.mod_self, List.take_zero, List.nil_append, List.drop_zero]
        exact hp'

/-- The rounds for the names from the `m`-th on keep the general invariant. -/
theorem build_loop_ok (sc : Bool) (names : List (List Nat)) (S fuel : Nat)
    (hn : ∀ n ∈ names, IsCStr n) (htotal : names.flatten.length ≤ 2 ^ 31)
    (hNS : names.length < S) (hfuel : S ≤ fuel) (hfuel24 : 24 ≤ fuel) :
    ∀ (todo : List (List Nat)) (m : Nat) (t : bdgl_exts_tbl), names.drop m = todo →
      m ≤ names.length → BuildInv names S m t →
      ∃ t', ext_loop fuel sc todo t = some t' ∧ BuildInv names S names.length t' := by
  intro todo
  induction todo with
  | nil =>
    intro m t hdrop hle inv
    have hm : names.length ≤ m := List.drop_eq_nil_iff.mp hdrop
    have hmm : m = names.length := by omega
    subst hmm
    exact ⟨t, rfl, inv⟩
  | cons n todo ih =>
    intro m t hdrop _ inv
    have hm : m < names.length := by
      by_contra hc
      rw [List.drop_of_length_le (by omega)] at hdrop
      exact List.noConfusion hdrop
    have hnm : names.getD m [] = n := by
      rw [List.getD_eq_getElem?_getD, ← List.head?_drop, hdrop]
      rfl
    have hrest : names.drop (m + 1) = todo := by
      rw [← List.drop_drop 1 m, hdrop]
      rfl
    obtain ⟨t1, h1, inv1⟩ := build_step_ok sc names S m fuel t hn htotal hm hNS hfuel hfuel24 inv
    obtain ⟨t2, h2, inv2⟩ := ih (m + 1) t1 hrest (by omega) inv1
    rw [hnm] at h1
    exact ⟨t2, by rw [ext_loop, h1]; exact h2, inv2⟩

/-- The zeroed table has no occupied slot. -/
theorem occupied_replicate_zero (S : Nat) : occupied (List.replicate S 0) = 0 := by
  unfold occupied
  rw [List.countP_eq_zero]
  intro e he
  rw [List.eq_of_mem_replicate he]
  simp

/-- The table size computed for `N` names: a power of two from 32 on that
exceeds `N` and is at most `3 * N + 32`. -/
theorem table_size_ok (N fuel : Nat) (hN : N + N / 2 ≤ 2 ^ 31) (hfuel : 27 ≤ fuel) :
    ∃ S, pow2_loop fuel 32 ((N + N / 2) % 2 ^ 32) = some S ∧ N < S ∧ S ≤ 3 * N + 32 := by
  rw [Nat.mod_eq_of_lt (by omega : N + N / 2 < 2 ^ 32)]
  obtain ⟨k, hk5, -, hk, hmin, hsmall⟩ := pow2_loop_smallest 26 fuel 5 (N + N / 2) (by omega)
    (by omega) (by norm_num; omega)
  have h5 : (2 : Nat) ^ 5 ≤ 2 ^ k := Nat.pow_le_pow_right (by norm_num) hk5
  refine ⟨2 ^ k, hk, by omega, ?_⟩
  rcases hsmall with rfl | hlt
  · norm_num
  · have hk1 : k = (k - 1) + 1 := by omega
    rw [hk1, pow_succ]
    omega

/-- The build returns for every list of NUL-free names whose pool sizes fit
32-bit arithmetic, and ends in a state that satisfies the general invariant. -/
theorem bdgl_ext_init_general (sc : Bool) (names : List (List Nat)) (fuel : Nat)
    (hn : ∀ n ∈ names, IsCStr n) (hN : names.length * 25 ≤ 2 ^ 31)
    (htotal : names.flatten.length ≤ 2 ^ 31) (hfuel : 3 * names.length + 64 ≤ fuel) :
    ∃ t, bdgl_ext_init fuel sc names = some t ∧ names.length < t.tblSize ∧
      BuildInv names t.tblSize names.length t := by
  obtain ⟨S, hS, hNS, hSle⟩ := table_size_ok names.length fuel (by omega) (by omega)
  have hminp : (names.length * 25) % 2 ^ 32 = names.length * 25 := Nat.mod_eq_of_lt (by omega)
  obtain ⟨k, hk8, hk31, hk, -, -⟩ := pow2_loop_smallest 23 fuel 8 (names.length * 25)
    (by omega) (by omega) (by norm_num; omega)
  have h8 : (2 : Nat) ^ 8 ≤ 2 ^ k := Nat.pow_le_pow_right (by norm_num) hk8
  have h31 : (2 : Nat) ^ k ≤ 2 ^ 31 := Nat.pow_le_pow_right (by norm_num) hk31
  have inv0 : BuildInv names S 0 (ext_initial S (2 ^ k) names.length) := by
    refine ⟨rfl, by simp [ext_initial], ?_, by simp [ext_initial], by simp [ext_initial],
      by simp [ext_initial], ?_, ?_, ?_⟩
    · simp only [ext_initial, occupied_replicate_zero, le_refl]
    · simp only [ext_initial]; omega
    · simp only [ext_initial]; omega
    · intro _
      simp [ext_initial]
  obtain ⟨t, ht, inv⟩ := build_loop_ok sc names S fuel hn htotal hNS (by omega) (by omega)
    names 0 _ rfl (Nat.zero_le _) inv0
  have hsize := inv.size
  refine ⟨t, ?_, by omega, by rw [hsize]; exact inv⟩
  unfold bdgl_ext_init
  simp only [hS, hminp]
  have hk' : pow2_loop fuel 256 (names.length * 25) = some (2 ^ k) := hk
  rw [hk']
  exact ht

/-- A size returned by the doubling loop reaches the bound and stays a
multiple of 32 when the start is one; it is the start when the bound is 0. -/
theorem pow2_loop_sound : ∀ (fuel size minSize S : Nat), pow2_loop fuel size minSize = some S →
    minSize ≤ S ∧ (32 ∣ size → 32 ∣ S) ∧ (minSize = 0 → S = size) := by
  intro fuel
  induction fuel with
  | zero =>
    intro size minSize S h
    simp [pow2_loop] at h
  | succ f ih =>
    intro size minSize S h
    rw [pow2_loop] at h
    split_ifs at h with hlt
    · obtain ⟨h1, h2, h3⟩ := ih _ _ _ h
      exact ⟨h1, fun hd => h2 (by omega), fun h0 => by omega⟩
    · cases h
      exact ⟨by omega, fun hd => hd, fun _ => rfl⟩

/-- A round of the build that returns keeps the table size and adds at most
one occupied slot. -/
theorem ext_step_count (fuel : Nat) (sc : Bool) (t t' : bdgl_exts_tbl) (n : List Nat)
    (h : ext_step fuel sc t n = some t') :
    t'.tblSize = t.tblSize ∧ t'.tbl.length = t.tbl.length ∧
      occupied t'.tbl ≤ occupied t.tbl + 1 := by
  unfold ext_step at h
  simp only [] at h
  split at h
  · exact absurd h (by simp)
  · split at h
    · exact absurd h (by simp)
    · rename_i T' hT'
      simp only [Option.some.injEq] at h
      obtain ⟨hl, hc⟩ := insert_loop_count _ _ _ _ _ _ T' hT'
      rw [← h]
      exact ⟨rfl, hl, hc⟩

/-- The rounds of the build that return keep the table size and add at most
one occupied slot for each name. -/
theorem ext_loop_count (fuel : Nat) (sc : Bool) :
    ∀ (names : List (List Nat)) (t t' : bdgl_exts_tbl), ext_loop fuel sc names t = some t' →
      t'.tblSize = t.tblSize ∧ t'.tbl.length = t.tbl.length ∧
        occupied t'.tbl ≤ occupied t.tbl + names.length := by
  intro names
  induction names with
  | nil =>
    intro t t' h
    simp only [ext_loop, Option.some.injEq] at h
    rw [h]
    exact ⟨rfl, rfl, by simp⟩
  | cons n names ih =>
    intro t t' h
    rw [ext_loop] at h
    cases hs : ext_step fuel sc t n with
    | none => simp [hs] at h
    | some t1 =>
      simp only [hs] at h
      obtain ⟨a1, a2, a3⟩ := ext_step_count fuel sc t t1 n hs
      obtain ⟨b1, b2, b3⟩ := ih t1 t' h
      refine ⟨by rw [b1, a1], by rw [b2, a2], ?_⟩
      rw [List.length_cons]
      omega

/-- The build is the loop over the names started from the zeroed table and the
empty pool of the two computed sizes. -/
theorem bdgl_ext_init_eq (fuel : Nat) (sc : Bool) (names : List (List Nat)) (t : bdgl_exts_tbl)
    (h : bdgl_ext_init fuel sc names = some t) :
    ∃ S cap, pow2_loop fuel 32 ((names.length + names.length / 2) % 2 ^ 32) = some S ∧
      ext_loop fuel sc names (ext_initial S cap names.length) = some t := by
  unfold bdgl_ext_init at h
  simp only [] at h
  split at h
  · exact absurd h (by simp)
  · rename_i S hS
    split at h
    · exact absurd h (by simp)
    · rename_i cap _
      exact ⟨S, cap, hS, h⟩

/-- A table size returned for `N` names, `N + N / 2` representable, exceeds
`N`. -/
theorem table_size_gt (N fuel S : Nat) (hN : N + N / 2 < 2 ^ 32)
    (h : pow2_loop fuel 32 ((N + N / 2) % 2 ^ 32) = some S) : N < S := by
  rw [Nat.mod_eq_of_lt hN] at h
  obtain ⟨h1, h2, h3⟩ := pow2_loop_sound _ _ _ _ h
  have hd := h2 (dvd_refl 32)
  by_cases h0 : N + N / 2 = 0
  · have := h3 h0
    omega
  · omega

/-- C17: the probe loops terminate because the table never fills.  For every
list of `N` names with `N + N / 2` representable in 32 bits: the sizing
returns when `N + N / 2 <= 2 ^ 31`; every table size `S` it returns exceeds
`N`; in every state the build reaches after a prefix of the names the table
still has `S` slots, at most as many of them occupied as names were inserted,
so that every insertion loop started there returns within `S` rounds, no
resizing being modelled; for the finished table every lookup returns at a
probe count below `S`, that is after at most `S` probes; and the build itself
returns when the names are NUL-free and the pool sizes stay within `2 ^ 31`. -/
theorem bdgl_probe_loops_terminate (sc : Bool) (names : List (List Nat)) (fuel : Nat)
    (hN : names.length + names.length / 2 < 2 ^ 32) :
    (names.length + names.length / 2 ≤ 2 ^ 31 → 27 ≤ fuel →
      ∃ S, pow2_loop fuel 32 ((names.length + names.length / 2) % 2 ^ 32) = some S) ∧
    (∀ S, pow2_loop fuel 32 ((names.length + names.length / 2) % 2 ^ 32) = some S →
      names.length < S ∧
      (∀ (poolCap : Nat) (done rest : List (List Nat)) (t : bdgl_exts_tbl),
        names = done ++ rest →
        ext_loop fuel sc done (ext_initial S poolCap names.length) = some t →
        t.tblSize = S ∧ t.tbl.length = S ∧ occupied t.tbl ≤ done.length ∧
        done.length < S ∧
        ∀ (fuel' newEntry probeCount idx : Nat), S ≤ fuel' →
          ∃ T', insert_loop S fuel' t.tbl newEntry probeCount idx = some T') ∧
      (∀ t, bdgl_ext_init fuel sc names = some t →
        t.tblSize = S ∧ occupied t.tbl ≤ names.length ∧
        ∀ (q : List Nat) (fuel' : Nat), S ≤ fuel' →
          ∃ r p, bdgl_have_ext_probe fuel' sc t q = some (r, p) ∧ p < S ∧
            bdgl_have_ext fuel' sc t q = some r)) ∧
    ((∀ n ∈ names, IsCStr n) → names.length * 25 ≤ 2 ^ 31 → names.flatten.length ≤ 2 ^ 31 →
      3 * names.length + 64 ≤ fuel → ∃ t, bdgl_ext_init fuel sc names = some t) := by
  refine ⟨?_, ?_, ?_⟩
  · intro h31 hfuel
    obtain ⟨S, hS, -, -⟩ := table_size_ok names.length fuel h31 hfuel
    exact ⟨S, hS⟩
  · intro S hS
    have hNS := table_size_gt names.length fuel S hN hS
    refine ⟨hNS, ?_, ?_⟩
    · intro poolCap done rest t hsplit ht
      obtain ⟨h1, h2, h3⟩ := ext_loop_count fuel sc done _ t ht
      have hlen : done.length ≤ names.length := by
        rw [hsplit, List.length_append]
        omega
      have hT : t.tbl.length = S := by
        rw [h2]
        simp [ext_initial]
      have hocc : occupied t.tbl ≤ done.length := by
        have : occupied (ext_initial S poolCap names.length).tbl = 0 :=
          occupied_replicate_zero S
        omega
      refine ⟨by rw [h1]; rfl, hT, hocc, by omega, ?_⟩
      intro fuel' e p idx hfuel'
      exact insert_loop_returns S fuel' t.tbl e p idx hT (by omega) hfuel'
    · intro t ht
      obtain ⟨S', cap, hS', hloop⟩ := bdgl_ext_init_eq fuel sc names t ht
      have hSS : S' = S := by
        rw [hS] at hS'
        exact (Option.some.inj hS').symm
      subst hSS
      obtain ⟨h1, h2, h3⟩ := ext_loop_count fuel sc names _ t hloop
      have h1' : t.tblSize = S' := by rw [h1]; rfl
      have hT : t.tbl.length = S' := by
        rw [h2]
        simp [ext_initial]
      have hocc : occupied t.tbl ≤ names.length := by
        have : occupied (ext_initial S' cap names.length).tbl = 0 :=
          occupied_replicate_zero S'
        omega
      refine ⟨h1', hocc, ?_⟩
      intro q fuel' hfuel'
      obtain ⟨r, p, hr, hp⟩ := have_loop_bound S' fuel' t.tbl t.pool q (bdgl_strhash sc q).2
        (bdgl_strhash sc q).1 hT (by omega) hfuel'
      have hprobe : bdgl_have_ext_probe fuel' sc t q = some (r, p) := by
        unfold bdgl_have_ext_probe
        simp only [h1']
        exact hr
      exact ⟨r, p, hprobe, hp, by rw [bdgl_have_ext, hprobe]; rfl⟩
  · intro hn h25 htotal hfuel
    obtain ⟨t, ht, -, -⟩ := bdgl_ext_init_general sc names fuel hn h25 htotal hfuel
    exact ⟨t, ht⟩

/-- C17, at three names and fuel 100: the table has more than three slots and
every probe loop on it returns. -/
theorem bdgl_probe_loops_terminate_witness :
    sample_names.length + sample_names.length / 2 < 2 ^ 32 ∧
    ((sample_names.length + sample_names.length / 2 ≤ 2 ^ 31 → 27 ≤ 100 →
      ∃ S, pow2_loop 100 32 ((sample_names.length + sample_names.length / 2) % 2 ^ 32) = some S) ∧
    (∀ S, pow2_loop 100 32 ((sample_names.length + sample_names.length / 2) % 2 ^ 32) = some S →
      sample_names.length < S ∧
      (∀ (poolCap : Nat) (done rest : List (List Nat)) (t : bdgl_exts_tbl),
        sample_names = done ++ rest →
        ext_loop 100 true done (ext_initial S poolCap sample_names.length) = some t →
        t.tblSize = S ∧ t.tbl.length = S ∧ occupied t.tbl ≤ done.length ∧
        done.length < S ∧
        ∀ (fuel' newEntry probeCount idx : Nat), S ≤ fuel' →
          ∃ T', insert_loop S fuel' t.tbl newEntry probeCount idx = some T') ∧
      (∀ t, bdgl_ext_init 100 true sample_names = some t →
        t.tblSize = S ∧ occupied t.tbl ≤ sample_names.length ∧
        ∀ (q : List Nat) (fuel' : Nat), S ≤ fuel' →
          ∃ r p, bdgl_have_ext_probe fuel' true t q = some (r, p) ∧ p < S ∧
            bdgl_have_ext fuel' true t q = some r)) ∧
    ((∀ n ∈ sample_names, IsCStr n) → sample_names.length * 25 ≤ 2 ^ 31 →
      sample_names.flatten.length ≤ 2 ^ 31 →
      3 * sample_names.length + 64 ≤ 100 → ∃ t, bdgl_ext_init 100 true sample_names = some t)) :=
  ⟨by decide, bdgl_probe_loops_terminate true sample_names 100 (by decide)⟩

/-! ## Capability set: the pool -/

/-- What a round of the build that returns did to the pool: the pool loop
returned, the name was copied at the 16-bit offset, and the pool size grew by
the length of the name. -/
theorem ext_step_pool (fuel : Nat) (sc : Bool) (t t' : bdgl_exts_tbl) (n : List Nat)
    (hn : IsCStr n) (h : ext_step fuel sc t n = some t') :
    ∃ pool' cap', pool_loop fuel n.length t.poolSize t.pool t.poolCapacity = some (pool', cap') ∧
      t'.pool = memcpy pool' (t.poolSize % 2 ^ 16) n ∧
      t'.poolSize = (t.poolSize + n.length) % 2 ^ 32 ∧ t'.poolCapacity = cap' := by
  have hslen := bdgl_strhash_len sc n hn
  unfold ext_step at h
  simp only [hslen, List.take_length] at h
  split at h
  · exact absurd h (by simp)
  · rename_i pool' cap' hp
    split at h
    · exact absurd h (by simp)
    · simp only [Option.some.injEq] at h
      rw [← h]
      exact ⟨pool', cap', hp, rfl, rfl, rfl⟩

/-- C14 fails past 64 KiB: after a first name of 65536 bytes `a` the pool size
is 65536, which the 16-bit variable `offset` holds as 0, so the second name
`b` is copied over the first byte of the first name.  The build returns with
`poolSize = 65537 <= poolCapacity`, but the bytes `pool[0 .. 65536)` are no
longer the first name. -/
theorem pool_overwritten_past_64k :
    ∃ t, bdgl_ext_init 70 true [List.replicate 65536 97, [98]] = some t ∧
      t.poolSize = 65537 ∧ t.poolSize ≤ t.poolCapacity ∧ t.pool.getD 0 0 = 98 ∧
      (t.pool.drop 0).take (List.replicate 65536 97).length ≠ List.replicate 65536 97 := by
  have hA : IsCStr (List.replicate 65536 97) := by
    intro c hc
    rw [List.eq_of_mem_replicate hc]
    decide
  have hB : IsCStr [98] := by decide
  have hn : ∀ n ∈ [List.replicate 65536 97, [98]], IsCStr n := by
    intro n hmem
    simp only [List.mem_cons, List.mem_singleton, List.not_mem_nil, or_false] at hmem
    rcases hmem with rfl | rfl
    · exact hA
    · exact hB
  have htotal : ([List.replicate 65536 97, [98]] : List (List Nat)).flatten.length ≤ 2 ^ 31 := by
    simp only [List.flatten_cons, List.flatten_nil, List.length_append, List.length_replicate,
      List.length_cons, List.length_nil]
    norm_num
  obtain ⟨t, ht, -, inv⟩ := bdgl_ext_init_general true [List.replicate 65536 97, [98]] 70 hn
    (by decide) htotal (by decide)
  obtain ⟨S, cap, -, hloop⟩ := bdgl_ext_init_eq 70 true _ t ht
  rw [ext_loop] at hloop
  cases h1 : ext_step 70 true
      (ext_initial S cap ([List.replicate 65536 97, [98]] : List (List Nat)).length)
      (List.replicate 65536 97) with
  | none =>
    rw [h1] at hloop
    exact Option.noConfusion hloop
  | some t1 =>
    simp only [h1] at hloop
    rw [ext_loop] at hloop
    cases h2 : ext_step 70 true t1 [98] with
    | none =>
      rw [h2] at hloop
      exact Option.noConfusion hloop
    | some t2 =>
      simp only [h2, ext_loop, Option.some.injEq] at hloop
      subst hloop
      obtain ⟨-, -, -, -, hs1, -⟩ := ext_step_pool 70 true _ t1 _ hA h1
      obtain ⟨pool', cap', -, hpool, hs2, -⟩ := ext_step_pool 70 true t1 t2 _ hB h2
      have hsize1 : t1.poolSize = 65536 := by
        rw [hs1, List.length_replicate]
        simp only [ext_initial]
        norm_num
      rw [hsize1] at hpool hs2
      have hpool' : t2.pool = 98 :: pool'.drop 1 := by
        rw [hpool]
        rfl
      have hget : t2.pool.getD 0 0 = 98 := by
        rw [hpool']
        rfl
      refine ⟨t2, ht, by rw [hs2]; rfl, inv.pfit, hget, ?_⟩
      intro heq
      rw [List.length_replicate, hpool', List.drop_zero] at heq
      have hmem : (98 : Nat) ∈ List.replicate 65536 97 := by
        rw [← heq]
        exact List.mem_cons_self _ _
      exact absurd (List.eq_of_mem_replicate hmem) (by decide)

/-- C14, within 64 KiB: for every list of NUL-free names of total length at
most 65536 bytes (and at most `2 ^ 31 / 25` names) the build returns; after
it `poolSize` is the sum of the name lengths and is at most `poolCapacity`,
and for every `i` the bytes `pool[off_i .. off_i + len(n_i))` are the name
`n_i`, `off_i` being the sum of the lengths of the names before it; within the
limits of the slot format every name then is reported present.  And every run
of the growing loop from a pool of `cap >= 256` bytes returns a pool that is
at least as large, has room for the name, and keeps the `poolSize` bytes that
were appended before. -/
theorem bdgl_ext_init_pool (sc : Bool) (names : List (List Nat)) (fuel : Nat)
    (hn : ∀ n ∈ names, IsCStr n) (hN : names.length * 25 ≤ 2 ^ 31)
    (htotal : names.flatten.length ≤ 65536) (hfuel : 3 * names.length + 64 ≤ fuel) :
    (∃ t, bdgl_ext_init fuel sc names = some t ∧
      t.poolSize = (names.map List.length).sum ∧ t.poolSize ≤ t.poolCapacity ∧
      t.pool.length = t.poolCapacity ∧
      (∀ i, i < names.length →
        (t.pool.drop ((names.take i).map List.length).sum).take (names.getD i []).length
          = names.getD i []) ∧
      (names.length ≤ 256 → (∀ n ∈ names, n ≠ [] ∧ n.length ≤ 255) → 512 ≤ fuel →
        ∀ n ∈ names, bdgl_have_ext fuel sc t n = some 1)) ∧
    (∀ (len poolSize cap : Nat) (pool : List Nat), poolSize + len ≤ 2 ^ 31 → poolSize ≤ cap →
      256 ≤ cap → cap < 2 ^ 32 → pool.length = cap →
      ∃ pool' cap', pool_loop fuel len poolSize pool cap = some (pool', cap') ∧
        pool'.length = cap' ∧ cap ≤ cap' ∧ poolSize + len ≤ cap' ∧
        pool'.take poolSize = pool.take poolSize) := by
  constructor
  · obtain ⟨t, ht, hNS, inv⟩ := bdgl_ext_init_general sc names fuel hn hN (by omega) hfuel
    have hps : t.poolSize = names.flatten.length := by
      rw [inv.psize, List.take_length]
    have hpool : t.pool.take t.poolSize = names.flatten := by
      rw [inv.pool (by omega), List.take_length]
    refine ⟨t, ht, ?_, inv.pfit, inv.plen, ?_, ?_⟩
    · rw [hps, List.length_flatten]
    · intro i hi
      rw [← List.length_flatten]
      have hle := flatten_take_length_mono names (i + 1)
      rw [take_succ_flatten names i hi, List.length_append] at hle
      rw [drop_take_of_take t.pool names.flatten t.poolSize _ _ hpool (by omega)]
      conv_lhs => rw [flatten_split names i hi]
      rw [List.drop_left, List.take_left]
    · intro h256 hlim hfuel' n hmem
      have hn' : ∀ n ∈ names, n ≠ [] ∧ IsCStr n ∧ n.length ≤ 255 :=
        fun n h => ⟨(hlim n h).1, hn n h, (hlim n h).2⟩
      obtain ⟨t', ht', hS32, -, inv'⟩ := bdgl_ext_init_ok sc names fuel h256 hn' hfuel'
      have htt : t' = t := by
        rw [ht] at ht'
        exact (Option.some.inj ht').symm
      subst htt
      obtain ⟨j, hj, rfl⟩ := List.getElem_of_mem hmem
      have := have_ext_present sc names t'.tblSize fuel t' j h256 hn' (by omega) (by omega)
        inv' hj
      rw [List.getD_eq_getElem?_getD, List.getElem?_eq_getElem hj] at this
      exact this
  · intro len poolSize cap pool hfit hps hlo hhi hlen
    obtain ⟨pool', cap', h1, h2, h3, h4, -, h6⟩ := pool_loop_grows len poolSize hfit 23 fuel
      pool cap (by omega) (by omega) hps hhi hlen
    exact ⟨pool', cap', h1, h2, h4, h3, h6⟩

/-- C14, at two names of 200 bytes each: the initial pool of 256 bytes is
grown, and both names are read back from the pool. -/
theorem bdgl_ext_init_pool_witness :
    (∃ t, bdgl_ext_init 600 true grow_names = some t ∧
      t.poolSize = (grow_names.map List.length).sum ∧ t.poolSize ≤ t.poolCapacity ∧
      t.pool.length = t.poolCapacity ∧
      (∀ i, i < grow_names.length →
        (t.pool.drop ((grow_names.take i).map List.length).sum).take (grow_names.getD i []).length
          = grow_names.getD i []) ∧
      (grow_names.length ≤ 256 → (∀ n ∈ grow_names, n ≠ [] ∧ n.length ≤ 255) → 512 ≤ 600 →
        ∀ n ∈ grow_names, bdgl_have_ext 600 true t n = some 1)) ∧
    (∀ (len poolSize cap : Nat) (pool : List Nat), poolSize + len ≤ 2 ^ 31 → poolSize ≤ cap →
      256 ≤ cap → cap < 2 ^ 32 → pool.length = cap →
      ∃ pool' cap', pool_loop 600 len poolSize pool cap = some (pool', cap') ∧
        pool'.length = cap' ∧ cap ≤ cap' ∧ poolSize + len ≤ cap' ∧
        pool'.take poolSize = pool.take poolSize) :=
  bdgl_ext_init_pool true grow_names 600 (by decide!) (by decide) (by decide!) (by decide)

/-! ## Capability set: the robin-hood bound -/

/-- Every entry that the insertion loop stores, started as in
`insert_loop_inv`, is the entry of one of the keys at a displacement of at
most `B`, stored at the slot that many slots after the home of the key. -/
theorem insert_loop_writes_inv (S : Nat) (H : Nat → Nat) (B : Nat) (K : Nat → Prop) (k0 : Nat)
    (hS : 1 < S) (hB : B < 256) :
    ∀ (j fuel : Nat) (T : List Nat) (k p idx : Nat), j < fuel → j < S →
      T.getD ((idx + j) % S) 0 = 0 →
      (∀ i, i < j → T.getD ((idx + i) % S) 0 ≠ 0) →
      LoopInv S H B K k0 T k p idx j →
      ∀ w ∈ insert_loop_writes S fuel T k p idx,
        ∃ k' d, (k' = k0 ∨ K k') ∧ d ≤ B ∧ w.2 = k' + d * 256 ∧ (H k' + d) % S = w.1 := by
  intro j
  induction j with
  | zero =>
    intro fuel T k p idx hfuel _ hempty _ inv w hw
    obtain ⟨f, rfl⟩ : ∃ f, fuel = f + 1 := ⟨fuel - 1, by omega⟩
    have hpB : p ≤ B := inv.pB
    simp only [Nat.add_zero] at hempty
    rw [insert_loop_writes] at hw
    simp only [] at hw
    rw [if_pos hempty, key_write k p inv.key (by omega), List.mem_singleton] at hw
    subst hw
    exact ⟨k, p, inv.kmem, hpB, rfl, inv.home⟩
  | succ j ih =>
    intro fuel T k p idx hfuel hjS hempty hfull inv w hw
    obtain ⟨f, rfl⟩ : ∃ f, fuel = f + 1 := ⟨fuel - 1, by omega⟩
    have hS0 : 0 < S := by omega
    have hpB : p ≤ B := inv.pB
    have hi0 : idx % S < S := Nat.mod_lt _ hS0
    have hi0T : idx % S < T.length := by rw [inv.len]; exact hi0
    have hocc : T.getD (idx % S) 0 ≠ 0 := by
      have := hfull 0 (by omega)
      simpa using this
    obtain ⟨k', d', hk', hd', he, hh⟩ := inv.slot (idx % S) hi0 hocc
    have hkey' : is_key k' := inv.keys k' hk'
    have hdisp : entry_disp (T.getD (idx % S) 0) = d' := by
      rw [he]; exact key_disp k' d' hkey' (by omega)
    have hd'B : d' < B := by
      have := inv.ahead 0 (by omega)
      rw [Nat.add_zero, hdisp] at this
      exact this
    have hmask : T.getD (idx % S) 0 &&& 0xffff00ff = k' := by
      rw [he]; exact key_mask k' d' hkey' (by omega)
    have hdispc : (T.getD (idx % S) 0 >>> 8) &&& 0xff = d' := hdisp
    have hnext0 : ∀ T' : List Nat, (∀ i, i ≠ idx % S → T'.getD i 0 = T.getD i 0) →
        T'.getD ((idx % S + 1 + j) % S) 0 = 0 := by
      intro T' hT'
      rw [probe_succ, hT' _ (probe_ne S idx (j + 1) (by omega) hjS)]
      exact hempty
    have hnextfull : ∀ T' : List Nat, (∀ i, i ≠ idx % S → T'.getD i 0 = T.getD i 0) →
        ∀ i, i < j → T'.getD ((idx % S + 1 + i) % S) 0 ≠ 0 := by
      intro T' hT' i hi
      rw [probe_succ, hT' _ (probe_ne S idx (i + 1) (by omega) (by omega))]
      exact hfull (i + 1) (by omega)
    have hnextahead : ∀ T' : List Nat, (∀ i, i ≠ idx % S → T'.getD i 0 = T.getD i 0) →
        ∀ i, i < j → entry_disp (T'.getD ((idx % S + 1 + i) % S) 0) < B := by
      intro T' hT' i hi
      rw [probe_succ, hT' _ (probe_ne S idx (i + 1) (by omega) (by omega))]
      exact inv.ahead (i + 1) (by omega)
    have hprev : prev_slot S ((idx % S + 1) % S) = idx % S := by
      rw [prev_slot_succ S _ hS0, Nat.mod_mod]
    rw [insert_loop_writes] at hw
    simp only [] at hw
    rw [if_neg hocc, hdispc, hmask] at hw
    by_cases hsteal : p > d'
    · rw [if_pos hsteal, key_write k p inv.key (by omega), List.mem_cons] at hw
      rcases hw with rfl | hw
      · exact ⟨k, p, inv.kmem, hpB, rfl, inv.home⟩
      have hget0 : (T.set (idx % S) (k + p * 256)).getD (idx % S) 0 = k + p * 256 :=
        getD_set_eq T _ _ hi0T
      have hget : ∀ i, i ≠ idx % S →
          (T.set (idx % S) (k + p * 256)).getD i 0 = T.getD i 0 :=
        fun i hi => getD_set_ne T _ _ _ (Ne.symm hi)
      have hpd : entry_disp (k + p * 256) = p := key_disp k p inv.key (by omega)
      have hvne : k + p * 256 ≠ 0 := key_entry_ne_zero k p inv.key
      apply ih f (T.set (idx % S) (k + p * 256)) k' (d' + 1) (idx % S + 1) (by omega) (by omega)
        (hnext0 _ hget) (hnextfull _ hget) _ w hw
      refine ⟨by rw [List.length_set]; exact inv.len, hkey', hk', by omega, ?_, ?_, ?_,
        hnextahead _ hget, ?_, ?_, ?_, inv.keys⟩
      · exact home_succ S (H k' + d') (idx % S) (by rw [hh, Nat.mod_mod])
      · intro _
        rw [hprev, hget0, hpd]
        exact ⟨hvne, by omega⟩
      · intro i hi hne
        by_cases hii : i = idx % S
        · subst hii
          rw [hget0]
          exact ⟨k, p, inv.kmem, inv.pB, rfl, inv.home⟩
        · rw [hget i hii] at hne ⊢
          exact inv.slot i hi hne
      · intro i hi hne hpos
        by_cases hii : i = idx % S
        · subst hii
          rw [hget0, hpd] at hpos
          rw [hget0, hpd, hget _ (prev_slot_ne S _ hS hi0)]
          exact inv.crh hpos
        · rw [hget i hii] at hne hpos ⊢
          have hold := inv.rh i hi hne hpos
          by_cases hpi : prev_slot S i = idx % S
          · rw [hpi, hget0, hpd]
            rw [hpi, hdisp] at hold
            exact ⟨hvne, by omega⟩
          · rw [hget _ hpi]
            exact hold
      · intro k'' hk''
        rcases inv.mem k'' hk'' with rfl | ⟨i, d, hi, hd, he2, hh2⟩
        · exact Or.inr ⟨idx % S, p, hi0, inv.pB, hget0, inv.home⟩
        · by_cases hii : i = idx % S
          · left
            rw [hii, he] at he2
            exact ((key_entry_inj k' k'' d' d hkey' (inv.keys k'' hk'') (by omega) (by omega)
              he2).1).symm
          · exact Or.inr ⟨i, d, hi, hd, by rw [hget i hii]; exact he2, hh2⟩
      · rw [countP_set_occupied T _ _ hi0T hvne hocc]
        exact inv.cnt
    · rw [if_neg hsteal] at hw
      apply ih f T k (p + 1) (idx % S + 1) (by omega) (by omega)
        (hnext0 T (fun _ _ => rfl)) (hnextfull T (fun _ _ => rfl)) _ w hw
      refine ⟨inv.len, inv.key, inv.kmem, by omega, ?_, ?_, inv.slot,
        hnextahead T (fun _ _ => rfl), inv.rh, inv.mem, inv.cnt, inv.keys⟩
      · exact home_succ S (H k + p) (idx % S) (by rw [inv.home, Nat.mod_mod])
      · intro _
        rw [hprev, hdisp]
        exact ⟨hocc, by omega⟩

/-- Every entry stored while a new key is inserted into a table that satisfies
the invariant is the entry of the new key or of an old key, at a displacement
of at most `B`. -/
theorem insert_loop_writes_ok (S : Nat) (H : Nat → Nat) (B : Nat) (K : Nat → Prop) (T : List Nat)
    (k0 hash fuel : Nat) (hS : 1 < S) (hB : B < 256) (hBS : B < S) (hfuel : S ≤ fuel)
    (inv : TblInv S H B K T) (hkey : is_key k0) (hhash : H k0 = hash) :
    ∀ w ∈ insert_loop_writes S fuel T k0 0 hash,
      ∃ k' d, (k' = k0 ∨ K k') ∧ d ≤ B ∧ w.2 = k' + d * 256 ∧ (H k' + d) % S = w.1 := by
  obtain ⟨j, hj, hempty, hfull⟩ := exists_first_empty S T hash (by omega) inv.len
    (lt_of_le_of_lt inv.cnt hBS)
  apply insert_loop_writes_inv S H B K k0 hS hB j fuel T k0 0 hash (by omega) hj hempty hfull
  refine ⟨inv.len, hkey, Or.inl rfl, Nat.zero_le _, by rw [Nat.add_zero, hhash], ?_, ?_, ?_,
    inv.rh, ?_, inv.cnt, ?_⟩
  · intro h
    exact absurd h (lt_irrefl 0)
  · intro i hi hne
    obtain ⟨k, d, hk, hd, he, hh⟩ := inv.slot i hi hne
    exact ⟨k, d, Or.inr hk, by omega, he, hh⟩
  · intro i _
    have hlt : (hash + i) % S < S := Nat.mod_lt _ (by omega)
    by_cases hne : T.getD ((hash + i) % S) 0 = 0
    · exact absurd hne (hfull i ‹_›)
    · obtain ⟨k, d, hk, hd, he, -⟩ := inv.slot _ hlt hne
      rw [he, key_disp k d (inv.keys k hk) (by omega)]
      exact hd
  · intro k' hk'
    rcases hk' with rfl | hk'
    · exact Or.inl rfl
    · obtain ⟨i, d, hi, hd, he, hh⟩ := inv.mem k' hk'
      exact Or.inr ⟨i, d, hi, by omega, he, hh⟩
  · intro k' hk'
    rcases hk' with rfl | hk'
    · exact hkey
    · exact inv.keys k' hk'

/-- Every entry stored in one round of the build is the entry of one of the
names inserted so far, at the slot as many slots after the home of the name as
the displacement of the entry says. -/
theorem ext_step_writes_ok (sc : Bool) (names : List (List Nat)) (S m fuel : Nat)
    (t : bdgl_exts_tbl) (hN : names.length ≤ 256)
    (hn : ∀ n ∈ names, n ≠ [] ∧ IsCStr n ∧ n.length ≤ 255)
    (hm : m < names.length) (hS : 1 < S) (hNS : names.length ≤ S) (hfuel : S ≤ fuel)
    (hfuel9 : 9 ≤ fuel) (inv : ExtInv sc names S m t) :
    ∀ w ∈ ext_step_writes fuel sc t (names.getD m []),
      ∃ j d, j < names.length ∧ d < names.length ∧ w.2 = name_key names j + d * 256 ∧
        ((bdgl_strhash sc (names.getD j [])).1 + d) % S = w.1 := by
  have hmem := getD_mem names m hm
  obtain ⟨hne, hcs, h255⟩ := hn _ hmem
  have hslen := bdgl_strhash_len sc _ hcs
  have hps : t.poolSize ≤ 255 * m := by
    rw [inv.psize]
    exact flatten_take_length_le names m (fun n h => (hn n h).2.2)
  have hpcap : t.poolSize ≤ t.poolCapacity := by
    have := congrArg List.length inv.pool
    rw [List.length_take, inv.plen, ← inv.psize] at this
    omega
  have hcl := inv.cap_lo
  have hch := inv.cap_hi
  obtain ⟨pool', cap', hpl, -⟩ :=
    pool_loop_ok (names.getD m []).length t.poolSize (by omega) 8 fuel t.pool t.poolCapacity
      (by omega) (by omega) hpcap hch inv.plen
  have hkey : is_key (name_key names m) :=
    name_key_is_key names m hm hN (fun n h => ⟨(hn n h).1, (hn n h).2.2⟩)
  have hkeyeq : name_key names m = t.poolSize * 65536 + (names.getD m []).length := by
    rw [name_key, inv.psize]
  have hhashj : ∀ j, j < names.length → key_hash sc names.flatten (name_key names j)
      = (bdgl_strhash sc (names.getD j [])).1 := by
    intro j hj
    rw [key_hash, key_name_name_key names j hj (fun n h => (hn n h).2.2)]
  have hoff : t.poolSize % 2 ^ 16 = t.poolSize := Nat.mod_eq_of_lt (by omega)
  have hnew : (t.poolSize <<< 16) ||| ((names.getD m []).length % 2 ^ 32) = name_key names m := by
    rw [new_entry_eq _ _ (by omega), hkeyeq]
  intro w hw
  unfold ext_step_writes at hw
  simp only [hslen, hpl, hoff, hnew, inv.size] at hw
  obtain ⟨k', d, hk', hd, he, hh⟩ := insert_loop_writes_ok S (key_hash sc names.flatten) m
    (fun k => ∃ i, i < m ∧ k = name_key names i) t.tbl (name_key names m)
    (bdgl_strhash sc (names.getD m [])).1 fuel hS (by omega) (by omega) hfuel inv.tbl hkey
    (hhashj m hm) w hw
  rcases hk' with rfl | ⟨i, hi, rfl⟩
  · exact ⟨m, d, hm, by omega, he, by rw [← hhashj m hm]; exact hh⟩
  · exact ⟨i, d, by omega, by omega, he, by rw [← hhashj i (by omega)]; exact hh⟩

/-- Every entry stored in the rounds for the names from the `m`-th on is the
entry of one of the names. -/
theorem ext_loop_writes_ok (sc : Bool) (names : List (List Nat)) (S fuel : Nat)
    (hN : names.length ≤ 256)
    (hn : ∀ n ∈ names, n ≠ [] ∧ IsCStr n ∧ n.length ≤ 255)
    (hS : 1 < S) (hNS : names.length ≤ S) (hfuel : S ≤ fuel) (hfuel9 : 9 ≤ fuel) :
    ∀ (todo : List (List Nat)) (m : Nat) (t : bdgl_exts_tbl), names.drop m = todo →
      m ≤ names.length → ExtInv sc names S m t →
      ∀ w ∈ ext_loop_writes fuel sc todo t,
        ∃ j d, j < names.length ∧ d < names.length ∧ w.2 = name_key names j + d * 256 ∧
          ((bdgl_strhash sc (names.getD j [])).1 + d) % S = w.1 := by
  intro todo
  induction todo with
  | nil =>
    intro m t _ _ _ w hw
    simp [ext_loop_writes] at hw
  | cons n todo ih =>
    intro m t hdrop _ inv w hw
    have hm : m < names.length := by
      by_contra hc
      rw [List.drop_of_length_le (by omega)] at hdrop
      exact List.noConfusion hdrop
    have hnm : names.getD m [] = n := by
      rw [List.getD_eq_getElem?_getD, ← List.head?_drop, hdrop]
      rfl
    have hrest : names.drop (m + 1) = todo := by
      rw [← List.drop_drop 1 m, hdrop]
      rfl
    obtain ⟨t1, h1, inv1⟩ := ext_step_ok sc names S m fuel t hN hn hm hS hNS hfuel hfuel9 inv
    have hw1 := ext_step_writes_ok sc names S m fuel t hN hn hm hS hNS hfuel hfuel9 inv
    rw [hnm] at h1 hw1
    rw [ext_loop_writes, h1, List.mem_append] at hw
    rcases hw with hw | hw
    · exact hw1 w hw
    · exact ih (m + 1) t1 hrest (by omega) inv1 w hw

/-- The state in which the `for` loop of the build starts satisfies the
invariant for no names. -/
theorem ext_initial_inv (sc : Bool) (names : List (List Nat)) (S cap : Nat) (hlo : 256 ≤ cap)
    (hhi : cap ≤ 2 ^ 17) : ExtInv sc names S 0 (ext_initial S cap names.length) := by
  refine ⟨rfl, by simp [ext_initial], by simp [ext_initial], by simp [ext_initial], hlo, hhi, ?_⟩
  refine ⟨by simp [ext_initial], ?_, ?_, ?_, ?_, ?_⟩
  · intro i _ hne
    exact absurd (getD_replicate_zero S i) hne
  · intro i _ hne
    exact absurd (getD_replicate_zero S i) hne
  · rintro k ⟨i, hi, -⟩
    omega
  · exact Nat.le_of_eq (occupied_replicate_zero S)
  · rintro k ⟨i, hi, -⟩
    omega

/-- Every slot of the table that an insertion loop returns holds what it held
before or what the loop stored there. -/
theorem insert_loop_stored (S : Nat) :
    ∀ (fuel : Nat) (T : List Nat) (e p idx : Nat) (T' : List Nat),
      insert_loop S fuel T e p idx = some T' →
      ∀ i, T'.getD i 0 = T.getD i 0 ∨ (i, T'.getD i 0) ∈ insert_loop_writes S fuel T e p idx := by
  intro fuel
  induction fuel with
  | zero =>
    intro T e p idx T' h
    simp [insert_loop] at h
  | succ f ih =>
    intro T e p idx T' h i
    have hset : ∀ v : Nat, (T.set (idx % S) v).getD i 0 = T.getD i 0 ∨
        (i = idx % S ∧ (T.set (idx % S) v).getD i 0 = v) := by
      intro v
      by_cases hi : i = idx % S
      · by_cases hlt : idx % S < T.length
        · right
          exact ⟨hi, by rw [hi]; exact getD_set_eq T _ _ hlt⟩
        · left
          rw [List.set_eq_of_length_le (by omega)]
      · left
        exact getD_set_ne T _ _ _ (Ne.symm hi)
    rw [insert_loop] at h
    rw [insert_loop_writes]
    simp only [] at h ⊢
    split_ifs at h ⊢ with h0 h1
    · cases h
      rcases hset (e ||| (p <<< 8) % 2 ^ 32) with hs | ⟨hi, hs⟩
      · exact Or.inl hs
      · right
        rw [hs, hi]
        exact List.mem_singleton.mpr rfl
    · rcases ih _ _ _ _ T' h i with hsame | hw
      · rcases hset (e ||| (p <<< 8) % 2 ^ 32) with hs | ⟨hi, hs⟩
        · exact Or.inl (by rw [hsame, hs])
        · right
          rw [hsame, hs, hi]
          exact List.mem_cons_self _ _
      · exact Or.inr (List.mem_cons_of_mem _ hw)
    · exact ih _ _ _ _ T' h i

/-- Every slot of the table after a round of the build holds what it held
before or what the round stored there. -/
theorem ext_step_stored (fuel : Nat) (sc : Bool) (t t' : bdgl_exts_tbl) (n : List Nat)
    (h : ext_step fuel sc t n = some t') :
    ∀ i, t'.tbl.getD i 0 = t.tbl.getD i 0 ∨ (i, t'.tbl.getD i 0) ∈ ext_step_writes fuel sc t n := by
  intro i
  unfold ext_step at h
  unfold ext_step_writes
  simp only [] at h ⊢
  split at h
  · exact absurd h (by simp)
  · rename_i pool' cap' hp
    rw [hp]
    simp only []
    split at h
    · exact absurd h (by simp)
    · rename_i T' hT'
      simp only [Option.some.injEq] at h
      rw [← h]
      exact insert_loop_stored _ _ _ _ _ _ T' hT' i

/-- Every slot of the table after the rounds of the build holds what it held
before or what a round stored there. -/
theorem ext_loop_stored (fuel : Nat) (sc : Bool) :
    ∀ (names : List (List Nat)) (t t' : bdgl_exts_tbl), ext_loop fuel sc names t = some t' →
      ∀ i, t'.tbl.getD i 0 = t.tbl.getD i 0 ∨
        (i, t'.tbl.getD i 0) ∈ ext_loop_writes fuel sc names t := by
  intro names
  induction names with
  | nil =>
    intro t t' h i
    simp only [ext_loop, Option.some.injEq] at h
    rw [h]
    exact Or.inl rfl
  | cons n names ih =>
    intro t t' h i
    rw [ext_loop] at h
    rw [ext_loop_writes]
    cases hs : ext_step fuel sc t n with
    | none => simp [hs] at h
    | some t1 =>
      simp only [hs] at h ⊢
      rcases ih t1 t' h i with hsame | hw
      · rcases ext_step_stored fuel sc t t1 n hs i with hs1 | hw1
        · exact Or.inl (by rw [hsame, hs1])
        · right
          rw [hsame]
          exact List.mem_append_left _ hw1
      · exact Or.inr (List.mem_append_right _ hw)

/-- The build and the log of its stores run the same loop from the same
state. -/
theorem bdgl_ext_init_writes_eq (fuel : Nat) (sc : Bool) (names : List (List Nat))
    (t : bdgl_exts_tbl) (h : bdgl_ext_init fuel sc names = some t) :
    ∃ S cap, pow2_loop fuel 32 ((names.length + names.length / 2) % 2 ^ 32) = some S ∧
      pow2_loop fuel 256 ((names.length * 25) % 2 ^ 32) = some cap ∧
      ext_loop fuel sc names (ext_initial S cap names.length) = some t ∧
      bdgl_ext_init_writes fuel sc names
        = ext_loop_writes fuel sc names (ext_initial S cap names.length) := by
  unfold bdgl_ext_init at h
  unfold bdgl_ext_init_writes
  simp only [] at h ⊢
  split at h
  · exact absurd h (by simp)
  · rename_i S hS
    split at h
    · exact absurd h (by simp)
    · rename_i cap hcap
      refine ⟨S, cap, hS, hcap, h, ?_⟩
      simp only [hS, hcap]

/-- Every occupied slot of a built table holds an entry that the build stored
at that slot. -/
theorem bdgl_ext_init_stored (fuel : Nat) (sc : Bool) (names : List (List Nat))
    (t : bdgl_exts_tbl) (h : bdgl_ext_init fuel sc names = some t) (i : Nat)
    (hne : t.tbl.getD i 0 ≠ 0) : (i, t.tbl.getD i 0) ∈ bdgl_ext_init_writes fuel sc names := by
  obtain ⟨S, cap, -, -, hloop, hw⟩ := bdgl_ext_init_writes_eq fuel sc names t h
  rw [hw]
  rcases ext_loop_stored fuel sc names _ t hloop i with hsame | hmem
  · exact absurd (by rw [hsame]; exact getD_replicate_zero S i) hne
  · exact hmem

/-- Within the limits of the slot format, every entry stored during the build
is the entry of one of the names at a displacement below the number of
names, stored at the slot that many slots after the home of the name. -/
theorem bdgl_ext_init_writes_ok (sc : Bool) (names : List (List Nat)) (fuel : Nat)
    (t : bdgl_exts_tbl) (hN : names.length ≤ 256)
    (hn : ∀ n ∈ names, n ≠ [] ∧ IsCStr n ∧ n.length ≤ 255)
    (hfuel : 512 ≤ fuel) (h : bdgl_ext_init fuel sc names = some t) :
    ∀ w ∈ bdgl_ext_init_writes fuel sc names,
      ∃ j d, j < names.length ∧ d < names.length ∧ w.2 = name_key names j + d * 256 ∧
        ((bdgl_strhash sc (names.getD j [])).1 + d) % t.tblSize = w.1 := by
  obtain ⟨S, cap, hS, hcap, hloop, hw⟩ := bdgl_ext_init_writes_eq fuel sc names t h
  have hmin : (names.length + names.length / 2) % 2 ^ 32 = names.length + names.length / 2 :=
    Nat.mod_eq_of_lt (by omega)
  have hminp : (names.length * 25) % 2 ^ 32 = names.length * 25 := Nat.mod_eq_of_lt (by omega)
  obtain ⟨S', hS', hS32, hSmin, hSmax⟩ := pow2_loop_ok 4 fuel 32
    (names.length + names.length / 2) (by omega) (by norm_num; omega) (by norm_num)
  obtain ⟨cap', hcap', hcap256, -, hcapmax⟩ := pow2_loop_ok 5 fuel 256 (names.length * 25)
    (by omega) (by norm_num; omega) (by norm_num)
  rw [hmin, hS'] at hS
  rw [hminp, hcap'] at hcap
  have hSS : S' = S := Option.some.inj hS
  have hcc : cap' = cap := Option.some.inj hcap
  rw [hSS] at hS32 hSmax
  rw [hcc] at hcap256 hcapmax
  have hSmax' : S ≤ 512 := by norm_num at hSmax; exact hSmax
  have hcapmax' : cap ≤ 8192 := by norm_num at hcapmax; exact hcapmax
  have hsize : t.tblSize = S := by
    rw [ext_loop_tblSize fuel sc names _ t hloop]
    rfl
  rw [hw, hsize]
  exact ext_loop_writes_ok sc names S fuel hN hn (by omega) (by omega) (by omega) (by omega)
    names 0 _ rfl (Nat.zero_le _) (ext_initial_inv sc names S cap hcap256 (by omega))

/-- Within the limits of the slot format the fields of the entry of the `j`-th
name at displacement `d` are exact: the entry is not the empty sentinel and
fits 32 bits, its offset field is the total length of the names before, its
length field the length of the name, its displacement field `d`, and the
range that offset and length designate lies within the bytes of the names. -/
theorem name_entry_fields (names : List (List Nat)) (j d : Nat) (hj : j < names.length)
    (hN : names.length ≤ 256) (hn : ∀ n ∈ names, n ≠ [] ∧ n.length ≤ 255) (hd : d < 256) :
    name_key names j + d * 256 ≠ 0 ∧ name_key names j + d * 256 < 2 ^ 32 ∧
      ((name_key names j + d * 256) >>> 16) &&& 0xffff = ((names.take j).flatten).length ∧
      (name_key names j + d * 256) &&& 0xff = (names.getD j []).length ∧
      entry_disp (name_key names j + d * 256) = d ∧
      ((names.take j).flatten).length < 65536 ∧
      0 < (names.getD j []).length ∧ (names.getD j []).length < 256 ∧
      ((names.take j).flatten).length + (names.getD j []).length ≤ names.flatten.length := by
  have h1 := flatten_take_length_le names j (fun n h => (hn n h).2)
  have hmem := getD_mem names j hj
  have h2 := (hn _ hmem).2
  have h3 : 0 < (names.getD j []).length := List.length_pos.mpr (hn _ hmem).1
  have hkey := name_key_is_key names j hj hN hn
  have hle := flatten_take_length_mono names (j + 1)
  rw [take_succ_flatten names j hj, List.length_append] at hle
  refine ⟨key_entry_ne_zero _ d hkey, ?_, ?_, ?_, key_disp _ d hkey hd, by omega, h3, by omega,
    hle⟩
  · unfold name_key; omega
  · rw [entry_off_eq]; unfold name_key; omega
  · rw [entry_len_eq]; unfold name_key; omega

/-- Within the limits of the slot format a table that satisfies the invariant
for all the names reports exactly the names present. -/
theorem have_ext_built (sc : Bool) (names : List (List Nat)) (fuel : Nat) (t : bdgl_exts_tbl)
    (q : List Nat) (hN : names.length ≤ 256)
    (hn : ∀ n ∈ names, n ≠ [] ∧ IsCStr n ∧ n.length ≤ 255)
    (hS : 0 < t.tblSize) (hfuel : 256 < fuel)
    (inv : ExtInv sc names t.tblSize names.length t) (hq : IsCStr q) :
    bdgl_have_ext fuel sc t q = some (if q ∈ names then 1 else 0) := by
  by_cases hmem : q ∈ names
  · rw [if_pos hmem]
    obtain ⟨j, hj, rfl⟩ := List.getElem_of_mem hmem
    have := have_ext_present sc names t.tblSize fuel t j hN hn hS hfuel inv hj
    rw [List.getD_eq_getElem?_getD, List.getElem?_eq_getElem hj] at this
    exact this
  · rw [if_neg hmem]
    exact have_ext_absent sc names t.tblSize fuel t q hN hn hS hfuel inv hq hmem

/-- C15: within the limits of the packed slot format, at most 256 names of 1
to 255 bytes each (their total length then is at most 65280 bytes), the build
returns and `bdgl_have_ext(q)` returns 1 exactly for the queries that equal
one of the names, and 0 for the others.  Every entry stored during the build
is, for one of the names `n_j` and a displacement `d < 256`, the number
`off_j * 65536 + d * 256 + len(n_j)` with `off_j < 65536` the total length of
the names before `n_j` and `0 < len(n_j) < 256`: its three fields read back as
`off_j`, `len(n_j)` and `d`, it is not the empty sentinel 0, it fits 32 bits,
and it is stored at slot `(hash(n_j) + d) mod tblSize`.  Every occupied slot
of the built table holds such an entry, and every name has one. -/
theorem have_ext_exact_within_limits (sc : Bool) (names : List (List Nat)) (fuel : Nat)
    (hN : names.length ≤ 256)
    (hn : ∀ n ∈ names, n ≠ [] ∧ IsCStr n ∧ n.length ≤ 255)
    (hfuel : 512 ≤ fuel) :
    names.flatten.length ≤ 65280 ∧
    ∃ t, bdgl_ext_init fuel sc names = some t ∧
      (∀ q, IsCStr q →
        bdgl_have_ext fuel sc t q = some (if q ∈ names then 1 else 0) ∧
        (bdgl_have_ext fuel sc t q = some 1 ↔ q ∈ names)) ∧
      (∀ w ∈ bdgl_ext_init_writes fuel sc names, ∃ j d, j < names.length ∧ d < 256 ∧
        w.2 = ((names.take j).flatten).length * 65536 + d * 256 + (names.getD j []).length ∧
        w.2 ≠ 0 ∧ w.2 < 2 ^ 32 ∧
        (w.2 >>> 16) &&& 0xffff = ((names.take j).flatten).length ∧
        w.2 &&& 0xff = (names.getD j []).length ∧
        (w.2 >>> 8) &&& 0xff = d ∧
        ((names.take j).flatten).length < 65536 ∧
        0 < (names.getD j []).length ∧ (names.getD j []).length < 256 ∧
        w.1 = ((bdgl_strhash sc (names.getD j [])).1 + d) % t.tblSize) ∧
      (∀ i, i < t.tblSize → t.tbl.getD i 0 ≠ 0 →
        (i, t.tbl.getD i 0) ∈ bdgl_ext_init_writes fuel sc names) ∧
      (∀ j, j < names.length → ∃ i d, i < t.tblSize ∧ d < 256 ∧
        t.tbl.getD i 0
          = ((names.take j).flatten).length * 65536 + d * 256 + (names.getD j []).length ∧
        i = ((bdgl_strhash sc (names.getD j [])).1 + d) % t.tblSize) := by
  have hn' : ∀ n ∈ names, n ≠ [] ∧ n.length ≤ 255 := fun n h => ⟨(hn n h).1, (hn n h).2.2⟩
  have htot : names.flatten.length ≤ 65280 := by
    have := flatten_take_length_le names names.length (fun n h => (hn n h).2.2)
    rw [List.take_length] at this
    omega
  obtain ⟨t, ht, hS32, -, inv⟩ := bdgl_ext_init_ok sc names fuel hN hn hfuel
  refine ⟨htot, t, ht, ?_, ?_, ?_, ?_⟩
  · intro q hq
    have h := have_ext_built sc names fuel t q hN hn (by omega) (by omega) inv hq
    refine ⟨h, ?_⟩
    rw [h]
    by_cases hmem : q ∈ names
    · simp [hmem]
    · simp [hmem]
  · intro w hw
    obtain ⟨j, d, hj, hd, he, hh⟩ := bdgl_ext_init_writes_ok sc names fuel t hN hn hfuel ht w hw
    obtain ⟨f1, f2, f3, f4, f5, f6, f7, f8, -⟩ :=
      name_entry_fields names j d hj hN hn' (by omega)
    rw [← he] at f1 f2 f3 f4 f5
    refine ⟨j, d, hj, by omega, ?_, f1, f2, f3, f4, f5, f6, f7, f8, hh.symm⟩
    rw [he, name_key]
    omega
  · intro i _ hne
    exact bdgl_ext_init_stored fuel sc names t ht i hne
  · intro j hj
    obtain ⟨i, d, hi, hd, he, hh⟩ := inv.tbl.mem (name_key names j) ⟨j, hj, rfl⟩
    have hhash : key_hash sc names.flatten (name_key names j)
        = (bdgl_strhash sc (names.getD j [])).1 := by
      rw [key_hash, key_name_name_key names j hj (fun n h => (hn n h).2.2)]
    refine ⟨i, d, hi, by omega, ?_, by rw [← hhash]; exact hh.symm⟩
    rw [he, name_key]
    omega

/-- C15, at three names and fuel 600. -/
theorem have_ext_exact_within_limits_witness :
    sample_names.flatten.length ≤ 65280 ∧
    ∃ t, bdgl_ext_init 600 true sample_names = some t ∧
      (∀ q, IsCStr q →
        bdgl_have_ext 600 true t q = some (if q ∈ sample_names then 1 else 0) ∧
        (bdgl_have_ext 600 true t q = some 1 ↔ q ∈ sample_names)) ∧
      (∀ w ∈ bdgl_ext_init_writes 600 true sample_names, ∃ j d,
        j < sample_names.length ∧ d < 256 ∧
        w.2 = ((sample_names.take j).flatten).length * 65536 + d * 256
          + (sample_names.getD j []).length ∧
        w.2 ≠ 0 ∧ w.2 < 2 ^ 32 ∧
        (w.2 >>> 16) &&& 0xffff = ((sample_names.take j).flatten).length ∧
        w.2 &&& 0xff = (sample_names.getD j []).length ∧
        (w.2 >>> 8) &&& 0xff = d ∧
        ((sample_names.take j).flatten).length < 65536 ∧
        0 < (sample_names.getD j []).length ∧ (sample_names.getD j []).length < 256 ∧
        w.1 = ((bdgl_strhash true (sample_names.getD j [])).1 + d) % t.tblSize) ∧
      (∀ i, i < t.tblSize → t.tbl.getD i 0 ≠ 0 →
        (i, t.tbl.getD i 0) ∈ bdgl_ext_init_writes 600 true sample_names) ∧
      (∀ j, j < sample_names.length → ∃ i d, i < t.tblSize ∧ d < 256 ∧
        t.tbl.getD i 0
          = ((sample_names.take j).flatten).length * 65536 + d * 256
            + (sample_names.getD j []).length ∧
        i = ((bdgl_strhash true (sample_names.getD j [])).1 + d) % t.tblSize) :=
  have_ext_exact_within_limits true sample_names 600 (by decide) (by decide) (by decide)

/-! ## Capability set: the order of the names -/

/-- C13 fails for a name longer than 255 bytes: `long_name` is `Gb` followed
by 256 bytes `p`, so its slot entry has the length byte 2 and the
displacement field 1; its hash and the hash of the one-byte name `q` select
slot 25, the hash of the query `Gb` selects slot 26.  Built from
`[long_name, q]` the set reports the query `Gb` absent, built from
`[q, long_name]` it reports `Gb` present, though `Gb` is none of the names. -/
theorem build_order_changes_result :
    List.Perm [long_name, [113]] [[113], long_name] ∧
    build_and_query 40 true [long_name, [113]] [71, 98] = some 0 ∧
    build_and_query 40 true [[113], long_name] [71, 98] = some 1 :=
  ⟨List.Perm.swap _ _ _, by decide!, by decide!⟩

/-- C13, within the limits of the slot format: for at most 256 NUL-free names
of 1 to 255 bytes each, every permutation of the names and every NUL-free
query, the set built from the names and the set built from the permuted names
give the same `bdgl_have_ext` result, namely 1 if the query is one of the
names and 0 otherwise. -/
theorem build_order_independent (sc : Bool) (names names' : List (List Nat)) (fuel : Nat)
    (q : List Nat) (hperm : names.Perm names') (hN : names.length ≤ 256)
    (hn : ∀ n ∈ names, n ≠ [] ∧ IsCStr n ∧ n.length ≤ 255)
    (hq : IsCStr q) (hfuel : 512 ≤ fuel) :
    build_and_query fuel sc names q = build_and_query fuel sc names' q ∧
      build_and_query fuel sc names q = some (if q ∈ names then 1 else 0) := by
  have h1 := ext_roundtrip sc names fuel q hN hn hq hfuel
  have h2 := ext_roundtrip sc names' fuel q (by rw [← hperm.length_eq]; exact hN)
    (fun n h => hn n (hperm.mem_iff.mpr h)) hq hfuel
  refine ⟨?_, h1⟩
  rw [h1, h2]
  by_cases hmem : q ∈ names
  · rw [if_pos hmem, if_pos (hperm.mem_iff.mp hmem)]
  · rw [if_neg hmem, if_neg (fun h => hmem (hperm.mem_iff.mpr h))]

/-- C13, at three names and their reversal, for a query that is one of the
names. -/
theorem build_order_independent_witness :
    build_and_query 600 true sample_names (cstr "GL_KHR_debug")
        = build_and_query 600 true sample_names.reverse (cstr "GL_KHR_debug") ∧
      build_and_query 600 true sample_names (cstr "GL_KHR_debug")
        = some (if cstr "GL_KHR_debug" ∈ sample_names then 1 else 0) :=
  build_order_independent true sample_names sample_names.reverse 600 (cstr "GL_KHR_debug")
    (List.reverse_perm sample_names).symm (by decide) (by decide) (by decide) (by decide)

/-! ## Capability set: a cluster of 257 names -/

/-- The insertion loop in front of `m` occupied slots whose displacements are
`0 .. m - 1`, followed by an empty slot: no entry is evicted, and the new
entry is stored in the empty slot with `m` in the displacement bits. -/
theorem insert_loop_skips (S h m e : Nat) (T : List Nat) (hfit : h + m < S)
    (hocc : ∀ i, i < m → T.getD (h + i) 0 ≠ 0 ∧ entry_disp (T.getD (h + i) 0) = i)
    (hempty : T.getD (h + m) 0 = 0) :
    ∀ (n fuel k idx : Nat), k + n = m → idx % S = h + k → n < fuel →
      insert_loop S fuel T e k idx = some (T.set (h + m) (e ||| (m <<< 8) % 2 ^ 32)) := by
  intro n
  induction n with
  | zero =>
    intro fuel k idx hk hidx hfuel
    obtain ⟨f, rfl⟩ : ∃ f, fuel = f + 1 := ⟨fuel - 1, by omega⟩
    simp only [Nat.add_zero] at hk
    subst hk
    rw [insert_loop]
    simp only []
    rw [hidx, if_pos hempty]
  | succ n ih =>
    intro fuel k idx hk hidx hfuel
    obtain ⟨f, rfl⟩ : ∃ f, fuel = f + 1 := ⟨fuel - 1, by omega⟩
    obtain ⟨hne, hd⟩ := hocc k (by omega)
    have hd' : (T.getD (h + k) 0 >>> 8) &&& 0xff = k := hd
    rw [insert_loop]
    simp only []
    rw [hidx, if_neg hne, hd', if_neg (lt_irrefl k)]
    exact ih f (k + 1) (h + k + 1) (by omega) (by rw [Nat.mod_eq_of_lt (by omega)]; omega)
      (by omega)

/-- The entry written for the `m`-th name of the cluster. -/
theorem cluster_entry (m : Nat) (hm : m ≤ 256) :
    (4 * m * 65536 + 4) ||| (m <<< 8) % 2 ^ 32 = 4 * m * 65536 + m * 256 + 4 := by
  by_cases h : m < 256
  · rw [key_write (4 * m * 65536 + 4) m ⟨4 * m, 4, rfl, by omega, by omega, by omega⟩ h]
    omega
  · have : m = 256 := by omega
    subst this
    decide

/-- One round of the build for a name of the cluster. -/
theorem cluster_step (sc : Bool) (fuel m : Nat) (t : bdgl_exts_tbl) (n : List Nat)
    (hm : m ≤ 256) (hcs : IsCStr n) (hlen : n.length = 4)
    (hhash : (bdgl_strhash sc n).1 % 512 = 134) (hfuel : 300 ≤ fuel) (inv : ClusterInv m t) :
    ∃ t', ext_step fuel sc t n = some t' ∧ ClusterInv (m + 1) t' := by
  have hslen : (bdgl_strhash sc n).2 = 4 := by rw [bdgl_strhash_len sc n hcs, hlen]
  have htake : n.take 4 = n := List.take_of_length_le (by omega)
  have hps := inv.psize
  have hpf := inv.pfit
  have hcl := inv.cap_lo
  have hch := inv.cap_hi
  obtain ⟨pool', cap', hpl, hplen, hroom, hcapmono, hcaphi, -⟩ :=
    pool_loop_grows 4 t.poolSize (by omega) 23 fuel t.pool t.poolCapacity
      (by omega) (by omega) hpf hch inv.plen
  have hoff : t.poolSize % 2 ^ 16 = 4 * m := by rw [hps]; omega
  have hnew : ((4 * m) <<< 16) ||| (4 % 2 ^ 32) = 4 * m * 65536 + 4 :=
    new_entry_eq (4 * m) 4 (by omega)
  have hsz : (t.poolSize + 4) % 2 ^ 32 = 4 * (m + 1) := by rw [hps]; omega
  have hocc : ∀ i, i < m → t.tbl.getD (134 + i) 0 ≠ 0 ∧
      entry_disp (t.tbl.getD (134 + i) 0) = i := by
    intro i hi
    rw [inv.slots i hi, entry_disp_eq]
    constructor <;> omega
  have hins := insert_loop_skips 512 134 m (4 * m * 65536 + 4) t.tbl (by omega) hocc
    (inv.rest m (le_refl m)) m fuel 0 (bdgl_strhash sc n).1 (by omega) hhash (by omega)
  rw [cluster_entry m hm] at hins
  have htl := inv.tlen
  refine ⟨{ t with
    tbl := t.tbl.set (134 + m) (4 * m * 65536 + m * 256 + 4)
    pool := memcpy pool' (4 * m) n
    poolSize := 4 * (m + 1)
    poolCapacity := cap' }, ?_, ?_⟩
  · unfold ext_step
    simp only [hslen, hpl, hoff, hnew, hsz, htake, inv.size, hins]
  · refine ⟨inv.size, ?_, ?_, ?_, rfl, ?_, ?_, by simp only; omega, hcaphi⟩
    · simp only [List.length_set]
      exact htl
    · intro i hi
      simp only
      by_cases him : i = m
      · subst him
        exact getD_set_eq _ _ _ (by omega)
      · rw [getD_set_ne _ _ _ _ (by omega)]
        exact inv.slots i (by omega)
    · intro i hi
      simp only
      rw [getD_set_ne _ _ _ _ (by omega)]
      exact inv.rest i (by omega)
    · simp only
      rw [memcpy_length _ _ _ (by omega)]
      exact hplen
    · simp only
      omega

/-- The rounds of the build for names that all are four bytes long and hash
to slot 134 of the 512 slots. -/
theorem cluster_loop (sc : Bool) (names : List (List Nat)) (fuel : Nat)
    (hN : names.length ≤ 257)
    (hall : ∀ n ∈ names, IsCStr n ∧ n.length = 4 ∧ (bdgl_strhash sc n).1 % 512 = 134)
    (hfuel : 300 ≤ fuel) :
    ∀ (todo : List (List Nat)) (m : Nat) (t : bdgl_exts_tbl), names.drop m = todo →
      m ≤ names.length → ClusterInv m t →
      ∃ t', ext_loop fuel sc todo t = some t' ∧ ClusterInv names.length t' := by
  intro todo
  induction todo with
  | nil =>
    intro m t hdrop hle inv
    have hm : names.length ≤ m := List.drop_eq_nil_iff.mp hdrop
    have hmm : m = names.length := by omega
    subst hmm
    exact ⟨t, rfl, inv⟩
  | cons n todo ih =>
    intro m t hdrop _ inv
    have hm : m < names.length := by
      by_contra hc
      rw [List.drop_of_length_le (by omega)] at hdrop
      exact List.noConfusion hdrop
    have hnm : names.getD m [] = n := by
      rw [List.getD_eq_getElem?_getD, ← List.head?_drop, hdrop]
      rfl
    have hrest : names.drop (m + 1) = todo := by
      rw [← List.drop_drop 1 m, hdrop]
      rfl
    obtain ⟨hcs, hlen, hhash⟩ := hall _ (getD_mem names m hm)
    rw [hnm] at hcs hlen hhash
    obtain ⟨t1, h1, inv1⟩ := cluster_step sc fuel m t n (by omega) hcs hlen hhash hfuel inv
    obtain ⟨t2, h2, inv2⟩ := ih (m + 1) t1 hrest (by omega) inv1
    exact ⟨t2, by rw [ext_loop, h1]; exact h2, inv2⟩

/-- The names of the cluster: 257 names of four non-NUL bytes whose hashes
select slot 134. -/
theorem cluster_names_ok :
    cluster_names.length = 257 ∧
      ∀ n ∈ cluster_names, IsCStr n ∧ n.length = 4 ∧ (bdgl_strhash true n).1 % 512 = 134 := by
  decide!

/-- The build of the cluster starts its loop with a zeroed table of 512 slots
and a pool of 8192 bytes. -/
theorem cluster_init :
    bdgl_ext_init 600 true cluster_names
      = ext_loop 600 true cluster_names (ext_initial 512 8192 257) := by
  have hlen : cluster_names.length = 257 := cluster_names_ok.1
  have h1 : pow2_loop 600 32 ((257 + 257 / 2) % 2 ^ 32) = some 512 := by decide
  have h2 : pow2_loop 600 256 ((257 * 25) % 2 ^ 32) = some 8192 := by decide
  unfold bdgl_ext_init
  rw [hlen]
  simp only []
  rw [h1]
  simp only []
  rw [h2]
  rfl

/-- C18 fails for 257 names in one cluster: the names of `cluster_names` all
hash to slot 134 of the 512 slots, so the 257th is stored at probe count 256,
and `256 << 8` sets bit 16 of its entry.  The build returns with
`poolSize = 1028`, and the occupied slot 390 holds `0x4010004`, which decodes
to offset 1025 and length 4: the range ends at 1029, one byte past the
pool. -/
theorem slot_range_exceeds_pool :
    ∃ t, bdgl_ext_init 600 true cluster_names = some t ∧ t.poolSize = 1028 ∧
      t.tbl.getD 390 0 = 0x4010004 ∧ t.tbl.getD 390 0 ≠ 0 ∧
      (t.tbl.getD 390 0 >>> 16) &&& 0xffff = 1025 ∧ t.tbl.getD 390 0 &&& 0xff = 4 ∧
      t.poolSize < ((t.tbl.getD 390 0 >>> 16) &&& 0xffff) + (t.tbl.getD 390 0 &&& 0xff) := by
  have hinv0 : ClusterInv 0 (ext_initial 512 8192 257) := by
    refine ⟨rfl, ?_, ?_, ?_, rfl, ?_, ?_, ?_, ?_⟩
    · simp only [ext_initial, List.length_replicate]
    · intro i hi
      omega
    · intro i _
      exact getD_replicate_zero 512 (134 + i)
    · simp only [ext_initial, List.length_replicate]
    · simp only [ext_initial]
      omega
    · simp only [ext_initial]
      omega
    · simp only [ext_initial]
      omega
  obtain ⟨t, ht, inv⟩ := cluster_loop true cluster_names 600
    (Nat.le_of_eq cluster_names_ok.1) cluster_names_ok.2 (by omega) cluster_names 0 _ rfl
    (Nat.zero_le _) hinv0
  rw [cluster_names_ok.1] at inv
  have hslot : t.tbl.getD 390 0 = 0x4010004 := inv.slots 256 (by omega)
  have hps : t.poolSize = 1028 := inv.psize
  refine ⟨t, by rw [cluster_init]; exact ht, hps, hslot, ?_, ?_, ?_, ?_⟩
  · rw [hslot]; decide
  · rw [hslot]; decide
  · rw [hslot]; decide
  · rw [hslot, hps]; decide

/-- C18, within the limits of the slot format: for at most 256 NUL-free names
of 1 to 255 bytes each the build returns, and every occupied slot of the
table decodes to an offset and a length with `offset + length <= poolSize`,
`poolSize` being the total length of the names and at most the size of the
pool; the bytes of the pool in that range are one of the names, so every range
that `bdgl_have_ext` compares lies inside the bytes written during the
build. -/
theorem slot_range_within_limits (sc : Bool) (names : List (List Nat)) (fuel : Nat)
    (hN : names.length ≤ 256)
    (hn : ∀ n ∈ names, n ≠ [] ∧ IsCStr n ∧ n.length ≤ 255)
    (hfuel : 512 ≤ fuel) :
    ∃ t, bdgl_ext_init fuel sc names = some t ∧ t.poolSize = names.flatten.length ∧
      t.poolSize ≤ t.pool.length ∧
      ∀ i, t.tbl.getD i 0 ≠ 0 →
        ((t.tbl.getD i 0 >>> 16) &&& 0xffff) + (t.tbl.getD i 0 &&& 0xff) ≤ t.poolSize ∧
        ∃ j, j < names.length ∧
          (t.pool.drop ((t.tbl.getD i 0 >>> 16) &&& 0xffff)).take (t.tbl.getD i 0 &&& 0xff)
            = names.getD j [] := by
  have hn' : ∀ n ∈ names, n ≠ [] ∧ n.length ≤ 255 := fun n h => ⟨(hn n h).1, (hn n h).2.2⟩
  obtain ⟨t, ht, hS32, -, inv⟩ := bdgl_ext_init_ok sc names fuel hN hn hfuel
  have hps : t.poolSize = names.flatten.length := by
    rw [inv.psize, List.take_length]
  have hpool : t.pool.take t.poolSize = names.flatten := by
    rw [inv.pool, List.take_length]
  have hplen : t.poolSize ≤ t.pool.length := by
    have := congrArg List.length hpool
    rw [List.length_take, ← hps] at this
    omega
  refine ⟨t, ht, hps, hplen, ?_⟩
  intro i hne
  have hi : i < t.tblSize := by
    by_contra hc
    have hlen := inv.tbl.len
    rw [List.getD_eq_getElem?_getD, List.getElem?_eq_none (by omega)] at hne
    exact hne rfl
  obtain ⟨k, d, ⟨j, hj, rfl⟩, hd, he, -⟩ := inv.tbl.slot i hi hne
  obtain ⟨-, -, f3, f4, -, -, -, -, f9⟩ := name_entry_fields names j d hj hN hn' (by omega)
  rw [he, f3, f4]
  refine ⟨by omega, j, hj, ?_⟩
  rw [drop_take_of_take t.pool names.flatten t.poolSize _ _ hpool (by omega)]
  conv_lhs => rw [flatten_split names j hj]
  rw [List.drop_left, List.take_left]

/-- C18, at three names and fuel 600. -/
theorem slot_range_within_limits_witness :
    ∃ t, bdgl_ext_init 600 true sample_names = some t ∧ t.poolSize = sample_names.flatten.length ∧
      t.poolSize ≤ t.pool.length ∧
      ∀ i, t.tbl.getD i 0 ≠ 0 →
        ((t.tbl.getD i 0 >>> 16) &&& 0xffff) + (t.tbl.getD i 0 &&& 0xff) ≤ t.poolSize ∧
        ∃ j, j < sample_names.length ∧
          (t.pool.drop ((t.tbl.getD i 0 >>> 16) &&& 0xffff)).take (t.tbl.getD i 0 &&& 0xff)
            = sample_names.getD j [] :=
  slot_range_within_limits true sample_names 600 (by decide) (by decide) (by decide)

/-! ## Capability set: the displacements written by the build -/

/-- Beyond the limits of the slot format the probe count can exceed the
largest displacement written by more than one: two names of 258 bytes, `a...`
and `b...`, are stored at probe count 0 in the slots 30 and 29, but bit 8 of
their length reads as displacement 1, so the lookup of the second name passes
both slots and returns, absent, at probe count 2. -/
theorem have_ext_probe_long_names :
    bdgl_ext_init_disps 40 true [List.replicate 258 97, List.replicate 258 98] = [0, 0] ∧
    max_written_disp 40 true [List.replicate 258 97, List.replicate 258 98] = 0 ∧
    (bdgl_ext_init 40 true [List.replicate 258 97, List.replicate 258 98]).bind
        (fun t => bdgl_have_ext_probe 40 true t (List.replicate 258 98))
      = some (0, 2) := by
  decide!

end Bdgl
